import Mathlib

/-!
# Gomoku search core: a shallow embedding

The definitions below transcribe the search core of the repository
(`Point.cpp`, `ChessInfo.cpp`, `Rule.cpp`, `AI.cpp`) into pure Lean functions.
C++ `int` coordinates and cell values are `Int`; the array `pieces[16][16]`
is a function of its two indices; `std::vector` and `std::string` are lists.
-/

namespace Gomoku

/-! ## Strings.cpp -/

def board_rows : Int := 15
def board_cols : Int := 15
def black_turn : Int := 0
def white_turn : Int := 1
def black_piece : Int := 1
def white_piece : Int := 2

/-! ## Point.cpp -/

/-- The struct `point`: a pair of `int` coordinates. -/
structure point where
  x : Int
  y : Int
deriving DecidableEq, Repr

/-- The operator `point::operator+=`, as a pure sum. -/
def point.add (p d : point) : point := ⟨p.x + d.x, p.y + d.y⟩

/-- The order `point::operator<`: by row, then by column. -/
def point.lt (p q : point) : Bool :=
  if p.x = q.x then decide (p.y < q.y) else decide (p.x < q.x)

/-- The method `point::is_valid`. -/
def point.is_valid (p : point) : Bool :=
  decide (p.x ≥ 1) && decide (p.x ≤ board_rows) && decide (p.y ≥ 1) && decide (p.y ≤ board_cols)

/-! ## ChessInfo.cpp -/

/-- The array `int pieces[16][16]`, read as `pieces x y`. -/
abbrev Board := Int → Int → Int

/-- The struct `chess_info`. -/
structure chess_info where
  pieces : Board
  turn : Int
  round : Int
  current_point : point

/-- The assignment `pieces[p.x][p.y] = v` on a copy of the board. -/
def set_piece (b : Board) (p : point) (v : Int) : Board :=
  fun i j => if i = p.x ∧ j = p.y then v else b i j

/-- The assignment `next_state.pieces[p.x][p.y] = v` on a copy of the state. -/
def chess_info.place (s : chess_info) (p : point) (v : Int) : chess_info :=
  { s with pieces := set_piece s.pieces p v }

/-- The board the constructor `chess_info::chess_info` builds: every cell 0. -/
def empty_board : Board := fun _ _ => 0

/-! ## Loops -/

/-- The range `std::views::iota(a, b)`: the integers `a, a+1, ..., b-1`. -/
def iota (a b : Int) : List Int :=
  (List.range (b - a).toNat).map (fun (k : Nat) => a + (k : Int))

/-! ## AI.cpp: move generation -/

/-- The flag `has_pieces` of `engine::get_moves`: the two nested loops with
their `break`s stop at the first occupied cell. -/
def has_pieces (board : chess_info) : Bool :=
  (iota 1 16).any (fun i => (iota 1 16).any (fun j => board.pieces i j != 0))

/-- The flag `neighbor` of `engine::get_moves` for the cell `(i, j)`. -/
def has_neighbor (board : chess_info) (i j : Int) : Bool :=
  (iota (-2) 3).any (fun dx => (iota (-2) 3).any (fun dy =>
    let nx := i + dx
    let ny := j + dy
    (decide (nx ≥ 1) && decide (nx ≤ 15) && decide (ny ≥ 1) && decide (ny ≤ 15))
      && (board.pieces nx ny != 0)))

/-- The condition under which the second pair of loops of `engine::get_moves`
pushes the cell `(i, j)`: it is empty and its flag `neighbor` is set. -/
def is_candidate (board : chess_info) (i j : Int) : Bool :=
  board.pieces i j == 0 && has_neighbor board i j

/-- The function `engine::get_moves`. -/
def get_moves (board : chess_info) : List point :=
  if !has_pieces board then
    [⟨8, 8⟩]
  else
    (iota 1 16).foldl (fun moves i =>
      (iota 1 16).foldl (fun moves j =>
        if board.pieces i j == 0 then
          if has_neighbor board i j then moves ++ [⟨i, j⟩] else moves
        else moves) moves) []

/-! ## Rule.cpp -/

def dx_offsets : List Int := [-1, 0, -1, -1]
def dy_offsets : List Int := [0, -1, -1, 1]

/-- The conversion `static_cast<char>('0' + v)` of a cell value to its symbol
(a byte, hence modulo 256). -/
def to_char (i : Int) : Char := Char.ofNat ((i + 48) % 256).toNat

/-- The `while` loop of `count_in_direction`. Each iteration moves `origin` by
`delta`; the first argument bounds the number of iterations. -/
def count_loop (board : Board) (delta : point) (color : Int) : Nat → point → Int → Int
  | 0, _, count => count
  | fuel + 1, origin, count =>
    if origin.is_valid then
      if board origin.x origin.y = color then
        count_loop board delta color fuel (origin.add delta) (count + 1)
      else count
    else count

/-- The function `count_in_direction` of Rule.cpp. A walk from a board cell in a
non-zero direction leaves the 15 x 15 board within 15 steps, which is the bound
given to the loop (see `count_loop_stable`). -/
def count_in_direction (board : Board) (origin delta : point) (color : Int) : Int :=
  count_loop board delta color 15 (origin.add delta) 0

/-- The `for` loop of `rule::collect_sequence`; `['N']` is the string "N". -/
def collect_loop (board : Board) (delta : point) : Nat → point → List Char → List Char
  | 0, _, sequence => sequence
  | steps + 1, origin, sequence =>
    let origin := origin.add delta
    if !origin.is_valid then ['N']
    else collect_loop board delta steps origin (sequence ++ [to_char (board origin.x origin.y)])

/-- The function `rule::collect_sequence`. -/
def collect_sequence (board : Board) (origin delta : point) (steps : Nat) : List Char :=
  collect_loop board delta steps origin []

/-- The function `rule::is_win`. -/
def is_win (board : Board) (origin : point) : Bool :=
  let color := board origin.x origin.y
  if count_in_direction board origin ⟨-1, 0⟩ color + count_in_direction board origin ⟨1, 0⟩ color + 1 = 5 then true
  else if count_in_direction board origin ⟨0, -1⟩ color + count_in_direction board origin ⟨0, 1⟩ color + 1 = 5 then true
  else if count_in_direction board origin ⟨-1, -1⟩ color + count_in_direction board origin ⟨1, 1⟩ color + 1 = 5 then true
  else if count_in_direction board origin ⟨-1, 1⟩ color + count_in_direction board origin ⟨1, -1⟩ color + 1 = 5 then true
  else false

def triple_patterns : List (List Char) :=
  ["01110".toList, "010110".toList, "011010".toList]

def quadruple_patterns : List (List Char) :=
  ["011110".toList, "11110".toList, "01111".toList, "11011".toList, "10111".toList, "11101".toList]

/-- The body of the innermost loop of `is_double_three` / `is_double_four`
for one pattern and one index `idx`: whether the pattern lies on the line through
`origin` with `origin` at position `idx`. -/
def pattern_at (board : Board) (origin : point) (dx dy : Int) (pattern : List Char) (idx : Nat) : Bool :=
  if pattern.getD idx '1' != '1' then false
  else
    let before := (collect_sequence board origin ⟨dx, dy⟩ idx).reverse
    let after := collect_sequence board origin ⟨-dx, -dy⟩ (pattern.length - idx - 1)
    before != ['N'] && after != ['N'] && (before ++ ['1'] ++ after == pattern)

/-- The flag `found` of `is_double_three` / `is_double_four` for one direction. -/
def direction_found (board : Board) (origin : point) (patterns : List (List Char)) (dx dy : Int) : Bool :=
  patterns.any (fun pattern => (List.range pattern.length).any (fun idx =>
    pattern_at board origin dx dy pattern idx))

/-- The counter `matches` of `is_double_three` / `is_double_four`. -/
def count_matches (board : Board) (origin : point) (patterns : List (List Char)) : Int :=
  (List.zip dx_offsets dy_offsets).foldl (fun n_matches d =>
    if direction_found board origin patterns d.1 d.2 then n_matches + 1 else n_matches) 0

/-- The function `rule::is_double_three` (logging left out). -/
def is_double_three (board : Board) (origin : point) : Bool :=
  decide (count_matches board origin triple_patterns ≥ 2)

/-- The function `rule::is_double_four` (logging left out). -/
def is_double_four (board : Board) (origin : point) : Bool :=
  decide (count_matches board origin quadruple_patterns ≥ 2)

/-- The function `rule::is_long_chain` (logging left out). -/
def is_long_chain (board : Board) (origin : point) (color : Int) : Bool :=
  if count_in_direction board origin ⟨-1, 0⟩ color + count_in_direction board origin ⟨1, 0⟩ color + 1 > 5 then true
  else if count_in_direction board origin ⟨0, -1⟩ color + count_in_direction board origin ⟨0, 1⟩ color + 1 > 5 then true
  else if count_in_direction board origin ⟨-1, -1⟩ color + count_in_direction board origin ⟨1, 1⟩ color + 1 > 5 then true
  else if count_in_direction board origin ⟨-1, 1⟩ color + count_in_direction board origin ⟨1, -1⟩ color + 1 > 5 then true
  else false

/-! ## AI.cpp: pattern tables and static evaluation -/

def search_infinity : Int := 0x0f3f3f3f

/-- The struct `pattern_entry`: a pattern string and its score. -/
structure pattern_entry where
  s : List Char
  score : Int
deriving DecidableEq

def score_table_black : List pattern_entry := [
  ⟨"11111".toList, 50000⟩,
  ⟨"011110".toList, 50000⟩,
  ⟨"011100".toList, 1440⟩,
  ⟨"001110".toList, 1440⟩,
  ⟨"011010".toList, 1440⟩,
  ⟨"010110".toList, 1440⟩,
  ⟨"11110".toList, 7200⟩,
  ⟨"01111".toList, 7200⟩,
  ⟨"11011".toList, 3600⟩,
  ⟨"10111".toList, 3600⟩,
  ⟨"11101".toList, 3600⟩,
  ⟨"01112".toList, 720⟩,
  ⟨"21110".toList, 720⟩,
  ⟨"001100".toList, 120⟩,
  ⟨"001010".toList, 120⟩,
  ⟨"010100".toList, 120⟩,
  ⟨"000100".toList, 20⟩,
  ⟨"001000".toList, 20⟩]

def score_table_white : List pattern_entry := [
  ⟨"22222".toList, 50000⟩,
  ⟨"022220".toList, 50000⟩,
  ⟨"022200".toList, 1440⟩,
  ⟨"002220".toList, 1440⟩,
  ⟨"022020".toList, 1440⟩,
  ⟨"020220".toList, 1440⟩,
  ⟨"22220".toList, 7200⟩,
  ⟨"02222".toList, 7200⟩,
  ⟨"22022".toList, 3600⟩,
  ⟨"20222".toList, 3600⟩,
  ⟨"22202".toList, 3600⟩,
  ⟨"02221".toList, 720⟩,
  ⟨"12220".toList, 720⟩,
  ⟨"002200".toList, 120⟩,
  ⟨"002020".toList, 120⟩,
  ⟨"020200".toList, 120⟩,
  ⟨"000200".toList, 20⟩,
  ⟨"002000".toList, 20⟩]

/-- The call `std::search(first, end, pattern)` on the range `rest = [first, end)`:
the offset from `first` of the first occurrence of `pattern`, or the length of
`rest` (that is, `end`) when there is none. -/
def search : List Char → List Char → Nat
  | [], _ => 0
  | c :: cs, pattern => if pattern.isPrefixOf (c :: cs) then 0 else search cs pattern + 1

/-- The call `std::fill(line + it, line + it + n, '3')`. -/
def fill : List Char → Nat → Nat → List Char
  | [], _, _ => []
  | c :: cs, 0, 0 => c :: cs
  | _ :: cs, 0, n + 1 => '3' :: fill cs 0 n
  | c :: cs, it + 1, n => c :: fill cs it n

/-- The `while` loop of `evaluate_line` for one table entry, on the buffer
`line` with the iterator at index `it`; returns the score and the buffer. The
first argument bounds the number of iterations. -/
def scan_entry (entry : pattern_entry) : Nat → List Char → Nat → Int → Int × List Char
  | 0, line, _, score => (score, line)
  | fuel + 1, line, it, score =>
    let found := it + search (line.drop it) entry.s
    if found != line.length then
      scan_entry entry fuel (fill line found entry.s.length) found (score + entry.score)
    else (score, line)

/-- The function `evaluate_line`: the score, and the buffer as the scan leaves
it. A pattern can match at most once per cell of the line, which bounds the
inner loop (see `evaluate_line_stable`). -/
def evaluate_line (line : List Char) (table : List pattern_entry) : Int × List Char :=
  table.foldl (fun acc entry => scan_entry entry line.length acc.2 0 acc.1) (0, line)

/-- The two scans every loop body of `engine::evaluate` makes of one line: the
buffer is filled, scanned against the black table and added; it is filled again
and scanned against the white table and subtracted. -/
def scan_line (total_score : Int) (buffer : List Char) : Int :=
  let total_score := total_score + (evaluate_line buffer score_table_black).1
  total_score - (evaluate_line buffer score_table_white).1

/-- The loop `for (x, y; x <= 15 && y <= 15; ++x, ++y) buffer[len++] = ...` of
`engine::evaluate`; the first argument bounds the number of iterations. -/
def diag_loop (board : chess_info) : Nat → Int → Int → List Char → List Char
  | 0, _, _, buffer => buffer
  | fuel + 1, x, y, buffer =>
    if x ≤ 15 ∧ y ≤ 15 then
      diag_loop board fuel (x + 1) (y + 1) (buffer ++ [to_char (board.pieces x y)])
    else buffer

/-- The loop `for (x, y; x <= 15 && y >= 1; ++x, --y) buffer[len++] = ...` of
`engine::evaluate`; the first argument bounds the number of iterations. -/
def anti_loop (board : chess_info) : Nat → Int → Int → List Char → List Char
  | 0, _, _, buffer => buffer
  | fuel + 1, x, y, buffer =>
    if x ≤ 15 ∧ y ≥ 1 then
      anti_loop board fuel (x + 1) (y - 1) (buffer ++ [to_char (board.pieces x y)])
    else buffer

/-- The function `engine::evaluate`: six loops over the lines of the board. A
line has at most 15 cells, the bound given to the diagonal walks (see
`diag_loop_stable`). -/
def evaluate (board : chess_info) : Int :=
  let total_score : Int := 0
  -- Horizontal
  let total_score := (iota 1 16).foldl (fun total_score i =>
    scan_line total_score ((iota 1 16).map (fun j => to_char (board.pieces i j)))) total_score
  -- Vertical
  let total_score := (iota 1 16).foldl (fun total_score j =>
    scan_line total_score ((iota 1 16).map (fun i => to_char (board.pieces i j)))) total_score
  -- Diagonal (1,1)
  let total_score := (iota 0 15).foldl (fun total_score k =>
    scan_line total_score (diag_loop board 15 (1 + k) 1 [])) total_score
  let total_score := (iota 1 15).foldl (fun total_score k =>
    scan_line total_score (diag_loop board 15 1 (1 + k) [])) total_score
  -- Anti-diagonal (1,-1)
  let total_score := (iota 0 15).foldl (fun total_score k =>
    scan_line total_score (anti_loop board 15 1 (1 + k) [])) total_score
  let total_score := (iota 1 15).foldl (fun total_score k =>
    scan_line total_score (anti_loop board 15 (1 + k) 15 [])) total_score
  total_score

/-! ## AI.cpp: the engine and its root search -/

/-- The struct `engine::TTEntry`. -/
structure TTEntry where
  value : Int
  flag : Int
  depth : Int
  best_move : point

/-- The lookup `map.find(key)` of a `std::unordered_map<uint64_t, Value>`, kept
as the list of its (key, value) pairs: `none` is `map.end()`. -/
def unordered_map_find {Value : Type} : List (Nat × Value) → Nat → Option Value
  | [], _ => none
  | (k, v) :: rest, key => if k = key then some v else unordered_map_find rest key

/-- The assignment `map[key] = value` of a `std::unordered_map<uint64_t, Value>`:
the value of an existing key is replaced, a new key is added. -/
def unordered_map_assign {Value : Type} : List (Nat × Value) → Nat → Value → List (Nat × Value)
  | [], key, value => [(key, value)]
  | (k, v) :: rest, key, value =>
    if k = key then (k, value) :: rest else (k, v) :: unordered_map_assign rest key value

/-- The constant `ShardedMap::num_shards`. -/
def num_shards : Nat := 64

/-- The class `engine::ShardedMap<uint64_t, Value>`: the array `shards`, read
as `shards i` for the index `i` (only indices below `num_shards` are used). The
mutexes guard concurrent access and hold no data. -/
structure ShardedMap (Value : Type) where
  shards : Nat → List (Nat × Value)

/-- A default-constructed `ShardedMap`: every shard is empty. -/
def ShardedMap.empty {Value : Type} : ShardedMap Value := ⟨fun _ => []⟩

/-- The method `ShardedMap::find`, on the shard `get_shard(key)`, which is
`shards[key % num_shards]`. -/
def ShardedMap.find {Value : Type} (m : ShardedMap Value) (key : Nat) : Option Value :=
  unordered_map_find (m.shards (key % num_shards)) key

/-- The method `ShardedMap::insert`: `shard.map[key] = value` on the shard of `key`. -/
def ShardedMap.insert {Value : Type} (m : ShardedMap Value) (key : Nat) (value : Value) :
    ShardedMap Value :=
  ⟨fun i => if i = key % num_shards then unordered_map_assign (m.shards i) key value
    else m.shards i⟩

/-- The method `ShardedMap::clear`: the map of every shard is cleared. -/
def ShardedMap.clear {Value : Type} (_m : ShardedMap Value) : ShardedMap Value :=
  ⟨fun _ => []⟩

/-- The data members of `class engine`: the depth, the history table and the
transposition table. -/
structure engine where
  max_depth : Int
  history_table : Int → Int → Int
  trans_table : ShardedMap TTEntry

/-- The outcome of the bulk phase of `get_best_point`, in which the pool
runs the `minimax` calls of all root candidates concurrently on the shared
tables: `minimax i` is the value the call of task `i` returns for its arguments,
`tables` the engine once `sync_wait` has returned. Statements quantified over
every `parallel_run` hold whatever the depth, the table contents and the
interleaving of the tasks. -/
structure parallel_run where
  minimax : Nat → chess_info → Int → Int → Int → Bool → Nat → Int
  tables : engine → engine

/-- The from-scratch fingerprint loop of `engine::get_best_point`;
`zobrist_table` is the array after `init_zobrist`. -/
def root_hash (zobrist_table : Int → Int → Int → Nat) (state : chess_info) : Nat :=
  (iota 1 16).foldl (fun current_hash i =>
    (iota 1 16).foldl (fun current_hash j =>
      if state.pieces i j = 1 then current_hash ^^^ zobrist_table i j 0
      else if state.pieces i j = 2 then current_hash ^^^ zobrist_table i j 1
      else current_hash) current_hash) 0

/-- The test `is_double_three(..) || is_double_four(..) || is_long_chain(.., 1)`
that AI.cpp applies to a board on which a Black stone was just put at `move`. -/
def black_forbidden (pieces : Board) (move : point) : Bool :=
  is_double_three pieces move || is_double_four pieces move || is_long_chain pieces move 1

/-- The first loop of `get_best_point` (immediate win): `some move` when the
loop returns `move`, and the vector `winning_candidates`. -/
def win_pass (state : chess_info) : List point → List point → Option point × List point
  | [], winning_candidates => (none, winning_candidates)
  | move :: rest, winning_candidates =>
    let piece : Int := if state.turn = 0 then 1 else 2
    let next_state := state.place move piece
    if decide (state.turn = 0) && !is_win next_state.pieces move
        && black_forbidden next_state.pieces move then
      win_pass state rest winning_candidates
    else if is_win next_state.pieces move then (some move, winning_candidates)
    else
      let score := evaluate next_state
      if state.turn = 0 then
        win_pass state rest (if score ≥ 40000 then winning_candidates ++ [move] else winning_candidates)
      else
        win_pass state rest (if score ≤ -40000 then winning_candidates ++ [move] else winning_candidates)

/-- The second loop of `get_best_point` (immediate loss block): `some move`
when the loop returns `move`. -/
def block_pass (state : chess_info) : List point → Option point
  | [] => none
  | move :: rest =>
    let piece : Int := if state.turn = 0 then 2 else 1
    let next_state := state.place move piece
    if decide (state.turn = 1) && !is_win next_state.pieces move
        && black_forbidden next_state.pieces move then
      block_pass state rest
    else if is_win next_state.pieces move then some move
    else block_pass state rest

/-- The body of the bulk lambda of `get_best_point` for slot `i`: the value
written to `scores[i]`. -/
def root_task (zobrist_table : Int → Int → Int → Nat) (run : parallel_run) (e : engine)
    (state : chess_info) (current_hash : Nat) (maximizing : Bool) (i : Nat) (move : point) : Int :=
  let piece : Int := if state.turn = 0 then 1 else 2
  let next_state := state.place move piece
  if decide (state.turn = 0) && !is_win next_state.pieces move
      && black_forbidden next_state.pieces move then
    if maximizing then -search_infinity else search_infinity
  else
    let next_state := { next_state with
      turn := 1 - state.turn, round := next_state.round + 1, current_point := move }
    let next_hash := current_hash ^^^ zobrist_table move.x move.y (if piece = 1 then 0 else 1)
    run.minimax i next_state e.max_depth (-search_infinity) search_infinity (!maximizing) next_hash

/-- The last loop of `get_best_point` over `zip(scores, moves)`. -/
def aggregate (maximizing : Bool) : List (Int × point) → Int → point → point
  | [], _, best_move => best_move
  | (val, move) :: rest, best_val, best_move =>
    if maximizing then
      let best := if val > best_val then (val, move) else (best_val, best_move)
      if val ≥ 40000 then best.2 else aggregate maximizing rest best.1 best.2
    else
      let best := if val < best_val then (val, move) else (best_val, best_move)
      if val ≤ -40000 then best.2 else aggregate maximizing rest best.1 best.2

/-- The function `engine::get_best_point`: the returned point and the engine
as the call leaves it. -/
def get_best_point (zobrist_table : Int → Int → Int → Nat) (run : parallel_run) (e : engine)
    (state : chess_info) : point × engine :=
  if state.round = 0 then (⟨8, 8⟩, e)
  else
    let current_hash := root_hash zobrist_table state
    let maximizing := decide (state.turn = 0)
    let best_move : point := ⟨-1, -1⟩
    let best_val := if maximizing then -search_infinity else search_infinity
    let moves := get_moves state
    if moves.isEmpty then (⟨8, 8⟩, e)
    else
      match win_pass state moves [] with
      | (some move, _) => (move, e)
      | (none, winning_candidates) =>
        match block_pass state moves with
        | some move => (move, e)
        | none =>
          let moves := if !winning_candidates.isEmpty then winning_candidates else moves
          let scores := moves.enum.map (fun t =>
            root_task zobrist_table run e state current_hash maximizing t.1 t.2)
          (aggregate maximizing (List.zip scores moves) best_val best_move, run.tables e)

/-! ## Auxiliary definitions for the statements -/

/-- The stone of the side to move, `(state.turn == 0) ? 1 : 2`, as the first
and the third loop of `get_best_point` pick it. -/
def mover_piece (state : chess_info) : Int := if state.turn = 0 then 1 else 2

/-- The stone of the opponent, `(state.turn == 0) ? 2 : 1`, as the second loop
of `get_best_point` picks it. -/
def opponent_piece (state : chess_info) : Int := if state.turn = 0 then 2 else 1

/-- A board given by the list of its stones `(x, y, color)`; every other cell
is empty. -/
def board_of (stones : List (Int × Int × Int)) : Board := fun i j =>
  match stones.find? (fun t => t.1 == i && t.2.1 == j) with
  | some t => t.2.2
  | none => 0

/-- The state the constructor `chess_info::chess_info` builds. -/
def initial_state : chess_info := ⟨empty_board, black_turn, 0, ⟨-1, -1⟩⟩

/-- A fingerprint table for concrete runs. -/
def sample_table : Int → Int → Int → Nat := fun i j c => (i * 32 + j * 2 + c).toNat

/-- An engine of depth 3 with empty tables, as `engine(int depth = 3)` builds it. -/
def fresh_engine : engine := ⟨3, fun _ _ => 0, ShardedMap.empty⟩

/-- A search outcome for concrete runs: every `minimax` call returns 0 and the
tables stay as they are. -/
def idle_run : parallel_run := ⟨fun _ _ _ _ _ _ _ => 0, fun e => e⟩

/-- The vector `moves` the bulk phase of `get_best_point` works on: the
winning candidates when there are any, otherwise all candidates. -/
def root_candidates (state : chess_info) : List point :=
  let moves := get_moves state
  let winning_candidates := (win_pass state moves []).2
  if !winning_candidates.isEmpty then winning_candidates else moves

/-- The vector `scores` of `get_best_point` once the bulk phase is over. -/
def root_scores (zobrist_table : Int → Int → Int → Nat) (run : parallel_run) (e : engine)
    (state : chess_info) : List Int :=
  (root_candidates state).enum.map (fun t =>
    root_task zobrist_table run e state (root_hash zobrist_table state)
      (decide (state.turn = 0)) t.1 t.2)

/-- The method `ai_player::next_move` of Player.cpp: `none` is `std::nullopt`. -/
def next_move (zobrist_table : Int → Int → Int → Nat) (run : parallel_run) (e : engine)
    (state : chess_info) : Option point :=
  if state.round = 0 then some ⟨8, 8⟩
  else
    let choice := (get_best_point zobrist_table run e state).1
    if !choice.is_valid then none else some choice

/-- The index `piece == 1 ? 0 : 1` of a stone's constant in `zobrist_table`. -/
def color_index (piece : Int) : Int := if piece = 1 then 0 else 1

/-- The incremental update `hash ^ zobrist_table[x][y][piece == 1 ? 0 : 1]` of
`get_best_point` and `minimax`, chained over a sequence of moves. -/
def chained_hash (zobrist_table : Int → Int → Int → Nat) (moves : List (point × Int))
    (hash : Nat) : Nat :=
  moves.foldl (fun hash mv => hash ^^^ zobrist_table mv.1.x mv.1.y (color_index mv.2)) hash

/-- The board after the stones of `moves` were put on `board` in order. -/
def place_all (moves : List (point × Int)) (board : Board) : Board :=
  moves.foldl (fun board mv => set_piece board mv.1 mv.2) board

/-- The XOR of a list of words. -/
def xor_all : List Nat → Nat
  | [] => 0
  | a :: l => a ^^^ xor_all l

/-- The constant the fingerprint loop mixes in for the cell `(i, j)`. -/
def cell_key (zobrist_table : Int → Int → Int → Nat) (board : Board) (i j : Int) : Nat :=
  if board i j = 1 then zobrist_table i j 0
  else if board i j = 2 then zobrist_table i j 1
  else 0

/-- The symbol `to_char(board.pieces[x][y])` of a cell. -/
def symbol (board : chess_info) (p : point) : Char := to_char (board.pieces p.x p.y)

/-- The cells the walk `diag_loop` visits, in order. -/
def diag_cells : Nat → Int → Int → List point
  | 0, _, _ => []
  | fuel + 1, x, y => if x ≤ 15 ∧ y ≤ 15 then ⟨x, y⟩ :: diag_cells fuel (x + 1) (y + 1) else []

/-- The cells the walk `anti_loop` visits, in order. -/
def anti_cells : Nat → Int → Int → List point
  | 0, _, _ => []
  | fuel + 1, x, y => if x ≤ 15 ∧ y ≥ 1 then ⟨x, y⟩ :: anti_cells fuel (x + 1) (y - 1) else []

/-- The lines of cells `engine::evaluate` scans, in the order of its six loops. -/
def scanned_lines : List (List point) :=
  (iota 1 16).map (fun i => (iota 1 16).map (fun j => (⟨i, j⟩ : point)))
    ++ (iota 1 16).map (fun j => (iota 1 16).map (fun i => (⟨i, j⟩ : point)))
    ++ (iota 0 15).map (fun k => diag_cells 15 (1 + k) 1)
    ++ (iota 1 15).map (fun k => diag_cells 15 1 (1 + k))
    ++ (iota 0 15).map (fun k => anti_cells 15 1 (1 + k))
    ++ (iota 1 15).map (fun k => anti_cells 15 (1 + k) 15)

/-- The contribution of one line to the static score: the black scan minus
the white scan, each on its own copy of the line. -/
def line_score (buffer : List Char) : Int :=
  (evaluate_line buffer score_table_black).1 - (evaluate_line buffer score_table_white).1

/-- The cells of the board in row-major order. -/
def all_cells : List point :=
  (iota 1 16).flatMap (fun i => (iota 1 16).map (fun j => (⟨i, j⟩ : point)))

/-- The 15 rows of the board. -/
def row_lines : List (List point) :=
  (iota 1 16).map (fun i => all_cells.filter (fun p => decide (p.x = i)))

/-- The 15 columns of the board. -/
def column_lines : List (List point) :=
  (iota 1 16).map (fun j => all_cells.filter (fun p => decide (p.y = j)))

/-- The 29 diagonals of the board: the cells with the same `x - y`, from -14 to 14. -/
def diagonal_lines : List (List point) :=
  (iota (-14) 15).map (fun d => all_cells.filter (fun p => decide (p.x - p.y = d)))

/-- The 29 anti-diagonals of the board: the cells with the same `x + y`, from 2 to 30. -/
def anti_diagonal_lines : List (List point) :=
  (iota 2 31).map (fun s => all_cells.filter (fun p => decide (p.x + p.y = s)))

/-- The maximal lines of the 15 x 15 board, from their description: rows,
columns, diagonals and anti-diagonals, the cells of each in row-major order. -/
def maximal_lines : List (List point) :=
  row_lines ++ column_lines ++ diagonal_lines ++ anti_diagonal_lines

/-- The exchange of the stone values 1 and 2. -/
def swap_piece (v : Int) : Int := if v = 1 then 2 else if v = 2 then 1 else v

/-- The state with the colors of all stones exchanged. -/
def swap_colors (state : chess_info) : chess_info :=
  { state with pieces := fun i j => swap_piece (state.pieces i j) }

/-- The exchange of the symbols '1' and '2'. -/
def swap_char (c : Char) : Char := if c = '1' then '2' else if c = '2' then '1' else c

/-- A table entry with the symbols '1' and '2' of its pattern exchanged. -/
def swap_entry (entry : pattern_entry) : pattern_entry := ⟨entry.s.map swap_char, entry.score⟩

/-- An operation on a `ShardedMap`. -/
inductive map_op (Value : Type) where
  | insert (key : Nat) (value : Value)
  | clear

/-- The effect of one operation. -/
def ShardedMap.apply {Value : Type} (m : ShardedMap Value) : map_op Value → ShardedMap Value
  | .insert key value => m.insert key value
  | .clear => m.clear

/-- The map after the operations `ops`, run one after the other. -/
def ShardedMap.run {Value : Type} (ops : List (map_op Value)) (m : ShardedMap Value) :
    ShardedMap Value :=
  ops.foldl ShardedMap.apply m

/-- The value of the first `insert(key, v)` in a history listed from the most
recent operation backwards, as long as no `clear()` comes before it. -/
def latest_insert {Value : Type} : List (map_op Value) → Nat → Option Value
  | [], _ => none
  | .clear :: _, _ => none
  | .insert k v :: earlier, key => if k = key then some v else latest_insert earlier key

/-- The finite map the operations `ops` (in chronological order) describe: the
value of the most recent `insert(key, v)` since the last `clear()`, or absent. -/
def most_recent_insert {Value : Type} (ops : List (map_op Value)) (key : Nat) : Option Value :=
  latest_insert ops.reverse key

/-! ## AI.cpp: the recursive search -/

/-- The statement `history_table[move.x][move.y] += amount`. -/
def bump_history (history_table : Int → Int → Int) (move : point) (amount : Int) :
    Int → Int → Int :=
  fun i j => if i = move.x ∧ j = move.y then history_table i j + amount else history_table i j

/-- The variables a `minimax` frame updates while it iterates over its moves:
the engine (history and transposition table, as the children left them), the
window, `max_eval` or `min_eval`, and `best_move_this_node`. -/
structure frame where
  e : engine
  alpha : Int
  beta : Int
  best_eval : Int
  best_move_this_node : point

/-- The `for` loop of the maximizing branch of `minimax`. `child` is the
recursive call `minimax(next_state, depth - 1, alpha, beta, false, next_hash)`
on the engine as it is at the call; `none` when a child did not return. -/
def max_loop (zobrist_table : Int → Int → Int → Nat)
    (child : engine → chess_info → Int → Int → Bool → Nat → Option (Int × engine))
    (board : chess_info) (depth : Int) (hash : Nat) : List point → frame → Option frame
  | [], st => some st
  | move :: rest, st =>
    let next_state := board.place move 1
    if !is_win next_state.pieces move && black_forbidden next_state.pieces move then
      max_loop zobrist_table child board depth hash rest st
    else
      let next_state := { next_state with
        turn := 1, round := next_state.round + 1, current_point := move }
      let next_hash := hash ^^^ zobrist_table move.x move.y 0
      match child st.e next_state st.alpha st.beta false next_hash with
      | none => none
      | some (eval, e) =>
        let st := if eval > st.best_eval then
          { st with best_eval := eval, best_move_this_node := move } else st
        let st := { st with e := e, alpha := max st.alpha eval }
        if st.beta ≤ st.alpha then
          some { st with e := { e with
            history_table := bump_history e.history_table move (depth * depth) } }
        else if st.best_eval ≥ 40000 then some st
        else max_loop zobrist_table child board depth hash rest st

/-- The `for` loop of the minimizing branch of `minimax`. `child` is the
recursive call `minimax(next_state, depth - 1, alpha, beta, true, next_hash)`. -/
def min_loop (zobrist_table : Int → Int → Int → Nat)
    (child : engine → chess_info → Int → Int → Bool → Nat → Option (Int × engine))
    (board : chess_info) (depth : Int) (hash : Nat) : List point → frame → Option frame
  | [], st => some st
  | move :: rest, st =>
    let next_state := board.place move 2
    let next_state := { next_state with
      turn := 0, round := next_state.round + 1, current_point := move }
    let next_hash := hash ^^^ zobrist_table move.x move.y 1
    match child st.e next_state st.alpha st.beta true next_hash with
    | none => none
    | some (eval, e) =>
      let st := if eval < st.best_eval then
        { st with best_eval := eval, best_move_this_node := move } else st
      let st := { st with e := e, beta := min st.beta eval }
      if st.beta ≤ st.alpha then
        some { st with e := { e with
          history_table := bump_history e.history_table move (depth * depth) } }
      else if st.best_eval ≤ -40000 then some st
      else min_loop zobrist_table child board depth hash rest st

/-- The comparator of the move ordering of `minimax`: `a` goes before `b` when
its key is strictly greater; the hinted move has the key 10000000, any other
move its history counter. -/
def order_before (history_table : Int → Int → Int) (hash_move : point) (a b : point) : Bool :=
  let score_a := if a.x = hash_move.x ∧ a.y = hash_move.y then 10000000 else history_table a.x a.y
  let score_b := if b.x = hash_move.x ∧ b.y = hash_move.y then 10000000 else history_table b.x b.y
  decide (score_a > score_b)

/-- The part of `minimax` after the table lookup: static score, move
generation and ordering, the loop over the children and the store. `std_sort`
is the library call `std::sort(first, last, comp)`; `alpha` and `beta` are the
window after the lookup, `alpha_orig` and `beta_orig` the window of the call. -/
def search_node (zobrist_table : Int → Int → Int → Nat)
    (std_sort : (point → point → Bool) → List point → List point)
    (child : engine → chess_info → Int → Int → Bool → Nat → Option (Int × engine))
    (e : engine) (board : chess_info) (depth alpha beta alpha_orig beta_orig : Int)
    (maximizing : Bool) (hash : Nat) (hash_move : point) : Option (Int × engine) :=
  let score := evaluate board
  if score ≥ 40000 then some (score - (e.max_depth + 1 - depth), e)
  else if score ≤ -40000 then some (score + (e.max_depth + 1 - depth), e)
  else if depth = 0 then some (score, e)
  else
    let moves := get_moves board
    if moves.isEmpty then some (score, e)
    else
      let moves := std_sort (order_before e.history_table hash_move) moves
      let best_move_this_node : point := ⟨-1, -1⟩
      let looped :=
        if maximizing then
          max_loop zobrist_table child board depth hash moves
            ⟨e, alpha, beta, -search_infinity, best_move_this_node⟩
        else
          min_loop zobrist_table child board depth hash moves
            ⟨e, alpha, beta, search_infinity, best_move_this_node⟩
      match looped with
      | none => none
      | some st =>
        let val := st.best_eval
        let entry : TTEntry := {
          value := val
          depth := depth
          best_move := st.best_move_this_node
          flag := if val ≤ alpha_orig then 2 else if val ≥ beta_orig then 1 else 0 }
        some (val, { st.e with trans_table := st.e.trans_table.insert hash entry })

/-- The function `engine::minimax`: the returned value and the engine as the
call leaves it. The first argument bounds the nesting of the recursion: `none`
means that the bound was reached before the call returned. -/
def minimax (zobrist_table : Int → Int → Int → Nat)
    (std_sort : (point → point → Bool) → List point → List point) :
    Nat → engine → chess_info → Int → Int → Int → Bool → Nat → Option (Int × engine)
  | 0, _, _, _, _, _, _, _ => none
  | fuel + 1, e, board, depth, alpha, beta, maximizing, hash =>
    let alpha_orig := alpha
    let beta_orig := beta
    let child := fun (e : engine) (next_state : chess_info) (alpha beta : Int)
        (maximizing : Bool) (next_hash : Nat) =>
      minimax zobrist_table std_sort fuel e next_state (depth - 1) alpha beta maximizing next_hash
    match e.trans_table.find hash with
    | some entry =>
      if entry.depth ≥ depth then
        if entry.flag = 0 then some (entry.value, e)
        else
          let alpha := if entry.flag = 1 then max alpha entry.value else alpha
          let beta :=
            if entry.flag = 1 then beta
            else if entry.flag = 2 then min beta entry.value else beta
          if alpha ≥ beta then some (entry.value, e)
          else
            search_node zobrist_table std_sort child e board depth alpha beta alpha_orig
              beta_orig maximizing hash entry.best_move
      else
        search_node zobrist_table std_sort child e board depth alpha beta alpha_orig
          beta_orig maximizing hash entry.best_move
    | none =>
      search_node zobrist_table std_sort child e board depth alpha beta alpha_orig
        beta_orig maximizing hash ⟨-1, -1⟩

/-- A sort for concrete runs: insertion of `a` before the first element it
does not come after. -/
def insert_sorted (before : point → point → Bool) (a : point) : List point → List point
  | [] => [a]
  | b :: rest => if before b a then b :: insert_sorted before a rest else a :: b :: rest

/-- A stable sort for concrete runs, one of the orders `std::sort` may produce. -/
def sample_sort (before : point → point → Bool) (moves : List point) : List point :=
  moves.foldr (insert_sorted before) []

/-- An engine whose table holds an exact entry of depth 3 for the fingerprint 5. -/
def hit_engine : engine :=
  { fresh_engine with trans_table := ShardedMap.empty.insert 5 ⟨123, 0, 3, ⟨8, 8⟩⟩ }

/-- The cell `k` steps from `p` in the direction `d`. -/
def cell_at (p d : point) (k : Int) : point := ⟨p.x + k * d.x, p.y + k * d.y⟩

/-- The cell `q` lies on the board and holds the color `c`. -/
def has_color (board : Board) (q : point) (c : Int) : Prop :=
  q.is_valid = true ∧ board q.x q.y = c

/-- Exactly `n` consecutive cells of color `c` lie next to `p` in the
direction `d`: the `n` cells after `p` have the color, the next one does not
(or is off the board). -/
def side_run (board : Board) (p d : point) (c : Int) (n : Nat) : Prop :=
  (∀ k : Nat, 1 ≤ k → k ≤ n → has_color board (cell_at p d k) c) ∧
    ¬ has_color board (cell_at p d (n + 1)) c

/-- The four line orientations: along a row, along a column, and the two diagonals. -/
def orientations : List point := [⟨1, 0⟩, ⟨0, 1⟩, ⟨1, 1⟩, ⟨1, -1⟩]

/-- The direction opposite to `d`. -/
def opposite (d : point) : point := ⟨-d.x, -d.y⟩

/-- In the orientation `d`, the number of consecutive cells of color `c`
immediately next to `p` on its two sides, plus one for `p` itself, is `len`.
When `p` holds the color `c`, this is the length of the maximal run of
`c`-colored cells through `p`. -/
def run_through (board : Board) (p d : point) (c : Int) (len : Nat) : Prop :=
  ∃ a b : Nat, side_run board p (opposite d) c a ∧ side_run board p d c b ∧ len = a + b + 1

/-! ## AI.cpp: the fingerprint table -/

/-- The library type `std::mt19937_64`: the construction `rng(seed)` and the
call `rng()`, which returns the next output and the advanced generator. -/
structure random_engine (G : Type) where
  seeded : Nat → G
  next : G → Nat × G

/-- The globals `zobrist_table` and `zobrist_initialized`. -/
structure zobrist_globals where
  zobrist_table : Int → Int → Int → Nat
  zobrist_initialized : Bool

/-- The globals at program start: static storage is zero-initialised, the flag is `false`. -/
def zobrist_start : zobrist_globals := ⟨fun _ _ _ => 0, false⟩

/-- The assignment `zobrist_table[i][j][k] = value`. -/
def set_entry (table : Int → Int → Int → Nat) (i j k : Int) (value : Nat) :
    Int → Int → Int → Nat :=
  fun i' j' k' => if i' = i ∧ j' = j ∧ k' = k then value else table i' j' k'

/-- The body of the inner loop of `init_zobrist` for the cell `(i, j)`: two
calls of `rng()`, the first for index 0, the second for index 1. -/
def fill_cell {G : Type} (gen : random_engine G) (acc : (Int → Int → Int → Nat) × G)
    (i j : Int) : (Int → Int → Int → Nat) × G :=
  let first := gen.next acc.2
  let table := set_entry acc.1 i j 0 first.1
  let second := gen.next first.2
  (set_entry table i j 1 second.1, second.2)

/-- The function `init_zobrist`. -/
def init_zobrist {G : Type} (gen : random_engine G) (g : zobrist_globals) : zobrist_globals :=
  if g.zobrist_initialized then g
  else
    let rng := gen.seeded 12345
    let filled := (iota 1 16).foldl (fun acc i =>
      (iota 1 16).foldl (fun acc j => fill_cell gen acc i j) acc) (g.zobrist_table, rng)
    ⟨filled.1, true⟩

/-- The output of the `n`-th call of `rng()` (counted from 0) on the generator `rng`. -/
def nth_output {G : Type} (gen : random_engine G) : G → Nat → Nat
  | rng, 0 => (gen.next rng).1
  | rng, n + 1 => nth_output gen (gen.next rng).2 n

/-- A match `evaluate_line` counts: the index where it starts and the table entry. -/
structure counted_match where
  start : Nat
  entry : pattern_entry

/-- The cell `i` of the line lies in the span of the match. -/
def counted_match.covers (m : counted_match) (i : Nat) : Bool :=
  decide (m.start ≤ i) && decide (i < m.start + m.entry.s.length)

/-- The spans of two matches have no cell in common. -/
def disjoint_spans (m m' : counted_match) : Prop :=
  m.start + m.entry.s.length ≤ m'.start ∨ m'.start + m'.entry.s.length ≤ m.start

/-- The matches the `while` loop of `evaluate_line` counts for one entry, in
order: the loop of `scan_entry`, recording each `found`. -/
def scan_entry_matches (entry : pattern_entry) : Nat → List Char → Nat → List counted_match
  | 0, _, _ => []
  | fuel + 1, line, it =>
    let found := it + search (line.drop it) entry.s
    if found != line.length then
      ⟨found, entry⟩ :: scan_entry_matches entry fuel (fill line found entry.s.length) found
    else []

/-- The matches `evaluate_line` counts, in order: the loop over the table of
`evaluate_line`, recording the matches of each entry on the buffer the
earlier entries left. -/
def evaluate_line_matches (line : List Char) (table : List pattern_entry) : List counted_match :=
  (table.foldl (fun acc entry =>
    (acc.1 ++ scan_entry_matches entry line.length acc.2 0,
      (scan_entry entry line.length acc.2 0 0).2)) ([], line)).1

/-- What holds between the line given to `evaluate_line`, the buffer during the
scan and the matches counted so far. -/
def scan_invariant (original buffer : List Char) (ms : List counted_match) : Prop :=
  buffer.length = original.length ∧
    (∀ (i : Nat) (c : Char), buffer[i]? = some c → c ≠ '3' → original[i]? = some c) ∧
    (∀ m ∈ ms, ∀ i : Nat, m.covers i = true → buffer[i]? = some '3') ∧
    (∀ m ∈ ms, m.entry.s ≠ [] ∧ m.start + m.entry.s.length ≤ original.length ∧
      m.entry.s.isPrefixOf (original.drop m.start) = true) ∧
    ms.Pairwise disjoint_spans ∧
    (ms.map (fun m => m.entry.s.length)).sum ≤ buffer.count '3' ∧
    (∀ c : Char, c ≠ '3' →
      (ms.map (fun m => m.entry.s.count c)).sum + buffer.count c = original.count c)

/-- The scores of a table do not increase along the list. -/
def non_increasing_scores (table : List pattern_entry) : Prop :=
  (table.map (fun entry => entry.score)).Pairwise (fun a b => a ≥ b)

/-- The value the table lookup at the head of `minimax` returns, `none` when
the call goes on to the static score. -/
def table_answer (e : engine) (hash : Nat) (depth alpha beta : Int) : Option Int :=
  match e.trans_table.find hash with
  | some entry =>
    if entry.depth ≥ depth then
      if entry.flag = 0 then some entry.value
      else
        let alpha := if entry.flag = 1 then max alpha entry.value else alpha
        let beta :=
          if entry.flag = 1 then beta
          else if entry.flag = 2 then min beta entry.value else beta
        if alpha ≥ beta then some entry.value else none
    else none
  | none => none

/-- The window `(alpha, beta)` of `minimax` after the table lookup. -/
def lookup_window (e : engine) (hash : Nat) (depth alpha beta : Int) : Int × Int :=
  match e.trans_table.find hash with
  | some entry =>
    if entry.depth ≥ depth then
      (if entry.flag = 1 then max alpha entry.value else alpha,
        if entry.flag = 1 then beta
        else if entry.flag = 2 then min beta entry.value else beta)
    else (alpha, beta)
  | none => (alpha, beta)

/-- The variable `hash_move` of `minimax` after the table lookup. -/
def lookup_hint (e : engine) (hash : Nat) : point :=
  match e.trans_table.find hash with
  | some entry => entry.best_move
  | none => ⟨-1, -1⟩

/-- The recursive call of a `minimax` frame of remaining depth `depth`, with
`fuel` levels of nesting left. -/
def child_call (zobrist_table : Int → Int → Int → Nat)
    (std_sort : (point → point → Bool) → List point → List point) (fuel : Nat) (depth : Int) :
    engine → chess_info → Int → Int → Bool → Nat → Option (Int × engine) :=
  fun e next_state alpha beta maximizing next_hash =>
    minimax zobrist_table std_sort fuel e next_state (depth - 1) alpha beta maximizing next_hash

/-- The loop over the children of a `minimax` frame, as `search_node` runs it:
on the sorted candidates, from the window after the lookup. -/
def node_loop (zobrist_table : Int → Int → Int → Nat)
    (std_sort : (point → point → Bool) → List point → List point)
    (child : engine → chess_info → Int → Int → Bool → Nat → Option (Int × engine))
    (e : engine) (board : chess_info) (depth alpha beta : Int) (maximizing : Bool) (hash : Nat)
    (hash_move : point) : Option frame :=
  if maximizing then
    max_loop zobrist_table child board depth hash
      (std_sort (order_before e.history_table hash_move) (get_moves board))
      ⟨e, alpha, beta, -search_infinity, ⟨-1, -1⟩⟩
  else
    min_loop zobrist_table child board depth hash
      (std_sort (order_before e.history_table hash_move) (get_moves board))
      ⟨e, alpha, beta, search_infinity, ⟨-1, -1⟩⟩

/-- The entry a `minimax` frame stores: the flag compares the value with the
window of the call. -/
def stored_entry (val depth alpha_orig beta_orig : Int) (best_move : point) : TTEntry :=
  { value := val
    depth := depth
    best_move := best_move
    flag := if val ≤ alpha_orig then 2 else if val ≥ beta_orig then 1 else 0 }

/-- The frame does not reach its loop: the static score is decisive, or the
depth is used up, or there is no candidate. -/
def static_return (board : chess_info) (depth : Int) : Prop :=
  evaluate board ≥ 40000 ∨ evaluate board ≤ -40000 ∨ depth = 0 ∨ get_moves board = []

/-- The two assignments `if (eval > max_eval) ...` and `alpha = std::max(alpha, eval)`
of the maximizing branch, after the child returned `eval` and left the engine `e`. -/
def max_update (st : frame) (move : point) (eval : Int) (e : engine) : frame :=
  let st := if eval > st.best_eval then
    { st with best_eval := eval, best_move_this_node := move } else st
  { st with e := e, alpha := max st.alpha eval }

/-- The two assignments `if (eval < min_eval) ...` and `beta = std::min(beta, eval)`
of the minimizing branch. -/
def min_update (st : frame) (move : point) (eval : Int) (e : engine) : frame :=
  let st := if eval < st.best_eval then
    { st with best_eval := eval, best_move_this_node := move } else st
  { st with e := e, beta := min st.beta eval }

/-- The state the maximizing branch passes to the child for `move`. -/
def black_child_state (board : chess_info) (move : point) : chess_info :=
  { board.place move 1 with
    turn := 1, round := (board.place move 1).round + 1, current_point := move }

/-- The state the minimizing branch passes to the child for `move`. -/
def white_child_state (board : chess_info) (move : point) : chess_info :=
  { board.place move 2 with
    turn := 0, round := (board.place move 2).round + 1, current_point := move }

/-- The candidate is not skipped by the maximizing branch: a Black stone there
completes five, or makes none of the three forbidden shapes. -/
def black_allowed (board : chess_info) (move : point) : Bool :=
  is_win (board.place move 1).pieces move || !black_forbidden (board.place move 1).pieces move

/-- An engine whose table holds, for the fingerprint 0, a lower bound 7 of depth 5. -/
def bound_engine : engine :=
  { fresh_engine with trans_table := ShardedMap.empty.insert 0 ⟨7, 1, 5, ⟨8, 8⟩⟩ }

/-- The key `score_a` of the comparator of the move ordering: 10000000 for the
hinted move, the history counter of the cell for any other move. -/
def order_key (history_table : Int → Int → Int) (hash_move : point) (a : point) : Int :=
  if a.x = hash_move.x ∧ a.y = hash_move.y then 10000000 else history_table a.x a.y

/-- What `std::sort(first, last, comp)` guarantees for the comparator of the
move ordering (a strict weak ordering): the result is a rearrangement of the
range, and no element compares before an element that precedes it. -/
def sort_contract (std_sort : (point → point → Bool) → List point → List point) : Prop :=
  ∀ (history_table : Int → Int → Int) (hash_move : point) (moves : List point),
    (std_sort (order_before history_table hash_move) moves).Perm moves ∧
      (std_sort (order_before history_table hash_move) moves).Pairwise
        (fun a b => order_before history_table hash_move b a = false)

/-- A history table whose counter of the cell (7,7) has passed the key of the
hinted move. -/
def hot_history : Int → Int → Int := fun i j => if i = 7 ∧ j = 7 then 10000001 else 0

/-- A board with one Black stone at (8,7), White to move. -/
def one_stone_state : chess_info := ⟨set_piece empty_board ⟨8, 7⟩ 1, 1, 1, ⟨8, 7⟩⟩

/-- Spec side of C28: the index `j` at which the scan stops, that of the first
decisive score, or the last index when no score is decisive. -/
def spec_stop_index (decisive : Int → Bool) (scores : List Int) : Nat :=
  if scores.any decisive then scores.findIdx decisive else scores.length - 1

/-- Spec side of C28: the scores `s_0 .. s_j` the scan looks at. -/
def spec_scanned (decisive : Int → Bool) (scores : List Int) : List Int :=
  scores.take (spec_stop_index decisive scores + 1)

/-- Spec side of C28: the maximum of a nonempty list of scores. -/
def spec_maximum : List Int → Int
  | [] => 0
  | [s] => s
  | s :: rest => max s (spec_maximum rest)

/-- Spec side of C28: the minimum of a nonempty list of scores. -/
def spec_minimum : List Int → Int
  | [] => 0
  | [s] => s
  | s :: rest => min s (spec_minimum rest)

/-- Spec side of C28: the candidate the maximizer returns, the one of least
index among `0 .. j` whose score is the maximum of `s_0 .. s_j`. -/
def spec_max_choice (scores : List Int) (moves : List point) : point :=
  let scanned := spec_scanned (fun s => decide (s ≥ 40000)) scores
  moves.getD (scanned.indexOf (spec_maximum scanned)) ⟨-1, -1⟩

/-- Spec side of C28: the candidate the minimizer returns. -/
def spec_min_choice (scores : List Int) (moves : List point) : point :=
  let scanned := spec_scanned (fun s => decide (s ≤ -40000)) scores
  moves.getD (scanned.indexOf (spec_minimum scanned)) ⟨-1, -1⟩

/-- The first loop of `get_best_point` pushes the candidate to
`winning_candidates`: it is not skipped as a forbidden move of Black, and the
static score after the mover's stone is decisive for the mover. -/
def winning_candidate (state : chess_info) (move : point) : Prop :=
  ¬ (state.turn = 0 ∧ is_win (state.place move (mover_piece state)).pieces move = false ∧
      black_forbidden (state.place move (mover_piece state)).pieces move = true) ∧
    if state.turn = 0 then evaluate (state.place move (mover_piece state)) ≥ 40000
    else evaluate (state.place move (mover_piece state)) ≤ -40000

/-- Spec side of C30: cell number `t` of the window of the line through `p` in
the orientation `d` that has `p` at position `idx`. -/
def window_cell (p d : point) (idx t : Nat) : point := cell_at p d ((t : Int) - (idx : Int))

/-- Spec side of C30: the symbol read at position `t` of the window, the own
cell of `p` taken as '1' whatever it holds. -/
def window_symbol (board : Board) (p d : point) (idx t : Nat) : Char :=
  if t = idx then '1'
  else to_char (board (window_cell p d idx t).x (window_cell p d idx t).y)

/-- Spec side of C30: the window of the length of `pattern` with `p` at
position `idx` lies on the board, the pattern has '1' at `idx`, and the window
reads as the pattern. -/
def window_matches (board : Board) (p d : point) (pattern : List Char) (idx : Nat) : Prop :=
  idx < pattern.length ∧ pattern[idx]? = some '1' ∧
    (∀ t : Nat, t < pattern.length → (window_cell p d idx t).is_valid = true) ∧
    (∀ t : Nat, t < pattern.length → pattern[t]? = some (window_symbol board p d idx t))

/-- Spec side of C30: some window of the orientation `d` through `p` reads as
one of the patterns. -/
def orientation_matches (board : Board) (p : point) (patterns : List (List Char))
    (d : point) : Prop :=
  ∃ pattern ∈ patterns, ∃ idx : Nat, window_matches board p d pattern idx

/-- Spec side of C30: at least two of the four orientations match. -/
def spec_double_shape (board : Board) (p : point) (patterns : List (List Char)) : Prop :=
  ∃ d1 ∈ orientations, ∃ d2 ∈ orientations, d1 ≠ d2 ∧
    orientation_matches board p patterns d1 ∧ orientation_matches board p patterns d2

/-! ## Loop bounds -/

/-- The number of steps after which a walk from `origin` in the unit direction
`delta` has left the board. -/
def steps_to_edge (origin delta : point) : Nat :=
  if delta.x = 1 then (16 - origin.x).toNat
  else if delta.x = -1 then origin.x.toNat
  else if delta.y = 1 then (16 - origin.y).toNat
  else origin.y.toNat

/-- The function `evaluate_line` with a larger bound for its inner loops. -/
def evaluate_line_fuel (fuel : Nat) (line : List Char) (table : List pattern_entry) :
    Int × List Char :=
  table.foldl (fun acc entry => scan_entry entry fuel acc.2 0 acc.1) (0, line)

/-! ## Concrete states -/

/-- A board given by its 15 rows of 15 cells; cells off the board read 0. -/
def board_of_rows (rows : List (List Int)) : Board := fun i j =>
  if 1 ≤ i ∧ 1 ≤ j then (rows.getD (i - 1).toNat []).getD (j - 1).toNat 0 else 0

/-- A position after 224 plies, 112 stones of each color, no five on the
board, with the single empty cell (8,8). -/
def crowded_rows : List (List Int) := [
  [2, 1, 2, 1, 2, 1, 2, 1, 2, 1, 2, 1, 2, 1, 2],
  [1, 2, 1, 2, 1, 2, 1, 2, 1, 2, 1, 2, 1, 2, 1],
  [1, 2, 1, 2, 2, 2, 1, 2, 1, 2, 1, 2, 1, 2, 1],
  [2, 1, 2, 1, 2, 1, 2, 1, 2, 1, 2, 1, 2, 1, 2],
  [2, 1, 2, 1, 2, 2, 2, 1, 2, 1, 2, 1, 2, 1, 2],
  [1, 2, 1, 2, 1, 2, 1, 2, 1, 2, 1, 2, 1, 2, 1],
  [1, 2, 1, 2, 1, 2, 1, 2, 1, 2, 1, 2, 1, 2, 1],
  [2, 1, 2, 1, 1, 1, 1, 0, 1, 1, 2, 1, 2, 1, 2],
  [2, 1, 2, 1, 2, 1, 2, 1, 2, 1, 2, 1, 2, 1, 2],
  [1, 2, 1, 2, 1, 2, 1, 2, 1, 2, 1, 2, 1, 2, 1],
  [1, 2, 1, 2, 1, 2, 1, 2, 1, 2, 1, 2, 1, 2, 1],
  [2, 1, 2, 1, 2, 1, 2, 1, 2, 1, 2, 1, 2, 1, 2],
  [2, 1, 2, 1, 2, 1, 2, 1, 2, 1, 2, 1, 2, 1, 2],
  [1, 2, 1, 2, 1, 2, 1, 2, 1, 2, 1, 2, 1, 2, 1],
  [1, 2, 1, 2, 1, 2, 1, 2, 1, 2, 2, 2, 1, 2, 1]]

/-- Black to move on `crowded_rows`: a Black stone on (8,8) makes a row of seven. -/
def crowded_state : chess_info := ⟨board_of_rows crowded_rows, 0, 224, ⟨5, 6⟩⟩

/-- Black to move; White threatens five at (2,5), where a Black stone makes
two open threes (down the column and down the diagonal). -/
def forbidden_block_state : chess_info :=
  ⟨board_of [(2, 1, 2), (2, 2, 2), (2, 3, 2), (2, 4, 2), (3, 5, 1), (4, 5, 1), (3, 6, 1), (4, 7, 1)],
    0, 8, ⟨2, 4⟩⟩

/-- Black to move with an open four on row 8. -/
def win_state : chess_info :=
  ⟨board_of [(8, 5, 1), (8, 6, 1), (8, 7, 1), (8, 8, 1), (7, 6, 2), (9, 7, 2), (7, 8, 2), (9, 5, 2)],
    0, 8, ⟨7, 8⟩⟩

/-- Black to move; White threatens five at (3,5) only and Black has no four. -/
def block_state : chess_info :=
  ⟨board_of [(3, 1, 2), (3, 2, 2), (3, 3, 2), (3, 4, 2), (4, 2, 1), (4, 4, 1), (5, 3, 1), (2, 3, 1)],
    0, 8, ⟨3, 4⟩⟩

/-- Black to move; White threatens five at (3,5) only and Black completes five at (1,5). -/
def race_state : chess_info :=
  ⟨board_of [(1, 1, 1), (1, 2, 1), (1, 3, 1), (1, 4, 1), (3, 1, 2), (3, 2, 2), (3, 3, 2), (3, 4, 2)],
    0, 8, ⟨3, 4⟩⟩

/-- A board without an empty cell. -/
def full_state : chess_info :=
  ⟨fun i j => if (i + 2 * j) % 4 < 2 then 1 else 2, 1, 225, ⟨15, 15⟩⟩

/-- Three moves on distinct cells. -/
def sample_moves : List (point × Int) := [(⟨8, 8⟩, 1), (⟨8, 9⟩, 2), (⟨7, 7⟩, 1)]

/-- Seven Black fours `11110` at the left edge of the rows 1, 3, ..., 13 and 28
White stones of which no row, column or diagonal holds more than two. -/
def fours_rows : List (List Int) := [
  [1, 1, 1, 1, 0, 0, 0, 0, 0, 2, 0, 0, 0, 2, 0],
  [0, 0, 0, 2, 2, 0, 0, 0, 0, 0, 0, 0, 0, 0, 0],
  [1, 1, 1, 1, 0, 2, 0, 2, 0, 0, 0, 0, 0, 0, 0],
  [2, 0, 0, 0, 0, 0, 0, 0, 0, 0, 2, 0, 0, 0, 0],
  [1, 1, 1, 1, 0, 0, 0, 0, 0, 0, 2, 0, 0, 0, 0],
  [0, 2, 0, 0, 0, 2, 0, 0, 0, 0, 0, 0, 0, 0, 0],
  [1, 1, 1, 1, 0, 0, 0, 0, 0, 0, 0, 2, 0, 0, 2],
  [0, 0, 0, 0, 0, 0, 0, 0, 2, 0, 0, 0, 0, 2, 0],
  [1, 1, 1, 1, 0, 0, 0, 2, 2, 0, 0, 0, 0, 0, 0],
  [0, 2, 2, 0, 0, 0, 0, 0, 0, 0, 0, 0, 0, 0, 0],
  [1, 1, 1, 1, 0, 0, 2, 0, 0, 0, 0, 0, 0, 0, 0],
  [2, 0, 0, 0, 0, 0, 0, 0, 0, 0, 0, 0, 2, 0, 0],
  [1, 1, 1, 1, 0, 0, 0, 0, 0, 2, 0, 0, 0, 0, 2],
  [0, 0, 0, 0, 0, 0, 0, 0, 0, 0, 0, 2, 2, 0, 0],
  [0, 0, 0, 2, 2, 0, 0, 0, 0, 0, 0, 0, 0, 0, 0]]

/-- Black to move on `fours_rows`, after 56 plies. -/
def fours_state : chess_info := ⟨board_of_rows fours_rows, 0, 56, ⟨15, 5⟩⟩

/-- Three Black stones in a row at (8,6), (8,7), (8,8), open at both ends, and
three scattered White stones. -/
def open_three_rows : List (List Int) := [
  [2, 0, 0, 0, 0, 0, 0, 0, 0, 0, 0, 0, 0, 0, 0],
  [0, 0, 0, 0, 0, 0, 0, 0, 0, 0, 0, 0, 0, 0, 0],
  [0, 0, 0, 0, 0, 0, 0, 0, 0, 0, 0, 0, 0, 2, 0],
  [0, 0, 0, 0, 0, 0, 0, 0, 0, 0, 0, 0, 0, 0, 0],
  [0, 0, 0, 0, 0, 0, 0, 0, 0, 0, 0, 0, 0, 0, 0],
  [0, 0, 0, 0, 0, 0, 0, 0, 0, 0, 0, 0, 0, 0, 0],
  [0, 0, 0, 0, 0, 0, 0, 0, 0, 0, 0, 0, 0, 0, 0],
  [0, 0, 0, 0, 0, 1, 1, 1, 0, 0, 0, 0, 0, 0, 0],
  [0, 0, 0, 0, 0, 0, 0, 0, 0, 0, 0, 0, 0, 0, 0],
  [0, 0, 0, 0, 0, 0, 0, 0, 0, 0, 0, 0, 0, 0, 0],
  [0, 0, 0, 0, 0, 0, 0, 0, 0, 0, 0, 0, 0, 0, 0],
  [0, 0, 0, 0, 0, 0, 0, 0, 0, 0, 0, 0, 0, 0, 0],
  [0, 0, 0, 0, 0, 0, 0, 0, 0, 0, 0, 0, 0, 0, 0],
  [0, 0, 2, 0, 0, 0, 0, 0, 0, 0, 0, 0, 0, 0, 0],
  [0, 0, 0, 0, 0, 0, 0, 0, 0, 0, 0, 0, 0, 0, 0]]

/-- Black to move on `open_three_rows`, after 6 plies. -/
def open_three_state : chess_info := ⟨board_of_rows open_three_rows, 0, 6, ⟨14, 3⟩⟩

/-! # Theorems -/

theorem mem_iota (a b x : Int) : x ∈ iota a b ↔ a ≤ x ∧ x < b := by
  unfold iota
  simp only [List.mem_map, List.mem_range]
  constructor
  · rintro ⟨k, hk, rfl⟩
    omega
  · intro h
    exact ⟨(x - a).toNat, by omega, by omega⟩

theorem iota_pairwise_lt (a b : Int) : (iota a b).Pairwise (fun x y => x < y) := by
  unfold iota
  rw [List.pairwise_map]
  exact (List.pairwise_lt_range _).imp (fun h => by omega)

theorem foldl_push_if {α β : Type} (p : α → Bool) (g : α → β) (l : List α) (init : List β) :
    l.foldl (fun acc x => if p x then acc ++ [g x] else acc) init
      = init ++ (l.filter p).map g := by
  induction l generalizing init with
  | nil => simp
  | cons a l ih =>
    simp only [List.foldl_cons, ih, List.filter_cons]
    cases p a <;> simp

theorem foldl_append_flatMap {α β : Type} (h : α → List β) (l : List α) (init : List β) :
    l.foldl (fun acc x => acc ++ h x) init = init ++ l.flatMap h := by
  induction l generalizing init with
  | nil => simp
  | cons a l ih => simp [ih]

theorem get_moves_eq (board : chess_info) :
    get_moves board =
      if !has_pieces board then [⟨8, 8⟩]
      else (iota 1 16).flatMap (fun i =>
        ((iota 1 16).filter (fun j => is_candidate board i j)).map (fun j => (⟨i, j⟩ : point))) := by
  unfold get_moves
  split
  · rfl
  · have inner : ∀ (i : Int) (moves : List point),
        (iota 1 16).foldl (fun moves j =>
          if board.pieces i j == 0 then
            if has_neighbor board i j then moves ++ [(⟨i, j⟩ : point)] else moves
          else moves) moves
        = moves ++ ((iota 1 16).filter (fun j => is_candidate board i j)).map (fun j => (⟨i, j⟩ : point)) := by
      intro i moves
      rw [← foldl_push_if]
      congr 1
      funext acc j
      unfold is_candidate
      cases board.pieces i j == 0 <;> simp
    simp only [inner]
    rw [foldl_append_flatMap]
    simp

theorem has_pieces_iff (board : chess_info) :
    has_pieces board = true ↔
      ∃ i j : Int, 1 ≤ i ∧ i ≤ 15 ∧ 1 ≤ j ∧ j ≤ 15 ∧ board.pieces i j ≠ 0 := by
  unfold has_pieces
  simp only [List.any_eq_true, mem_iota, bne_iff_ne]
  constructor
  · rintro ⟨i, hi, j, hj, h⟩
    exact ⟨i, j, by omega, by omega, by omega, by omega, h⟩
  · rintro ⟨i, j, h1, h2, h3, h4, h⟩
    exact ⟨i, by omega, j, by omega, h⟩

theorem has_neighbor_iff (board : chess_info) (i j : Int) :
    has_neighbor board i j = true ↔
      ∃ nx ny : Int, 1 ≤ nx ∧ nx ≤ 15 ∧ 1 ≤ ny ∧ ny ≤ 15 ∧ board.pieces nx ny ≠ 0
        ∧ |nx - i| ≤ 2 ∧ |ny - j| ≤ 2 := by
  unfold has_neighbor
  simp only [List.any_eq_true, mem_iota, bne_iff_ne, Bool.and_eq_true, decide_eq_true_eq]
  constructor
  · rintro ⟨dx, hdx, dy, hdy, ⟨⟨⟨h1, h2⟩, h3⟩, h4⟩, h⟩
    refine ⟨i + dx, j + dy, h1, h2, h3, h4, h, ?_, ?_⟩ <;> rw [abs_le] <;> constructor <;> omega
  · rintro ⟨nx, ny, h1, h2, h3, h4, h, hx, hy⟩
    rw [abs_le] at hx hy
    refine ⟨nx - i, by omega, ny - j, by omega, ?_, ?_⟩
    · refine ⟨⟨⟨?_, ?_⟩, ?_⟩, ?_⟩ <;> omega
    · have e1 : i + (nx - i) = nx := by omega
      have e2 : j + (ny - j) = ny := by omega
      rw [e1, e2]; exact h


/-- Membership in the candidate list of a board that has a stone. -/
theorem mem_get_moves (board : chess_info) (hp : has_pieces board = true) (p : point) :
    p ∈ get_moves board ↔
      (1 ≤ p.x ∧ p.x ≤ 15 ∧ 1 ≤ p.y ∧ p.y ≤ 15 ∧ is_candidate board p.x p.y = true) := by
  rw [get_moves_eq, hp]
  simp only [Bool.not_true, Bool.false_eq_true, if_false, List.mem_flatMap, List.mem_map,
    List.mem_filter, mem_iota]
  constructor
  · rintro ⟨i, hi, j, ⟨hj, hc⟩, rfl⟩
    dsimp only
    exact ⟨hi.1, by omega, hj.1, by omega, hc⟩
  · rintro ⟨h1, h2, h3, h4, hc⟩
    exact ⟨p.x, ⟨h1, by omega⟩, p.y, ⟨⟨h3, by omega⟩, hc⟩, rfl⟩

theorem get_moves_pairwise (board : chess_info) (hp : has_pieces board = true) :
    (get_moves board).Pairwise (fun p q => p.lt q = true) := by
  rw [get_moves_eq, hp]
  simp only [Bool.not_true, Bool.false_eq_true, if_false]
  rw [List.pairwise_flatMap]
  constructor
  · intro i _
    rw [List.pairwise_map]
    refine ((iota_pairwise_lt 1 16).filter _).imp ?_
    intro a b hab
    simp [point.lt, hab]
  · refine (iota_pairwise_lt 1 16).imp ?_
    intro a b hab p hp q hq
    simp only [List.mem_map] at hp hq
    obtain ⟨_, _, rfl⟩ := hp
    obtain ⟨_, _, rfl⟩ := hq
    have : a ≠ b := by omega
    simp [point.lt, hab, this]

/-- C9: on a board without a stone `get_moves` returns exactly `[(8,8)]`; on a
board with a stone it returns, strictly increasing in the row-major order
`point::operator<` (hence without duplicates), exactly the empty in-bounds cells
that have an occupied in-bounds cell within distance 2 in both coordinates. -/
theorem get_moves_exact (board : chess_info) :
    ((∀ i j : Int, 1 ≤ i → i ≤ 15 → 1 ≤ j → j ≤ 15 → board.pieces i j = 0) →
        get_moves board = [⟨8, 8⟩]) ∧
    ((∃ i j : Int, 1 ≤ i ∧ i ≤ 15 ∧ 1 ≤ j ∧ j ≤ 15 ∧ board.pieces i j ≠ 0) →
        (get_moves board).Pairwise (fun p q => p.lt q = true) ∧
        (get_moves board).Nodup ∧
        ∀ p : point, p ∈ get_moves board ↔
          (1 ≤ p.x ∧ p.x ≤ 15 ∧ 1 ≤ p.y ∧ p.y ≤ 15 ∧ board.pieces p.x p.y = 0 ∧
            ∃ nx ny : Int, 1 ≤ nx ∧ nx ≤ 15 ∧ 1 ≤ ny ∧ ny ≤ 15 ∧ board.pieces nx ny ≠ 0 ∧
              |nx - p.x| ≤ 2 ∧ |ny - p.y| ≤ 2)) := by
  constructor
  · intro h
    have hp : has_pieces board = false := by
      rw [Bool.eq_false_iff, Ne, has_pieces_iff]
      rintro ⟨i, j, h1, h2, h3, h4, hne⟩
      exact hne (h i j h1 h2 h3 h4)
    rw [get_moves_eq, hp]; rfl
  · intro h
    have hp := (has_pieces_iff board).2 h
    refine ⟨get_moves_pairwise board hp, ?_, ?_⟩
    · refine (get_moves_pairwise board hp).imp ?_
      intro p q hpq heq
      subst heq
      simp [point.lt] at hpq
    · intro p
      rw [mem_get_moves board hp]
      unfold is_candidate
      rw [Bool.and_eq_true, has_neighbor_iff, beq_iff_eq]

/-- C10: if `get_moves` returns the empty list then each of the 225 cells is
occupied; equivalently, a board with an empty cell yields a candidate. -/
theorem get_moves_nil_full (board : chess_info) :
    (get_moves board = [] →
      ∀ i j : Int, 1 ≤ i → i ≤ 15 → 1 ≤ j → j ≤ 15 → board.pieces i j ≠ 0) ∧
    ((∃ i j : Int, 1 ≤ i ∧ i ≤ 15 ∧ 1 ≤ j ∧ j ≤ 15 ∧ board.pieces i j = 0) →
      get_moves board ≠ []) := by
  have main : get_moves board = [] →
      ∀ i j : Int, 1 ≤ i → i ≤ 15 → 1 ≤ j → j ≤ 15 → board.pieces i j ≠ 0 := by
    intro hnil
    have hp : has_pieces board = true := by
      by_contra hc
      rw [Bool.not_eq_true] at hc
      rw [get_moves_eq, hc] at hnil
      simp at hnil
    -- an occupied cell passes its occupancy on to every cell next to it
    have step : ∀ x y x' y' : Int, 1 ≤ x → x ≤ 15 → 1 ≤ y → y ≤ 15 →
        1 ≤ x' → x' ≤ 15 → 1 ≤ y' → y' ≤ 15 → |x - x'| ≤ 2 → |y - y'| ≤ 2 →
        board.pieces x y ≠ 0 → board.pieces x' y' ≠ 0 := by
      intro x y x' y' h1 h2 h3 h4 h1' h2' h3' h4' hx hy hocc hemp
      have hmem : (⟨x', y'⟩ : point) ∈ get_moves board := by
        rw [mem_get_moves board hp]
        refine ⟨h1', h2', h3', h4', ?_⟩
        unfold is_candidate
        rw [Bool.and_eq_true, has_neighbor_iff, beq_iff_eq]
        exact ⟨hemp, x, y, h1, h2, h3, h4, hocc, hx, hy⟩
      rw [hnil] at hmem
      simp at hmem
    obtain ⟨a, b, ha1, ha2, hb1, hb2, hab⟩ := (has_pieces_iff board).1 hp
    have row : ∀ n : Nat, ∀ x : Int, 1 ≤ x → x ≤ 15 → |x - a| ≤ n → board.pieces x b ≠ 0 := by
      intro n
      induction n with
      | zero =>
        intro x _ _ hx
        have : x = a := by rw [abs_le] at hx; omega
        rw [this]; exact hab
      | succ n ih =>
        intro x h1 h2 hx
        rw [abs_le] at hx
        by_cases hlt : x < a
        · exact step (x + 1) b x b (by omega) (by omega) hb1 hb2 h1 h2 hb1 hb2
            (by rw [abs_le]; omega) (by rw [abs_le]; omega)
            (ih (x + 1) (by omega) (by omega) (by rw [abs_le]; omega))
        · by_cases hgt : a < x
          · exact step (x - 1) b x b (by omega) (by omega) hb1 hb2 h1 h2 hb1 hb2
              (by rw [abs_le]; omega) (by rw [abs_le]; omega)
              (ih (x - 1) (by omega) (by omega) (by rw [abs_le]; omega))
          · have : x = a := by omega
            rw [this]; exact hab
    intro i j hi1 hi2 hj1 hj2
    have hib : board.pieces i b ≠ 0 := row (i - a).natAbs i hi1 hi2 (by rw [abs_le]; omega)
    have col : ∀ n : Nat, ∀ y : Int, 1 ≤ y → y ≤ 15 → |y - b| ≤ n → board.pieces i y ≠ 0 := by
      intro n
      induction n with
      | zero =>
        intro y _ _ hy
        have : y = b := by rw [abs_le] at hy; omega
        rw [this]; exact hib
      | succ n ih =>
        intro y h1 h2 hy
        rw [abs_le] at hy
        by_cases hlt : y < b
        · exact step i (y + 1) i y hi1 hi2 (by omega) (by omega) hi1 hi2 h1 h2
            (by rw [abs_le]; omega) (by rw [abs_le]; omega)
            (ih (y + 1) (by omega) (by omega) (by rw [abs_le]; omega))
        · by_cases hgt : b < y
          · exact step i (y - 1) i y hi1 hi2 (by omega) (by omega) hi1 hi2 h1 h2
              (by rw [abs_le]; omega) (by rw [abs_le]; omega)
              (ih (y - 1) (by omega) (by omega) (by rw [abs_le]; omega))
          · have : y = b := by omega
            rw [this]; exact hib
    exact col (j - b).natAbs j hj1 hj2 (by rw [abs_le]; omega)
  refine ⟨main, ?_⟩
  rintro ⟨i, j, h1, h2, h3, h4, h0⟩ hnil
  exact main hnil i j h1 h2 h3 h4 h0


theorem win_pass_fst (state : chess_info) (moves wc : List point) :
    (win_pass state moves wc).1
      = moves.find? (fun m => is_win (set_piece state.pieces m (mover_piece state)) m) := by
  induction moves generalizing wc with
  | nil => rfl
  | cons move rest ih =>
    unfold win_pass
    simp only [chess_info.place, List.find?_cons, mover_piece] at ih ⊢
    generalize (if state.turn = 0 then (1 : Int) else 2) = piece at ih ⊢
    cases hw : is_win (set_piece state.pieces move piece) move
    · simp only [Bool.not_false, Bool.and_true, Bool.false_eq_true, if_false]
      split_ifs <;> exact ih _
    · simp

theorem block_pass_eq (state : chess_info) (moves : List point) :
    block_pass state moves
      = moves.find? (fun m => is_win (set_piece state.pieces m (opponent_piece state)) m) := by
  induction moves with
  | nil => rfl
  | cons move rest ih =>
    unfold block_pass
    simp only [chess_info.place, List.find?_cons, opponent_piece] at ih ⊢
    generalize (if state.turn = 0 then (2 : Int) else 1) = piece at ih ⊢
    by_cases hw : is_win (set_piece state.pieces move piece) move = true
    · simp [hw]
    · rw [Bool.not_eq_true] at hw
      simp only [hw, Bool.not_false, Bool.and_true, Bool.false_eq_true, if_false]
      split_ifs <;> exact ih

/-- A non-zero count means that the first cell of the walk is on the board and
has the counted color. -/
theorem count_loop_pos (board : Board) (delta : point) (color : Int) (fuel : Nat) (origin : point)
    (h : count_loop board delta color fuel origin 0 ≠ 0) :
    origin.is_valid = true ∧ board origin.x origin.y = color := by
  cases fuel with
  | zero => simp [count_loop] at h
  | succ fuel =>
    unfold count_loop at h
    by_cases hv : origin.is_valid = true
    · by_cases hc : board origin.x origin.y = color
      · exact ⟨hv, hc⟩
      · simp [hv, hc] at h
    · simp [hv] at h

theorem is_valid_iff (p : point) :
    p.is_valid = true ↔ 1 ≤ p.x ∧ p.x ≤ 15 ∧ 1 ≤ p.y ∧ p.y ≤ 15 := by
  simp [point.is_valid, board_rows, board_cols, and_assoc]

theorem forall_cells_of_iota (P : Int → Int → Prop)
    (h : ∀ x ∈ iota 1 16, ∀ y ∈ iota 1 16, P x y) (i j : Int)
    (h1 : 1 ≤ i) (h2 : i ≤ 15) (h3 : 1 ≤ j) (h4 : j ≤ 15) : P i j :=
  h i ((mem_iota 1 16 i).2 ⟨h1, by omega⟩) j ((mem_iota 1 16 j).2 ⟨h3, by omega⟩)

theorem forall_valid_of_iota (P : point → Prop)
    (h : ∀ x ∈ iota 1 16, ∀ y ∈ iota 1 16, P ⟨x, y⟩) (c : point) (hc : c.is_valid = true) : P c := by
  rw [is_valid_iff] at hc
  exact h c.x ((mem_iota 1 16 c.x).2 ⟨hc.1, by omega⟩) c.y ((mem_iota 1 16 c.y).2 ⟨hc.2.2.1, by omega⟩)

/-- The four pairs of opposite directions `is_win` and `is_long_chain` look along. -/
theorem is_win_cases (board : Board) (origin : point) (h : is_win board origin = true) :
    ∃ d : point, (d.x = -1 ∨ d.x = 0 ∨ d.x = 1) ∧ (d.y = -1 ∨ d.y = 0 ∨ d.y = 1)
      ∧ (d.x ≠ 0 ∨ d.y ≠ 0)
      ∧ count_in_direction board origin d (board origin.x origin.y) ≠ 0 := by
  unfold is_win at h
  simp only at h
  split at h
  · rename_i h5
    by_cases h0 : count_in_direction board origin ⟨-1, 0⟩ (board origin.x origin.y) = 0
    · exact ⟨⟨1, 0⟩, by simp, by simp, by simp, by omega⟩
    · exact ⟨⟨-1, 0⟩, by simp, by simp, by simp, h0⟩
  · split at h
    · rename_i h5
      by_cases h0 : count_in_direction board origin ⟨0, -1⟩ (board origin.x origin.y) = 0
      · exact ⟨⟨0, 1⟩, by simp, by simp, by simp, by omega⟩
      · exact ⟨⟨0, -1⟩, by simp, by simp, by simp, h0⟩
    · split at h
      · rename_i h5
        by_cases h0 : count_in_direction board origin ⟨-1, -1⟩ (board origin.x origin.y) = 0
        · exact ⟨⟨1, 1⟩, by simp, by simp, by simp, by omega⟩
        · exact ⟨⟨-1, -1⟩, by simp, by simp, by simp, h0⟩
      · split at h
        · rename_i h5
          by_cases h0 : count_in_direction board origin ⟨-1, 1⟩ (board origin.x origin.y) = 0
          · exact ⟨⟨1, -1⟩, by simp, by simp, by simp, by omega⟩
          · exact ⟨⟨-1, 1⟩, by simp, by simp, by simp, h0⟩
        · exact absurd h (by simp)

/-- A stone put on an empty cell completes a five only next to a stone of its
color: the board has a stone and the cell is among the candidates of `get_moves`. -/
theorem win_mem_get_moves (state : chess_info) (c : point) (piece : Int) (hp : piece ≠ 0)
    (hv : c.is_valid = true) (he : state.pieces c.x c.y = 0)
    (hw : is_win (set_piece state.pieces c piece) c = true) :
    has_pieces state = true ∧ c ∈ get_moves state := by
  obtain ⟨d, hdx, hdy, hd, hcount⟩ := is_win_cases _ _ hw
  have hcol : set_piece state.pieces c piece c.x c.y = piece := by simp [set_piece]
  rw [hcol] at hcount
  obtain ⟨hnv, hnc⟩ := count_loop_pos _ _ _ _ _ hcount
  rw [is_valid_iff] at hnv hv
  simp only [point.add] at hnv hnc
  have hne : ¬ (c.x + d.x = c.x ∧ c.y + d.y = c.y) := by omega
  simp only [set_piece, hne, if_false] at hnc
  have hocc : state.pieces (c.x + d.x) (c.y + d.y) ≠ 0 := by rw [hnc]; exact hp
  have hpieces : has_pieces state = true :=
    (has_pieces_iff state).2 ⟨_, _, hnv.1, hnv.2.1, hnv.2.2.1, hnv.2.2.2, hocc⟩
  refine ⟨hpieces, ?_⟩
  rw [mem_get_moves state hpieces]
  refine ⟨hv.1, hv.2.1, hv.2.2.1, hv.2.2.2, ?_⟩
  unfold is_candidate
  rw [Bool.and_eq_true, has_neighbor_iff, beq_iff_eq]
  refine ⟨he, _, _, hnv.1, hnv.2.1, hnv.2.2.1, hnv.2.2.2, hocc, ?_, ?_⟩ <;>
    rw [abs_le] <;> omega

/-- A candidate of a board that has a stone is an empty cell of the board. -/
theorem get_moves_valid_empty (state : chess_info) (hp : has_pieces state = true) (m : point)
    (hm : m ∈ get_moves state) : m.is_valid = true ∧ state.pieces m.x m.y = 0 := by
  rw [mem_get_moves state hp] at hm
  obtain ⟨h1, h2, h3, h4, hc⟩ := hm
  unfold is_candidate at hc
  rw [Bool.and_eq_true, beq_iff_eq] at hc
  exact ⟨(is_valid_iff m).2 ⟨h1, h2, h3, h4⟩, hc.1⟩

theorem get_best_point_of_win (zobrist_table : Int → Int → Int → Nat) (run : parallel_run)
    (e : engine) (state : chess_info) (m : point) (hr : state.round ≠ 0)
    (hm : get_moves state ≠ [])
    (hw : (win_pass state (get_moves state) []).1 = some m) :
    get_best_point zobrist_table run e state = (m, e) := by
  unfold get_best_point
  rw [if_neg hr]
  have hne : (get_moves state).isEmpty = false := by
    cases h : get_moves state with
    | nil => exact absurd h hm
    | cons _ _ => rfl
  simp only [hne, Bool.false_eq_true, if_false]
  rcases hp : win_pass state (get_moves state) [] with ⟨a, wc⟩
  rw [hp] at hw
  simp only at hw
  subst hw
  rfl

theorem get_best_point_of_block (zobrist_table : Int → Int → Int → Nat) (run : parallel_run)
    (e : engine) (state : chess_info) (m : point) (hr : state.round ≠ 0)
    (hm : get_moves state ≠ [])
    (hw : (win_pass state (get_moves state) []).1 = none)
    (hb : block_pass state (get_moves state) = some m) :
    get_best_point zobrist_table run e state = (m, e) := by
  unfold get_best_point
  rw [if_neg hr]
  have hne : (get_moves state).isEmpty = false := by
    cases h : get_moves state with
    | nil => exact absurd h hm
    | cons _ _ => rfl
  simp only [hne, Bool.false_eq_true, if_false]
  rcases hp : win_pass state (get_moves state) [] with ⟨a, wc⟩
  rw [hp] at hw
  simp only at hw
  subst hw
  simp only [hb]

theorem mover_piece_ne_zero (state : chess_info) : mover_piece state ≠ 0 := by
  unfold mover_piece; split <;> decide

theorem opponent_piece_ne_zero (state : chess_info) : opponent_piece state ≠ 0 := by
  unfold opponent_piece; split <;> decide

/-- C1: when some empty cell completes a five for the side to move (round at
least 1), `get_best_point` returns an empty cell `m` at which the mover's stone
makes `is_win` true; the same `m` for every fingerprint table, engine depth,
table content and outcome of the search, and the engine is left as it was (no
call of `minimax` is made). -/
theorem immediate_win_is_returned (state : chess_info) (c : point)
    (hround : state.round ≥ 1) (hvalid : c.is_valid = true)
    (hempty : state.pieces c.x c.y = 0)
    (hwin : is_win (set_piece state.pieces c (mover_piece state)) c = true) :
    ∃ m : point, is_win (set_piece state.pieces m (mover_piece state)) m = true ∧
      m.is_valid = true ∧ state.pieces m.x m.y = 0 ∧
      ∀ (zobrist_table : Int → Int → Int → Nat) (run : parallel_run) (e : engine),
        get_best_point zobrist_table run e state = (m, e) := by
  obtain ⟨hpieces, hmem⟩ :=
    win_mem_get_moves state c _ (mover_piece_ne_zero state) hvalid hempty hwin
  have hne : get_moves state ≠ [] := List.ne_nil_of_mem hmem
  have hsome : ((get_moves state).find?
      (fun m => is_win (set_piece state.pieces m (mover_piece state)) m)).isSome = true := by
    rw [List.find?_isSome]
    exact ⟨c, hmem, hwin⟩
  obtain ⟨m, hm⟩ := Option.isSome_iff_exists.1 hsome
  have hmw := List.find?_some hm
  obtain ⟨hmv, hme⟩ := get_moves_valid_empty state hpieces m (List.mem_of_find?_eq_some hm)
  refine ⟨m, hmw, hmv, hme, ?_⟩
  intro zt run e
  exact get_best_point_of_win zt run e state m (by omega) hne (by rw [win_pass_fst]; exact hm)

/-- C2 (amended): when exactly one empty cell `b` completes a five for the
opponent and no empty cell completes a five for the side to move (round at
least 1), `get_best_point` returns `b`, for every fingerprint table, depth,
table content and outcome of the search, and leaves the engine as it was. -/
theorem unique_block_is_returned (state : chess_info) (b : point)
    (hround : state.round ≥ 1) (hvalid : b.is_valid = true)
    (hempty : state.pieces b.x b.y = 0)
    (hwin : is_win (set_piece state.pieces b (opponent_piece state)) b = true)
    (honly : ∀ c : point, c.is_valid = true → state.pieces c.x c.y = 0 →
      is_win (set_piece state.pieces c (opponent_piece state)) c = true → c = b)
    (hnone : ∀ c : point, c.is_valid = true → state.pieces c.x c.y = 0 →
      is_win (set_piece state.pieces c (mover_piece state)) c = false)
    (zobrist_table : Int → Int → Int → Nat) (run : parallel_run) (e : engine) :
    get_best_point zobrist_table run e state = (b, e) := by
  obtain ⟨hpieces, hmem⟩ :=
    win_mem_get_moves state b _ (opponent_piece_ne_zero state) hvalid hempty hwin
  have hne : get_moves state ≠ [] := List.ne_nil_of_mem hmem
  apply get_best_point_of_block zobrist_table run e state b (by omega) hne
  · rw [win_pass_fst, List.find?_eq_none]
    intro m hm
    obtain ⟨hmv, hme⟩ := get_moves_valid_empty state hpieces m hm
    rw [hnone m hmv hme]
    simp
  · rw [block_pass_eq]
    have hsome : ((get_moves state).find?
        (fun m => is_win (set_piece state.pieces m (opponent_piece state)) m)).isSome = true := by
      rw [List.find?_isSome]
      exact ⟨b, hmem, hwin⟩
    obtain ⟨m, hm⟩ := Option.isSome_iff_exists.1 hsome
    obtain ⟨hmv, hme⟩ := get_moves_valid_empty state hpieces m (List.mem_of_find?_eq_some hm)
    have hmw := List.find?_some hm
    rw [hm, honly m hmv hme hmw]


theorem get_best_point_round_zero (zobrist_table : Int → Int → Int → Nat) (run : parallel_run)
    (e : engine) (state : chess_info) (hround : state.round = 0) :
    get_best_point zobrist_table run e state = (⟨8, 8⟩, e) := by
  unfold get_best_point
  rw [if_pos hround]

theorem get_best_point_of_search (zobrist_table : Int → Int → Int → Nat) (run : parallel_run)
    (e : engine) (state : chess_info) (hr : state.round ≠ 0)
    (hm : get_moves state ≠ [])
    (hw : (win_pass state (get_moves state) []).1 = none)
    (hb : block_pass state (get_moves state) = none) :
    get_best_point zobrist_table run e state =
      (aggregate (decide (state.turn = 0))
        (List.zip (root_scores zobrist_table run e state) (root_candidates state))
        (if state.turn = 0 then -search_infinity else search_infinity) ⟨-1, -1⟩,
       run.tables e) := by
  unfold get_best_point root_scores root_candidates
  rw [if_neg hr]
  have hne : (get_moves state).isEmpty = false := by
    cases h : get_moves state with
    | nil => exact absurd h hm
    | cons _ _ => rfl
  simp only [hne, Bool.false_eq_true, if_false]
  rcases hp : win_pass state (get_moves state) [] with ⟨a, wc⟩
  rw [hp] at hw
  simp only at hw
  subst hw
  simp only [hb, decide_eq_true_eq]

theorem aggregate_max_cases (L : List (Int × point)) (bv : Int) (bm : point) (hbv : bv < 40000) :
    aggregate true L bv bm ∈ L.map Prod.snd ∨
      (aggregate true L bv bm = bm ∧ ∀ p ∈ L, p.1 ≤ bv) := by
  induction L generalizing bv bm with
  | nil => right; exact ⟨rfl, by simp⟩
  | cons p rest ih =>
    obtain ⟨val, move⟩ := p
    unfold aggregate
    simp only [if_true, List.map_cons, List.mem_cons]
    by_cases hgt : val > bv
    · simp only [hgt, if_true]
      by_cases hdec : val ≥ 40000
      · simp only [hdec, if_true]; left; left; trivial
      · simp only [hdec, if_false]
        rcases ih val move (by omega) with h | ⟨h, _⟩
        · left; right; exact h
        · left; left; exact h
    · simp only [hgt, if_false]
      have hdec : ¬ val ≥ 40000 := by omega
      simp only [hdec, if_false]
      rcases ih bv bm hbv with h | ⟨h, hall⟩
      · left; right; exact h
      · right
        refine ⟨h, ?_⟩
        intro p hp
        rcases hp with rfl | hp
        · simp only; omega
        · exact hall p hp

theorem aggregate_max_keep (L : List (Int × point)) (bv : Int) (bm : point) (hbv : bv < 40000)
    (hall : ∀ p ∈ L, p.1 ≤ bv) : aggregate true L bv bm = bm := by
  induction L with
  | nil => rfl
  | cons p rest ih =>
    obtain ⟨val, move⟩ := p
    have hv : val ≤ bv := hall (val, move) (List.mem_cons_self _ _)
    unfold aggregate
    have hgt : ¬ val > bv := by omega
    have hdec : ¬ val ≥ 40000 := by omega
    simp only [if_true, hgt, if_false, hdec]
    exact ih (fun p hp => hall p (List.mem_cons_of_mem _ hp))

theorem aggregate_min_cases (L : List (Int × point)) (bv : Int) (bm : point) (hbv : -40000 < bv) :
    aggregate false L bv bm ∈ L.map Prod.snd ∨
      (aggregate false L bv bm = bm ∧ ∀ p ∈ L, bv ≤ p.1) := by
  induction L generalizing bv bm with
  | nil => right; exact ⟨rfl, by simp⟩
  | cons p rest ih =>
    obtain ⟨val, move⟩ := p
    unfold aggregate
    simp only [Bool.false_eq_true, if_false, List.map_cons, List.mem_cons]
    by_cases hlt : val < bv
    · simp only [hlt, if_true]
      by_cases hdec : val ≤ -40000
      · simp only [hdec, if_true]; left; left; trivial
      · simp only [hdec, if_false]
        rcases ih val move (by omega) with h | ⟨h, _⟩
        · left; right; exact h
        · left; left; exact h
    · simp only [hlt, if_false]
      have hdec : ¬ val ≤ -40000 := by omega
      simp only [hdec, if_false]
      rcases ih bv bm hbv with h | ⟨h, hall⟩
      · left; right; exact h
      · right
        refine ⟨h, ?_⟩
        intro p hp
        rcases hp with rfl | hp
        · simp only; omega
        · exact hall p hp

theorem aggregate_min_keep (L : List (Int × point)) (bv : Int) (bm : point) (hbv : -40000 < bv)
    (hall : ∀ p ∈ L, bv ≤ p.1) : aggregate false L bv bm = bm := by
  induction L with
  | nil => rfl
  | cons p rest ih =>
    obtain ⟨val, move⟩ := p
    have hv : bv ≤ val := hall (val, move) (List.mem_cons_self _ _)
    unfold aggregate
    have hlt : ¬ val < bv := by omega
    have hdec : ¬ val ≤ -40000 := by omega
    simp only [Bool.false_eq_true, if_false, hlt, hdec]
    exact ih (fun p hp => hall p (List.mem_cons_of_mem _ hp))

/-- Every candidate of `get_moves` is a cell of the board. -/
theorem get_moves_valid (state : chess_info) (m : point) (hm : m ∈ get_moves state) :
    m.is_valid = true := by
  by_cases hp : has_pieces state = true
  · exact (get_moves_valid_empty state hp m hm).1
  · rw [Bool.not_eq_true] at hp
    rw [get_moves_eq, hp] at hm
    simp only [Bool.not_false, if_true, List.mem_singleton] at hm
    subst hm
    decide

theorem win_pass_snd_subset (state : chess_info) (moves wc : List point) (m : point)
    (hm : m ∈ (win_pass state moves wc).2) : m ∈ wc ∨ m ∈ moves := by
  induction moves generalizing wc with
  | nil => left; exact hm
  | cons move rest ih =>
    unfold win_pass at hm
    simp only at hm
    split_ifs at hm
    all_goals first
      | exact Or.inl hm
      | (rcases ih _ hm with h | h
         · first
             | exact Or.inl h
             | (rcases List.mem_append.1 h with h | h
                · exact Or.inl h
                · exact Or.inr (by rw [List.mem_singleton.1 h]; exact List.mem_cons_self _ _))
         · exact Or.inr (List.mem_cons_of_mem _ h))

theorem root_candidates_subset (state : chess_info) (m : point)
    (hm : m ∈ root_candidates state) : m ∈ get_moves state := by
  unfold root_candidates at hm
  simp only at hm
  split_ifs at hm
  · rcases win_pass_snd_subset state _ _ m hm with h | h
    · simp at h
    · exact h
  · exact hm


theorem exists_zip_of_mem_left {α β : Type} (l1 : List α) (l2 : List β)
    (h : l1.length = l2.length) (a : α) (ha : a ∈ l1) : ∃ b, (a, b) ∈ List.zip l1 l2 := by
  induction l1 generalizing l2 with
  | nil => simp at ha
  | cons x xs ih =>
    cases l2 with
    | nil => simp at h
    | cons y ys =>
      rcases List.mem_cons.1 ha with rfl | hmem
      · exact ⟨y, by simp⟩
      · obtain ⟨b, hb⟩ := ih ys (by simpa using h) hmem
        exact ⟨b, by simp [hb]⟩

theorem root_scores_length (zobrist_table : Int → Int → Int → Nat) (run : parallel_run)
    (e : engine) (state : chess_info) :
    (root_scores zobrist_table run e state).length = (root_candidates state).length := by
  simp [root_scores]

theorem placeholder_not_valid : point.is_valid ⟨-1, -1⟩ = false := by decide

/-- C3 (amended): the point `get_best_point` returns is a valid point or the
placeholder (-1,-1). The placeholder is returned exactly when the round is not
0, there are candidates, neither the win pass nor the block pass returns, and
no slot of `scores` is strictly better than the initial sentinel (at most
`-search_infinity` for Black to move, at least `search_infinity` otherwise).
The caller `ai_player::next_move` never passes on an invalid point. -/
theorem get_best_point_valid_or_placeholder (zobrist_table : Int → Int → Int → Nat)
    (run : parallel_run) (e : engine) (state : chess_info) :
    ((get_best_point zobrist_table run e state).1.is_valid = true ∨
      (get_best_point zobrist_table run e state).1 = ⟨-1, -1⟩) ∧
    ((get_best_point zobrist_table run e state).1 = ⟨-1, -1⟩ ↔
      (state.round ≠ 0 ∧ get_moves state ≠ [] ∧
        (win_pass state (get_moves state) []).1 = none ∧
        block_pass state (get_moves state) = none ∧
        ∀ v ∈ root_scores zobrist_table run e state,
          if state.turn = 0 then v ≤ -search_infinity else search_infinity ≤ v)) ∧
    (∀ p : point, next_move zobrist_table run e state = some p → p.is_valid = true) := by
  have key : ((get_best_point zobrist_table run e state).1.is_valid = true ∧
        ¬ (state.round ≠ 0 ∧ get_moves state ≠ [] ∧
          (win_pass state (get_moves state) []).1 = none ∧
          block_pass state (get_moves state) = none ∧
          ∀ v ∈ root_scores zobrist_table run e state,
            if state.turn = 0 then v ≤ -search_infinity else search_infinity ≤ v)) ∨
      ((get_best_point zobrist_table run e state).1 = ⟨-1, -1⟩ ∧
        (state.round ≠ 0 ∧ get_moves state ≠ [] ∧
          (win_pass state (get_moves state) []).1 = none ∧
          block_pass state (get_moves state) = none ∧
          ∀ v ∈ root_scores zobrist_table run e state,
            if state.turn = 0 then v ≤ -search_infinity else search_infinity ≤ v)) := by
    by_cases hr : state.round = 0
    · left
      rw [get_best_point_round_zero zobrist_table run e state hr]
      exact ⟨rfl, fun h => h.1 hr⟩
    by_cases hm : get_moves state = []
    · left
      refine ⟨?_, fun h => h.2.1 hm⟩
      unfold get_best_point
      rw [if_neg hr, hm]
      rfl
    cases hw : (win_pass state (get_moves state) []).1 with
    | some m =>
      left
      rw [get_best_point_of_win zobrist_table run e state m hr hm hw]
      refine ⟨?_, fun h => by simp at h⟩
      rw [win_pass_fst] at hw
      exact get_moves_valid state m (List.mem_of_find?_eq_some hw)
    | none =>
      cases hb : block_pass state (get_moves state) with
      | some m =>
        left
        rw [get_best_point_of_block zobrist_table run e state m hr hm hw hb]
        refine ⟨?_, fun h => by simp at h⟩
        rw [block_pass_eq] at hb
        exact get_moves_valid state m (List.mem_of_find?_eq_some hb)
      | none =>
        rw [get_best_point_of_search zobrist_table run e state hr hm hw hb]
        have hlen := root_scores_length zobrist_table run e state
        have hvalid : ∀ m ∈ (List.zip (root_scores zobrist_table run e state)
            (root_candidates state)).map Prod.snd, m.is_valid = true := by
          intro m hmem
          obtain ⟨p, hp, rfl⟩ := List.mem_map.1 hmem
          exact get_moves_valid state _ (root_candidates_subset state _ (List.of_mem_zip hp).2)
        by_cases ht : state.turn = 0
        · simp only [ht, decide_True, if_true]
          rcases aggregate_max_cases (List.zip (root_scores zobrist_table run e state)
              (root_candidates state)) (-search_infinity) ⟨-1, -1⟩ (by decide) with h | ⟨h, hall⟩
          · left
            refine ⟨hvalid _ h, ?_⟩
            rintro ⟨_, _, _, _, hv⟩
            have hkeep := aggregate_max_keep (List.zip (root_scores zobrist_table run e state)
              (root_candidates state)) (-search_infinity) ⟨-1, -1⟩ (by decide)
              (fun p hp => hv p.1 (List.of_mem_zip hp).1)
            rw [hkeep] at h
            have := hvalid _ h
            rw [placeholder_not_valid] at this
            exact absurd this (by decide)
          · right
            refine ⟨h, hr, hm, trivial, trivial, ?_⟩
            intro v hv
            obtain ⟨b, hb⟩ := exists_zip_of_mem_left _ _ hlen v hv
            exact hall _ hb
        · simp only [ht, decide_False, if_false]
          rcases aggregate_min_cases (List.zip (root_scores zobrist_table run e state)
              (root_candidates state)) search_infinity ⟨-1, -1⟩ (by decide) with h | ⟨h, hall⟩
          · left
            refine ⟨hvalid _ h, ?_⟩
            rintro ⟨_, _, _, _, hv⟩
            have hkeep := aggregate_min_keep (List.zip (root_scores zobrist_table run e state)
              (root_candidates state)) search_infinity ⟨-1, -1⟩ (by decide)
              (fun p hp => hv p.1 (List.of_mem_zip hp).1)
            rw [hkeep] at h
            have := hvalid _ h
            rw [placeholder_not_valid] at this
            exact absurd this (by decide)
          · right
            refine ⟨h, hr, hm, trivial, trivial, ?_⟩
            intro v hv
            obtain ⟨b, hb⟩ := exists_zip_of_mem_left _ _ hlen v hv
            exact hall _ hb
  refine ⟨?_, ?_, ?_⟩
  · rcases key with h | h
    · exact Or.inl h.1
    · exact Or.inr h.1
  · rcases key with h | h
    · constructor
      · intro heq
        have := h.1
        rw [heq, placeholder_not_valid] at this
        exact absurd this (by decide)
      · intro hc
        exact absurd hc h.2
    · exact ⟨fun _ => h.2, fun _ => h.1⟩
  · intro p hp
    unfold next_move at hp
    by_cases h1 : state.round = 0
    · rw [if_pos h1] at hp
      cases hp
      rfl
    · rw [if_neg h1] at hp
      by_cases h2 : (get_best_point zobrist_table run e state).1.is_valid = true
      · simp only [h2, Bool.not_true, Bool.false_eq_true, if_false, Option.some.injEq] at hp
        rw [← hp]; exact h2
      · rw [Bool.not_eq_true] at h2
        simp [h2] at hp

/-- C5: in a state with round 0 `get_best_point` returns (8,8), for every
fingerprint table, depth and table content, and leaves the engine (history and
transposition table) as it was: no search runs. -/
theorem first_move_is_center (zobrist_table : Int → Int → Int → Nat) (run : parallel_run)
    (e : engine) (state : chess_info) (hround : state.round = 0) :
    get_best_point zobrist_table run e state = (⟨8, 8⟩, e) :=
  get_best_point_round_zero zobrist_table run e state hround

theorem foldl_xor {α : Type} (g : α → Nat) (l : List α) (h : Nat) :
    l.foldl (fun h j => h ^^^ g j) h = h ^^^ xor_all (l.map g) := by
  induction l generalizing h with
  | nil => simp [xor_all]
  | cons a l ih =>
    simp only [List.foldl_cons, List.map_cons, xor_all]
    rw [ih, Nat.xor_assoc]

theorem root_hash_eq (zobrist_table : Int → Int → Int → Nat) (state : chess_info) :
    root_hash zobrist_table state =
      xor_all ((iota 1 16).map (fun i =>
        xor_all ((iota 1 16).map (fun j => cell_key zobrist_table state.pieces i j)))) := by
  unfold root_hash
  have inner : ∀ (i : Int) (h : Nat),
      (iota 1 16).foldl (fun current_hash j =>
        if state.pieces i j = 1 then current_hash ^^^ zobrist_table i j 0
        else if state.pieces i j = 2 then current_hash ^^^ zobrist_table i j 1
        else current_hash) h
      = h ^^^ xor_all ((iota 1 16).map (fun j => cell_key zobrist_table state.pieces i j)) := by
    intro i h
    rw [← foldl_xor]
    congr 1
    funext h j
    unfold cell_key
    split_ifs <;> simp
  simp only [inner]
  rw [foldl_xor, Nat.zero_xor]

/-- Changing one term of a duplicate-free list by XOR with `z` changes the XOR of the list by `z`. -/
theorem xor_all_update {α : Type} [DecidableEq α] (f f' : α → Nat) (a : α) (z : Nat) (l : List α)
    (hnd : l.Nodup) (hsame : ∀ x ∈ l, x ≠ a → f' x = f x) (ha : f' a = f a ^^^ z) :
    xor_all (l.map f') = if a ∈ l then xor_all (l.map f) ^^^ z else xor_all (l.map f) := by
  induction l with
  | nil => simp [xor_all]
  | cons x xs ih =>
    rw [List.nodup_cons] at hnd
    have ih' := ih hnd.2 (fun y hy hne => hsame y (List.mem_cons_of_mem _ hy) hne)
    simp only [List.map_cons, xor_all, ih']
    by_cases hx : x = a
    · subst hx
      simp only [List.mem_cons, true_or, if_true, hnd.1, if_false, ha]
      rw [Nat.xor_assoc, Nat.xor_assoc, Nat.xor_comm z]
    · have hfx := hsame x (List.mem_cons_self _ _) hx
      have hax : ¬ a = x := fun h => hx h.symm
      simp only [List.mem_cons, hax, false_or, hfx]
      split_ifs
      · rw [Nat.xor_assoc]
      · rfl

theorem iota_nodup (a b : Int) : (iota a b).Nodup :=
  (iota_pairwise_lt a b).imp (fun h => by omega)

/-- Putting a stone of color 1 or 2 on an empty cell of the board changes the
from-scratch fingerprint by exactly the constant of the incremental update. -/
theorem root_hash_set_piece (zobrist_table : Int → Int → Int → Nat) (state : chess_info)
    (p : point) (piece : Int) (hp : p.is_valid = true) (he : state.pieces p.x p.y = 0)
    (hc : piece = 1 ∨ piece = 2) :
    root_hash zobrist_table (state.place p piece) =
      root_hash zobrist_table state ^^^ zobrist_table p.x p.y (color_index piece) := by
  rw [is_valid_iff] at hp
  rw [root_hash_eq, root_hash_eq]
  have hrow := xor_all_update
    (fun i => xor_all ((iota 1 16).map (fun j => cell_key zobrist_table state.pieces i j)))
    (fun i => xor_all ((iota 1 16).map (fun j =>
      cell_key zobrist_table (state.place p piece).pieces i j)))
    p.x (zobrist_table p.x p.y (color_index piece)) (iota 1 16) (iota_nodup 1 16)
    (by
      intro i _ hne
      dsimp only
      congr 1
      apply List.map_congr_left
      intro j _
      simp [cell_key, chess_info.place, set_piece, hne])
    (by
      have hcol := xor_all_update
        (fun j => cell_key zobrist_table state.pieces p.x j)
        (fun j => cell_key zobrist_table (state.place p piece).pieces p.x j)
        p.y (zobrist_table p.x p.y (color_index piece)) (iota 1 16) (iota_nodup 1 16)
        (by
          intro j _ hne
          simp [cell_key, chess_info.place, set_piece, hne])
        (by
          simp only [cell_key, chess_info.place, set_piece, he, and_self, if_true]
          rcases hc with rfl | rfl <;> simp [color_index])
      dsimp only
      rw [hcol, if_pos ((mem_iota 1 16 p.y).2 ⟨hp.2.2.1, by omega⟩)])
  rw [hrow, if_pos ((mem_iota 1 16 p.x).2 ⟨hp.1, by omega⟩)]


theorem place_all_other (moves : List (point × Int)) (board : Board) (i j : Int)
    (h : ∀ mv ∈ moves, ¬ (i = mv.1.x ∧ j = mv.1.y)) : place_all moves board i j = board i j := by
  induction moves generalizing board with
  | nil => rfl
  | cons mv rest ih =>
    unfold place_all at ih ⊢
    rw [List.foldl_cons, ih _ (fun m hm => h m (List.mem_cons_of_mem _ hm))]
    simp [set_piece, h mv (List.mem_cons_self _ _)]

/-- The chain of incremental updates and the from-scratch loop agree, from any
board on which the cells of the moves are empty. -/
theorem root_hash_place_all (zobrist_table : Int → Int → Int → Nat) (moves : List (point × Int))
    (state : chess_info)
    (hvalid : ∀ mv ∈ moves, mv.1.is_valid = true ∧ (mv.2 = 1 ∨ mv.2 = 2))
    (hempty : ∀ mv ∈ moves, state.pieces mv.1.x mv.1.y = 0)
    (hdistinct : (moves.map (fun mv => mv.1)).Nodup) :
    root_hash zobrist_table { state with pieces := place_all moves state.pieces } =
      chained_hash zobrist_table moves (root_hash zobrist_table state) := by
  induction moves generalizing state with
  | nil => rfl
  | cons mv rest ih =>
    rw [List.map_cons, List.nodup_cons] at hdistinct
    have hv := hvalid mv (List.mem_cons_self _ _)
    have hstep := root_hash_set_piece zobrist_table state mv.1 mv.2 hv.1
      (hempty mv (List.mem_cons_self _ _)) hv.2
    have hrest := ih (state.place mv.1 mv.2)
      (fun m hm => hvalid m (List.mem_cons_of_mem _ hm))
      (by
        intro m hm
        have hne : m.1 ≠ mv.1 := by
          intro heq
          exact hdistinct.1 (heq ▸ List.mem_map_of_mem (fun mv => mv.1) hm)
        have hne' : ¬ (m.1.x = mv.1.x ∧ m.1.y = mv.1.y) := by
          intro hxy
          apply hne
          cases hm1 : m.1; cases hmv1 : mv.1
          rw [hm1, hmv1] at hxy
          simp only at hxy
          rw [hxy.1, hxy.2]
        simp only [chess_info.place, set_piece, hne', if_false]
        exact hempty m (List.mem_cons_of_mem _ hm))
      hdistinct.2
    unfold chained_hash at hrest ⊢
    rw [List.foldl_cons, ← hstep, ← hrest]
    rfl

/-- The chain of incremental updates does not depend on the order of the moves. -/
theorem chained_hash_perm (zobrist_table : Int → Int → Int → Nat)
    (moves moves' : List (point × Int)) (hperm : moves'.Perm moves) (hash : Nat) :
    chained_hash zobrist_table moves' hash = chained_hash zobrist_table moves hash := by
  unfold chained_hash
  apply List.Perm.foldl_eq' hperm
  intro x _ y _ z
  rw [Nat.xor_assoc, Nat.xor_assoc, Nat.xor_comm (zobrist_table x.1.x x.1.y (color_index x.2))]

theorem root_hash_empty (zobrist_table : Int → Int → Int → Nat) (state : chess_info)
    (h : ∀ i j : Int, state.pieces i j = 0) : root_hash zobrist_table state = 0 := by
  rw [root_hash_eq]
  have hz : ∀ l : List Int, xor_all (l.map (fun _ => (0 : Nat))) = 0 := by
    intro l
    induction l with
    | nil => rfl
    | cons a l ih => simp only [List.map_cons, xor_all, ih, Nat.zero_xor]
  have hk : ∀ i j, cell_key zobrist_table state.pieces i j = 0 := by
    intro i j; simp [cell_key, h i j]
  simp only [hk, hz]


/-- C6: for moves that put stones of color 1 or 2 on pairwise distinct cells of
the empty board, XOR-chaining the table constants from 0 gives the value of the
from-scratch fingerprint loop on the final board; the empty board has
fingerprint 0; neither value depends on the order of the moves; and the value
stays below 2^64 when the table entries are 64-bit words. -/
theorem incremental_hash_eq_from_scratch (zobrist_table : Int → Int → Int → Nat)
    (moves : List (point × Int)) (turn round : Int) (current_point : point)
    (hvalid : ∀ mv ∈ moves, mv.1.is_valid = true ∧ (mv.2 = 1 ∨ mv.2 = 2))
    (hdistinct : (moves.map (fun mv => mv.1)).Nodup) :
    root_hash zobrist_table ⟨place_all moves empty_board, turn, round, current_point⟩
        = chained_hash zobrist_table moves 0 ∧
      root_hash zobrist_table ⟨empty_board, turn, round, current_point⟩ = 0 ∧
      (∀ moves' : List (point × Int), moves'.Perm moves →
        chained_hash zobrist_table moves' 0 = chained_hash zobrist_table moves 0 ∧
        root_hash zobrist_table ⟨place_all moves' empty_board, turn, round, current_point⟩
          = root_hash zobrist_table ⟨place_all moves empty_board, turn, round, current_point⟩) ∧
      ((∀ i j c : Int, zobrist_table i j c < 2 ^ 64) →
        chained_hash zobrist_table moves 0 < 2 ^ 64) := by
  have h0 : root_hash zobrist_table ⟨empty_board, turn, round, current_point⟩ = 0 :=
    root_hash_empty zobrist_table _ (fun _ _ => rfl)
  have main : ∀ ms : List (point × Int),
      (∀ mv ∈ ms, mv.1.is_valid = true ∧ (mv.2 = 1 ∨ mv.2 = 2)) →
      (ms.map (fun mv => mv.1)).Nodup →
      root_hash zobrist_table ⟨place_all ms empty_board, turn, round, current_point⟩
        = chained_hash zobrist_table ms 0 := by
    intro ms hv hd
    have := root_hash_place_all zobrist_table ms ⟨empty_board, turn, round, current_point⟩ hv
      (fun _ _ => rfl) hd
    rw [h0] at this
    exact this
  refine ⟨main moves hvalid hdistinct, h0, ?_, ?_⟩
  · intro moves' hperm
    have hc := chained_hash_perm zobrist_table moves moves' hperm 0
    refine ⟨hc, ?_⟩
    rw [main moves hvalid hdistinct, ← hc]
    apply main moves'
    · intro mv hmv
      exact hvalid mv (hperm.mem_iff.1 hmv)
    · exact (hperm.map (fun mv => mv.1)).nodup_iff.2 hdistinct
  · intro hlt
    unfold chained_hash
    have : ∀ (ms : List (point × Int)) (h : Nat), h < 2 ^ 64 →
        ms.foldl (fun hash mv => hash ^^^ zobrist_table mv.1.x mv.1.y (color_index mv.2)) h
          < 2 ^ 64 := by
      intro ms
      induction ms with
      | nil => intro h hh; exact hh
      | cons mv rest ih =>
        intro h hh
        rw [List.foldl_cons]
        exact ih _ (Nat.xor_lt_two_pow hh (hlt _ _ _))
    exact this moves 0 (by norm_num)

set_option maxRecDepth 1000000 in
theorem scanned_lines_perm : scanned_lines.Perm maximal_lines := by decide!

theorem diag_loop_eq (board : chess_info) (fuel : Nat) (x y : Int) (buffer : List Char) :
    diag_loop board fuel x y buffer = buffer ++ (diag_cells fuel x y).map (symbol board) := by
  induction fuel generalizing x y buffer with
  | zero => simp [diag_loop, diag_cells]
  | succ fuel ih =>
    unfold diag_loop diag_cells
    split_ifs
    · rw [ih]; simp [symbol]
    · simp

theorem anti_loop_eq (board : chess_info) (fuel : Nat) (x y : Int) (buffer : List Char) :
    anti_loop board fuel x y buffer = buffer ++ (anti_cells fuel x y).map (symbol board) := by
  induction fuel generalizing x y buffer with
  | zero => simp [anti_loop, anti_cells]
  | succ fuel ih =>
    unfold anti_loop anti_cells
    split_ifs
    · rw [ih]; simp [symbol]
    · simp

theorem scan_line_eq (total_score : Int) (buffer : List Char) :
    scan_line total_score buffer = total_score + line_score buffer := by
  simp only [scan_line, line_score]
  omega

theorem foldl_scan_line {α : Type} (g : α → List Char) (l : List α) (total_score : Int) :
    l.foldl (fun total_score x => scan_line total_score (g x)) total_score
      = total_score + (l.map (fun x => line_score (g x))).sum := by
  induction l generalizing total_score with
  | nil => simp
  | cons a l ih =>
    rw [List.foldl_cons, ih, scan_line_eq, List.map_cons, List.sum_cons]
    omega

/-- The static score is the sum of the line scores over the scanned lines. -/
theorem evaluate_eq_sum (board : chess_info) :
    evaluate board = (scanned_lines.map (fun l => line_score (l.map (symbol board)))).sum := by
  unfold evaluate scanned_lines
  simp only [foldl_scan_line, diag_loop_eq, anti_loop_eq, List.nil_append, List.map_append,
    List.sum_append, List.map_map, Function.comp_def, symbol]
  omega


theorem mem_all_cells (p : point) : p ∈ all_cells ↔ p.is_valid = true := by
  unfold all_cells
  rw [is_valid_iff]
  simp only [List.mem_flatMap, List.mem_map, mem_iota]
  constructor
  · rintro ⟨i, hi, j, hj, rfl⟩
    dsimp only
    omega
  · intro h
    exact ⟨p.x, by omega, p.y, by omega, rfl⟩

/-- In a family of lines that groups the cells by a key, a cell of the board
whose key is listed lies on exactly one line. -/
theorem family_cover (key : point → Int) (idx : List Int) (hnd : idx.Nodup) (p : point)
    (hp : p.is_valid = true) (hk : key p ∈ idx) :
    ((idx.map (fun k => all_cells.filter (fun q => decide (key q = k)))).filter
      (fun l => decide (p ∈ l))).length = 1 := by
  rw [List.filter_map, List.length_map]
  have hmem : ∀ k, (p ∈ all_cells.filter (fun q => decide (key q = k))) ↔ key p = k := by
    intro k
    rw [List.mem_filter, mem_all_cells]
    simp [hp]
  have hfun : ((fun l => decide (p ∈ l)) ∘ fun k => all_cells.filter (fun q => decide (key q = k)))
      = fun k => decide (key p = k) := by
    funext k
    simp only [Function.comp, hmem]
  rw [hfun]
  clear hfun hmem
  induction idx with
  | nil => simp at hk
  | cons a rest ih =>
    rw [List.nodup_cons] at hnd
    rw [List.filter_cons]
    by_cases ha : key p = a
    · have hnone : rest.filter (fun k => decide (key p = k)) = [] := by
        rw [List.filter_eq_nil_iff]
        intro k hkm
        have : key p ≠ k := by
          rintro rfl
          exact hnd.1 (ha ▸ hkm)
        simp [this]
      rw [hnone]
      simp only [ha, decide_True, if_true, List.length_singleton]
    · have hk' : key p ∈ rest := by
        rcases List.mem_cons.1 hk with h | h
        · exact absurd h ha
        · exact h
      simp only [ha, decide_False, Bool.false_eq_true, if_false]
      exact ih hnd.2 hk'


set_option maxRecDepth 1000000 in
theorem maximal_lines_nodup : maximal_lines.Nodup := by decide!

theorem all_cells_nodup : all_cells.Nodup := by
  unfold all_cells
  rw [List.nodup_flatMap]
  constructor
  · intro i _
    refine (iota_nodup 1 16).map ?_
    intro a b h
    exact (point.mk.inj h).2
  · refine (iota_pairwise_lt 1 16).imp ?_
    intro a b hab
    simp only [Function.onFun, List.disjoint_left, List.mem_map]
    rintro p ⟨_, _, rfl⟩ ⟨_, _, h⟩
    have := (point.mk.inj h).1
    omega

theorem maximal_lines_cells : ∀ l ∈ maximal_lines, l.Nodup ∧ ∀ p ∈ l, p.is_valid = true := by
  intro l hl
  have hf : ∃ f : point → Bool, l = all_cells.filter f := by
    unfold maximal_lines row_lines column_lines diagonal_lines anti_diagonal_lines at hl
    simp only [List.mem_append, List.mem_map] at hl
    rcases hl with ((⟨i, _, rfl⟩ | ⟨i, _, rfl⟩) | ⟨i, _, rfl⟩) | ⟨i, _, rfl⟩ <;> exact ⟨_, rfl⟩
  obtain ⟨f, rfl⟩ := hf
  refine ⟨all_cells_nodup.filter _, ?_⟩
  intro p hp
  exact (mem_all_cells p).1 (List.mem_filter.1 hp).1

/-- C8: the static score is the sum, over the maximal lines of the board, of
the black scan minus the white scan of the line, both scans starting from the
same unmodified line. The lines scanned by the six loops are, up to order,
exactly the 15 rows, 15 columns, 29 diagonals and 29 anti-diagonals; they are
pairwise different, none repeats a cell, and every cell of the board lies on
exactly four of them. -/
theorem evaluate_sums_maximal_lines (board : chess_info) :
    evaluate board = (maximal_lines.map (fun l =>
        (evaluate_line (l.map (symbol board)) score_table_black).1
          - (evaluate_line (l.map (symbol board)) score_table_white).1)).sum ∧
      scanned_lines.Perm maximal_lines ∧
      row_lines.length = 15 ∧ column_lines.length = 15 ∧
      diagonal_lines.length = 29 ∧ anti_diagonal_lines.length = 29 ∧
      maximal_lines.Nodup ∧
      (∀ l ∈ maximal_lines, l.Nodup ∧ ∀ p ∈ l, p.is_valid = true) ∧
      (∀ p : point, p.is_valid = true →
        (maximal_lines.filter (fun l => decide (p ∈ l))).length = 4) := by
  refine ⟨?_, scanned_lines_perm, by simp [row_lines, iota], by simp [column_lines, iota],
    by simp [diagonal_lines, iota], by simp [anti_diagonal_lines, iota],
    maximal_lines_nodup, maximal_lines_cells, ?_⟩
  · rw [evaluate_eq_sum]
    exact ((scanned_lines_perm.map _).sum_eq)
  · intro p hp
    have hv := (is_valid_iff p).1 hp
    unfold maximal_lines
    simp only [List.filter_append, List.length_append]
    have h1 := family_cover (fun q => q.x) (iota 1 16) (iota_nodup 1 16) p hp
      ((mem_iota 1 16 p.x).2 (by omega))
    have h2 := family_cover (fun q => q.y) (iota 1 16) (iota_nodup 1 16) p hp
      ((mem_iota 1 16 p.y).2 (by omega))
    have h3 := family_cover (fun q => q.x - q.y) (iota (-14) 15) (iota_nodup _ _) p hp
      ((mem_iota (-14) 15 (p.x - p.y)).2 (by omega))
    have h4 := family_cover (fun q => q.x + q.y) (iota 2 31) (iota_nodup _ _) p hp
      ((mem_iota 2 31 (p.x + p.y)).2 (by omega))
    unfold row_lines column_lines diagonal_lines anti_diagonal_lines
    rw [h1, h2, h3, h4]

theorem swap_char_involutive (c : Char) : swap_char (swap_char c) = c := by
  unfold swap_char
  split_ifs <;> simp_all

theorem swap_char_beq (a b : Char) : (swap_char a == swap_char b) = (a == b) := by
  by_cases h : a = b
  · subst h; simp
  · have : swap_char a ≠ swap_char b := by
      intro heq
      apply h
      rw [← swap_char_involutive a, ← swap_char_involutive b, heq]
    simp [h, this]

theorem isPrefixOf_swap (p l : List Char) :
    (p.map swap_char).isPrefixOf (l.map swap_char) = p.isPrefixOf l := by
  induction p generalizing l with
  | nil => simp [List.isPrefixOf]
  | cons a p ih =>
    cases l with
    | nil => simp [List.isPrefixOf]
    | cons b l => simp only [List.map_cons, List.isPrefixOf, swap_char_beq, ih]

theorem search_swap (l p : List Char) :
    search (l.map swap_char) (p.map swap_char) = search l p := by
  induction l with
  | nil => rfl
  | cons c cs ih =>
    simp only [List.map_cons, search]
    rw [← List.map_cons, isPrefixOf_swap, ih]

theorem fill_swap (l : List Char) (it n : Nat) :
    fill (l.map swap_char) it n = (fill l it n).map swap_char := by
  induction l generalizing it n with
  | nil => simp [fill]
  | cons c cs ih =>
    cases it with
    | zero =>
      cases n with
      | zero => simp [fill]
      | succ n =>
        simp only [List.map_cons, fill, ih]
        simp [swap_char]
    | succ it => simp only [List.map_cons, fill, ih]

theorem scan_entry_swap (entry : pattern_entry) (fuel : Nat) (line : List Char) (it : Nat)
    (score : Int) :
    scan_entry (swap_entry entry) fuel (line.map swap_char) it score
      = ((scan_entry entry fuel line it score).1,
          (scan_entry entry fuel line it score).2.map swap_char) := by
  induction fuel generalizing line it score with
  | zero => rfl
  | succ fuel ih =>
    unfold scan_entry
    simp only [swap_entry, ← List.map_drop, search_swap, List.length_map, fill_swap]
    split_ifs
    · exact ih _ _ _
    · rfl

theorem evaluate_line_swap (line : List Char) (table : List pattern_entry) :
    evaluate_line (line.map swap_char) (table.map swap_entry)
      = ((evaluate_line line table).1, (evaluate_line line table).2.map swap_char) := by
  unfold evaluate_line
  rw [List.length_map]
  generalize line.length = n
  generalize (0 : Int) = score
  induction table generalizing line score with
  | nil => rfl
  | cons entry rest ih =>
    simp only [List.map_cons, List.foldl_cons, scan_entry_swap]
    exact ih _ _

theorem score_table_white_eq : score_table_white = score_table_black.map swap_entry := by
  decide

theorem score_table_black_eq : score_table_black = score_table_white.map swap_entry := by
  decide

theorem line_score_swap (buffer : List Char) :
    line_score (buffer.map swap_char) = - line_score buffer := by
  unfold line_score
  conv_lhs =>
    rw [score_table_white_eq]
    arg 1
    rw [score_table_black_eq]
  rw [evaluate_line_swap, evaluate_line_swap]
  simp only
  omega


theorem to_char_swap (v : Int) (hv : v = 0 ∨ v = 1 ∨ v = 2) :
    to_char (swap_piece v) = swap_char (to_char v) := by
  rcases hv with rfl | rfl | rfl <;> decide

theorem scanned_lines_valid : ∀ l ∈ scanned_lines, ∀ p ∈ l, p.is_valid = true := by
  intro l hl
  exact (maximal_lines_cells l (scanned_lines_perm.mem_iff.1 hl)).2

/-- C7: on a board whose cells hold 0, 1 or 2, exchanging the colors of all
stones negates the static score; the white table is the black table with the
symbols '1' and '2' exchanged, entry by entry, in the same order and with the
same scores. -/
theorem evaluate_swap_colors (board : chess_info)
    (hcells : ∀ i j : Int, 1 ≤ i → i ≤ 15 → 1 ≤ j → j ≤ 15 →
      board.pieces i j = 0 ∨ board.pieces i j = 1 ∨ board.pieces i j = 2) :
    evaluate (swap_colors board) = - evaluate board ∧
      score_table_white = score_table_black.map swap_entry := by
  refine ⟨?_, score_table_white_eq⟩
  rw [evaluate_eq_sum, evaluate_eq_sum]
  have hline : ∀ l ∈ scanned_lines,
      line_score (l.map (symbol (swap_colors board))) = - line_score (l.map (symbol board)) := by
    intro l hl
    rw [← line_score_swap, List.map_map]
    congr 1
    apply List.map_congr_left
    intro p hp
    have hv := (is_valid_iff p).1 (scanned_lines_valid l hl p hp)
    simp only [symbol, swap_colors, Function.comp]
    exact to_char_swap _ (hcells p.x p.y hv.1 hv.2.1 hv.2.2.1 hv.2.2.2)
  generalize scanned_lines = L at hline
  induction L with
  | nil => simp
  | cons l rest ih =>
    simp only [List.map_cons, List.sum_cons]
    rw [hline l (List.mem_cons_self _ _), ih (fun l hl => hline l (List.mem_cons_of_mem _ hl))]
    omega

/-! ## The aggregation never picks a filtered candidate -/

theorem aggregate_max_pick (L : List (Int × point)) (bv : Int) (bm : point) (hbv : bv < 40000) :
    (aggregate true L bv bm = bm ∧ ∀ p ∈ L, p.1 ≤ bv) ∨
      ∃ p ∈ L, p.2 = aggregate true L bv bm ∧ p.1 > bv := by
  induction L generalizing bv bm with
  | nil => left; exact ⟨rfl, by simp⟩
  | cons p rest ih =>
    obtain ⟨val, move⟩ := p
    unfold aggregate
    simp only [if_true]
    by_cases hgt : val > bv
    · simp only [hgt, if_true]
      right
      by_cases hdec : val ≥ 40000
      · simp only [hdec, if_true]
        exact ⟨(val, move), List.mem_cons_self _ _, rfl, hgt⟩
      · simp only [hdec, if_false]
        rcases ih val move (by omega) with ⟨h, _⟩ | ⟨p, hp, hpe, hpv⟩
        · exact ⟨(val, move), List.mem_cons_self _ _, h.symm, hgt⟩
        · exact ⟨p, List.mem_cons_of_mem _ hp, hpe, by omega⟩
    · simp only [hgt, if_false]
      have hdec : ¬ val ≥ 40000 := by omega
      simp only [hdec, if_false]
      rcases ih bv bm hbv with ⟨h, hall⟩ | ⟨p, hp, hpe, hpv⟩
      · left
        refine ⟨h, ?_⟩
        intro p hp
        rcases List.mem_cons.1 hp with rfl | hp
        · simp only; omega
        · exact hall p hp
      · exact Or.inr ⟨p, List.mem_cons_of_mem _ hp, hpe, hpv⟩

theorem zip_enumFrom_map {α β : Type} (f : Nat × α → β) (l : List α) (n : Nat) (v : β) (m : α)
    (h : (v, m) ∈ List.zip ((l.enumFrom n).map f) l) : ∃ i, v = f (i, m) := by
  induction l generalizing n with
  | nil => simp at h
  | cons a rest ih =>
    simp only [List.enumFrom_cons, List.map_cons, List.zip_cons_cons, List.mem_cons,
      Prod.mk.injEq] at h
    rcases h with ⟨hv, hm⟩ | h
    · exact ⟨n, by rw [hv, hm]⟩
    · exact ih (n + 1) h

/-- When Black is to move and neither the win pass nor the block pass returns,
the aggregation returns the placeholder or a candidate that is not forbidden
for Black: a filtered slot holds exactly the initial sentinel and never
replaces it. -/
theorem search_skips_forbidden (zobrist_table : Int → Int → Int → Nat) (run : parallel_run)
    (e : engine) (state : chess_info) (ht : state.turn = 0) (hr : state.round ≠ 0)
    (hm : get_moves state ≠ [])
    (hw : (win_pass state (get_moves state) []).1 = none)
    (hb : block_pass state (get_moves state) = none) :
    (get_best_point zobrist_table run e state).1 = ⟨-1, -1⟩ ∨
      ((get_best_point zobrist_table run e state).1 ∈ get_moves state ∧
        black_forbidden
          (set_piece state.pieces (get_best_point zobrist_table run e state).1 1)
          (get_best_point zobrist_table run e state).1 = false) := by
  rw [get_best_point_of_search zobrist_table run e state hr hm hw hb]
  simp only [ht, decide_True, if_true]
  rcases aggregate_max_pick (List.zip (root_scores zobrist_table run e state)
      (root_candidates state)) (-search_infinity) ⟨-1, -1⟩ (by decide)
    with ⟨h, _⟩ | ⟨p, hp, hpe, hpv⟩
  · exact Or.inl h
  · right
    obtain ⟨v, m⟩ := p
    simp only at hpe hpv
    rw [← hpe]
    have hmem := root_candidates_subset state m (List.of_mem_zip hp).2
    refine ⟨hmem, ?_⟩
    unfold root_scores at hp
    obtain ⟨i, hi⟩ := zip_enumFrom_map _ _ 0 v m hp
    have hnowin : is_win (set_piece state.pieces m 1) m = false := by
      rw [win_pass_fst, List.find?_eq_none] at hw
      have := hw m hmem
      simpa [mover_piece, ht] using this
    by_contra hf
    rw [Bool.not_eq_false] at hf
    simp only [root_task, chess_info.place, ht, decide_True, if_true, hnowin, hf,
      Bool.not_false, Bool.and_self] at hi
    rw [hi] at hpv
    exact absurd hpv (by decide)

/-! ## The loop bounds of the embedding are not binding -/

theorem count_loop_more (board : Board) (delta : point) (color : Int)
    (hx : delta.x = -1 ∨ delta.x = 0 ∨ delta.x = 1) (hy : delta.y = -1 ∨ delta.y = 0 ∨ delta.y = 1)
    (hd : delta.x ≠ 0 ∨ delta.y ≠ 0) (fuel extra : Nat) (origin : point) (count : Int)
    (hfuel : steps_to_edge origin delta ≤ fuel) :
    count_loop board delta color (fuel + extra) origin count
      = count_loop board delta color fuel origin count := by
  induction fuel generalizing origin count with
  | zero =>
    have hinv : origin.is_valid = false := by
      rw [Bool.eq_false_iff, Ne, is_valid_iff]
      unfold steps_to_edge at hfuel
      split_ifs at hfuel <;> omega
    cases extra with
    | zero => rfl
    | succ extra =>
      rw [Nat.zero_add]
      simp [count_loop, hinv]
  | succ fuel ih =>
    rw [Nat.add_right_comm]
    unfold count_loop
    by_cases hv : origin.is_valid = true
    · by_cases hc : board origin.x origin.y = color
      · simp only [hv, hc, if_true]
        apply ih
        rw [is_valid_iff] at hv
        unfold steps_to_edge at hfuel ⊢
        simp only [point.add]
        split_ifs at hfuel ⊢ <;> omega
      · simp only [hv, hc, if_true, if_false]
    · simp only [hv, Bool.false_eq_true, if_false]

/-- The bound 15 of `count_in_direction` is never reached by the loop guard:
with any larger bound the count is the same, so the `while` loop of the
source terminates with this count. -/
theorem count_loop_stable (board : Board) (delta : point) (color : Int)
    (hx : delta.x = -1 ∨ delta.x = 0 ∨ delta.x = 1) (hy : delta.y = -1 ∨ delta.y = 0 ∨ delta.y = 1)
    (hd : delta.x ≠ 0 ∨ delta.y ≠ 0) (extra : Nat) (origin : point) (count : Int) :
    count_loop board delta color (15 + extra) origin count
      = count_loop board delta color 15 origin count := by
  by_cases hv : origin.is_valid = true
  · apply count_loop_more board delta color hx hy hd
    rw [is_valid_iff] at hv
    unfold steps_to_edge
    split_ifs <;> omega
  · have e : 15 + extra = (14 + extra) + 1 := by omega
    rw [e]
    simp [count_loop, hv]

theorem search_le (l p : List Char) : search l p ≤ l.length := by
  induction l with
  | nil => simp [search]
  | cons c cs ih =>
    unfold search
    split_ifs
    · omega
    · simp only [List.length_cons]; omega

theorem fill_length (l : List Char) (it n : Nat) : (fill l it n).length = l.length := by
  induction l generalizing it n with
  | nil => simp [fill]
  | cons c cs ih =>
    cases it with
    | zero =>
      cases n with
      | zero => simp [fill]
      | succ n => simp [fill, ih]
    | succ it => simp [fill, ih]

/-- After `std::fill` the first overwritten cell holds the marker. -/
theorem fill_drop (l : List Char) (it n : Nat) (hit : it < l.length) (hn : 0 < n) :
    ∃ rest, (fill l it n).drop it = '3' :: rest := by
  induction l generalizing it with
  | nil => simp at hit
  | cons c cs ih =>
    cases it with
    | zero =>
      cases n with
      | zero => omega
      | succ n => exact ⟨fill cs 0 n, by simp [fill]⟩
    | succ it =>
      simp only [fill, List.drop_succ_cons]
      exact ih it (by simpa using hit)

/-- A pattern without the marker does not match where the marker stands. -/
theorem search_marker_pos (rest p : List Char) (hne : p ≠ []) (h3 : '3' ∉ p) :
    1 ≤ search ('3' :: rest) p := by
  cases p with
  | nil => exact absurd rfl hne
  | cons a ps =>
    have ha : a ≠ '3' := by
      intro h
      exact h3 (h ▸ List.mem_cons_self _ _)
    unfold search
    have : (a :: ps).isPrefixOf ('3' :: rest) = false := by
      simp [List.isPrefixOf, ha]
    rw [this]
    simp

/-- The loop of `evaluate_line` for one entry ends before its bound is used
up: once the bound covers the cells from `lb` on, where no match starts before
`lb`, a larger bound gives the same result. -/
theorem scan_entry_more (entry : pattern_entry) (hne : entry.s ≠ []) (h3 : '3' ∉ entry.s)
    (fuel extra : Nat) (line : List Char) (it lb : Nat) (score : Int)
    (hit : it ≤ lb) (hlb : lb - it ≤ search (line.drop it) entry.s)
    (hlen : line.length - lb ≤ fuel) (hitlen : it ≤ line.length) :
    scan_entry entry (fuel + extra) line it score = scan_entry entry fuel line it score := by
  induction fuel generalizing line it lb score with
  | zero =>
    cases extra with
    | zero => rfl
    | succ extra =>
      rw [Nat.zero_add]
      unfold scan_entry
      have hs := search_le (line.drop it) entry.s
      rw [List.length_drop] at hs
      have hfound : it + search (line.drop it) entry.s = line.length := by omega
      simp [hfound]
  | succ fuel ih =>
    rw [Nat.add_right_comm]
    unfold scan_entry
    have hs := search_le (line.drop it) entry.s
    rw [List.length_drop] at hs
    by_cases hfound : it + search (line.drop it) entry.s = line.length
    · simp [hfound]
    · have hbne : (it + search (line.drop it) entry.s != line.length) = true := by
        simpa using hfound
      simp only [hbne, if_true]
      have hpos : 0 < entry.s.length := List.length_pos.2 hne
      obtain ⟨rest, hrest⟩ := fill_drop line (it + search (line.drop it) entry.s)
        entry.s.length (by omega) hpos
      apply ih _ _ (it + search (line.drop it) entry.s + 1)
      · omega
      · rw [hrest]
        have := search_marker_pos rest entry.s hne h3
        omega
      · rw [fill_length]; omega
      · rw [fill_length]; omega

theorem scan_entry_length (entry : pattern_entry) (fuel : Nat) (line : List Char) (it : Nat)
    (score : Int) : (scan_entry entry fuel line it score).2.length = line.length := by
  induction fuel generalizing line it score with
  | zero => rfl
  | succ fuel ih =>
    unfold scan_entry
    simp only
    split_ifs
    · rw [ih, fill_length]
    · rfl

/-- The bound `line.length` of `evaluate_line` is never the reason a scan stops:
for a table of non-empty patterns without the marker '3', any larger bound
gives the same score and buffer, so the `while` loops of the source terminate
with this result. -/
theorem evaluate_line_stable (line : List Char) (table : List pattern_entry)
    (htable : ∀ entry ∈ table, entry.s ≠ [] ∧ '3' ∉ entry.s) (extra : Nat) :
    evaluate_line_fuel (line.length + extra) line table = evaluate_line line table := by
  unfold evaluate_line_fuel evaluate_line
  have key : ∀ (tbl : List pattern_entry) (acc : Int × List Char),
      (∀ entry ∈ tbl, entry.s ≠ [] ∧ '3' ∉ entry.s) → acc.2.length = line.length →
      tbl.foldl (fun acc entry => scan_entry entry (line.length + extra) acc.2 0 acc.1) acc
        = tbl.foldl (fun acc entry => scan_entry entry line.length acc.2 0 acc.1) acc := by
    intro tbl
    induction tbl with
    | nil => intro acc _ _; rfl
    | cons entry rest ih =>
      intro acc ht hl
      have he := ht entry (List.mem_cons_self _ _)
      simp only [List.foldl_cons]
      rw [scan_entry_more entry he.1 he.2 line.length extra acc.2 0 0 acc.1 (le_refl _)
        (by omega) (by omega) (by omega)]
      apply ih
      · exact fun e hmem => ht e (List.mem_cons_of_mem _ hmem)
      · rw [scan_entry_length, hl]
  exact key table (0, line) htable rfl

theorem score_tables_patterns :
    (∀ entry ∈ score_table_black, entry.s ≠ [] ∧ '3' ∉ entry.s) ∧
      (∀ entry ∈ score_table_white, entry.s ≠ [] ∧ '3' ∉ entry.s) := by
  decide

theorem diag_cells_more (fuel extra : Nat) (x y : Int) (h : (16 - x).toNat ≤ fuel) :
    diag_cells (fuel + extra) x y = diag_cells fuel x y := by
  induction fuel generalizing x y with
  | zero =>
    cases extra with
    | zero => rfl
    | succ extra =>
      rw [Nat.zero_add]
      unfold diag_cells
      have : ¬ (x ≤ 15 ∧ y ≤ 15) := by omega
      simp [this]
  | succ fuel ih =>
    rw [Nat.add_right_comm]
    unfold diag_cells
    split_ifs
    · rw [ih (x + 1) (y + 1) (by omega)]
    · rfl

theorem anti_cells_more (fuel extra : Nat) (x y : Int) (h : (16 - x).toNat ≤ fuel) :
    anti_cells (fuel + extra) x y = anti_cells fuel x y := by
  induction fuel generalizing x y with
  | zero =>
    cases extra with
    | zero => rfl
    | succ extra =>
      rw [Nat.zero_add]
      unfold anti_cells
      have : ¬ (x ≤ 15 ∧ y ≥ 1) := by omega
      simp [this]
  | succ fuel ih =>
    rw [Nat.add_right_comm]
    unfold anti_cells
    split_ifs
    · rw [ih (x + 1) (y - 1) (by omega)]
    · rfl

/-- The bound 15 of the diagonal walks of `evaluate` is never the reason a walk
stops: from a row `x >= 1` any larger bound fills the same buffer. -/
theorem diag_loop_stable (board : chess_info) (extra : Nat) (x y : Int) (hx : 1 ≤ x)
    (buffer : List Char) :
    diag_loop board (15 + extra) x y buffer = diag_loop board 15 x y buffer ∧
      anti_loop board (15 + extra) x y buffer = anti_loop board 15 x y buffer := by
  rw [diag_loop_eq, diag_loop_eq, anti_loop_eq, anti_loop_eq,
    diag_cells_more 15 extra x y (by omega), anti_cells_more 15 extra x y (by omega)]
  exact ⟨rfl, rfl⟩

theorem unordered_map_find_assign_same {Value : Type} (m : List (Nat × Value)) (key : Nat)
    (value : Value) : unordered_map_find (unordered_map_assign m key value) key = some value := by
  induction m with
  | nil => simp [unordered_map_assign, unordered_map_find]
  | cons kv rest ih =>
    obtain ⟨k, v⟩ := kv
    unfold unordered_map_assign
    by_cases h : k = key
    · simp [h, unordered_map_find]
    · simp [h, unordered_map_find, ih]

theorem unordered_map_find_assign_other {Value : Type} (m : List (Nat × Value)) (key key' : Nat)
    (value : Value) (hne : key' ≠ key) :
    unordered_map_find (unordered_map_assign m key value) key' = unordered_map_find m key' := by
  induction m with
  | nil => simp [unordered_map_assign, unordered_map_find, Ne.symm hne]
  | cons kv rest ih =>
    obtain ⟨k, v⟩ := kv
    unfold unordered_map_assign
    by_cases h : k = key
    · have : k ≠ key' := by rw [h]; exact Ne.symm hne
      simp [h, unordered_map_find, Ne.symm hne]
    · rw [if_neg h]
      by_cases h' : k = key'
      · simp [h', unordered_map_find]
      · simp [h', unordered_map_find, ih]

theorem find_insert_same {Value : Type} (m : ShardedMap Value) (key : Nat) (value : Value) :
    (m.insert key value).find key = some value := by
  simp [ShardedMap.find, ShardedMap.insert, unordered_map_find_assign_same]

theorem find_insert_other {Value : Type} (m : ShardedMap Value) (key key' : Nat) (value : Value)
    (hne : key' ≠ key) : (m.insert key value).find key' = m.find key' := by
  unfold ShardedMap.find ShardedMap.insert
  by_cases hs : key' % num_shards = key % num_shards
  · simp only [hs, if_true]
    exact unordered_map_find_assign_other _ _ _ _ hne
  · simp only [hs, if_false]

theorem find_clear {Value : Type} (m : ShardedMap Value) (key : Nat) :
    m.clear.find key = none := by
  simp [ShardedMap.find, ShardedMap.clear, unordered_map_find]

theorem find_run {Value : Type} (ops : List (map_op Value)) (key : Nat) :
    (ShardedMap.run ops ShardedMap.empty).find key = most_recent_insert ops key := by
  induction ops using List.reverseRecOn with
  | nil => simp [ShardedMap.run, ShardedMap.empty, ShardedMap.find, most_recent_insert,
      latest_insert, unordered_map_find]
  | append_singleton ops op ih =>
    unfold ShardedMap.run most_recent_insert at ih ⊢
    rw [List.foldl_append, List.reverse_append]
    simp only [List.foldl_cons, List.foldl_nil, List.reverse_cons, List.reverse_nil,
      List.nil_append, List.singleton_append]
    cases op with
    | clear => simp [ShardedMap.apply, find_clear, latest_insert]
    | insert k v =>
      simp only [ShardedMap.apply, latest_insert]
      by_cases h : k = key
      · simp [h, find_insert_same]
      · rw [find_insert_other _ _ _ _ (Ne.symm h), ih]
        simp [h]

/-- C11: run sequentially, a `ShardedMap` is one finite map: after any
sequence of operations on a fresh map, `find(key)` is the value of the most
recent `insert(key, v)` since the last `clear()`, or absent; `insert`
overwrites; it leaves `find` of every other key as it was, also of a key of the
same shard; after `clear()` every key is absent. -/
theorem sharded_map_is_finite_map {Value : Type} (m : ShardedMap Value) (key : Nat)
    (value : Value) :
    (∀ ops : List (map_op Value),
        (ShardedMap.run ops ShardedMap.empty).find key = most_recent_insert ops key) ∧
      (m.insert key value).find key = some value ∧
      (∀ key' : Nat, key' ≠ key → (m.insert key value).find key' = m.find key') ∧
      (∀ key' : Nat, key' ≠ key → key' % 64 = key % 64 →
        (m.insert key value).find key' = m.find key') ∧
      m.clear.find key = none :=
  ⟨fun ops => find_run ops key, find_insert_same m key value,
    fun key' h => find_insert_other m key key' value h,
    fun key' h _ => find_insert_other m key key' value h, find_clear m key⟩

/-- C15: when the move generator yields no candidate in a state with round at
least 1, `get_best_point` returns the center cell (8,8), for every fingerprint
table, engine and outcome of the search, and leaves the engine as it was. -/
theorem no_candidate_returns_center (zobrist_table : Int → Int → Int → Nat)
    (run : parallel_run) (e : engine) (state : chess_info) (hround : state.round ≥ 1)
    (hnil : get_moves state = []) :
    get_best_point zobrist_table run e state = (⟨8, 8⟩, e) := by
  unfold get_best_point
  rw [if_neg (by omega), hnil]
  rfl

/-- One frame of `minimax`, with the recursive calls written as calls of the
next smaller bound. -/
theorem minimax_succ (zobrist_table : Int → Int → Int → Nat)
    (std_sort : (point → point → Bool) → List point → List point) (fuel : Nat) (e : engine)
    (board : chess_info) (depth alpha beta : Int) (maximizing : Bool) (hash : Nat) :
    minimax zobrist_table std_sort (fuel + 1) e board depth alpha beta maximizing hash =
      match e.trans_table.find hash with
      | some entry =>
        if entry.depth ≥ depth then
          if entry.flag = 0 then some (entry.value, e)
          else
            if (if entry.flag = 1 then max alpha entry.value else alpha) ≥
                (if entry.flag = 1 then beta
                  else if entry.flag = 2 then min beta entry.value else beta) then
              some (entry.value, e)
            else
              search_node zobrist_table std_sort
                (fun e next_state alpha beta maximizing next_hash =>
                  minimax zobrist_table std_sort fuel e next_state (depth - 1) alpha beta
                    maximizing next_hash)
                e board depth (if entry.flag = 1 then max alpha entry.value else alpha)
                (if entry.flag = 1 then beta
                  else if entry.flag = 2 then min beta entry.value else beta)
                alpha beta maximizing hash entry.best_move
        else
          search_node zobrist_table std_sort
            (fun e next_state alpha beta maximizing next_hash =>
              minimax zobrist_table std_sort fuel e next_state (depth - 1) alpha beta
                maximizing next_hash)
            e board depth alpha beta alpha beta maximizing hash entry.best_move
      | none =>
        search_node zobrist_table std_sort
          (fun e next_state alpha beta maximizing next_hash =>
            minimax zobrist_table std_sort fuel e next_state (depth - 1) alpha beta
              maximizing next_hash)
          e board depth alpha beta alpha beta maximizing hash ⟨-1, -1⟩ := by
  rfl

/-- C20: when the table holds an entry for the fingerprint whose depth is at
least the requested depth, `minimax` returns the stored value, whatever the
board, and leaves the engine (history and transposition table) as it was, if
the entry is exact (flag 0), or a lower bound (flag 1) with
`max(alpha, value) >= beta`, or an upper bound (flag 2) with
`alpha >= min(beta, value)`. An entry of smaller depth causes no such return:
the call is the search of the node with the window unchanged and the entry's
best move as ordering hint. -/
theorem minimax_table_hit (zobrist_table : Int → Int → Int → Nat)
    (std_sort : (point → point → Bool) → List point → List point) (fuel : Nat) (e : engine)
    (board : chess_info) (depth alpha beta : Int) (maximizing : Bool) (hash : Nat)
    (entry : TTEntry) (hfind : e.trans_table.find hash = some entry) :
    (entry.depth ≥ depth →
      (entry.flag = 0 ∨ (entry.flag = 1 ∧ max alpha entry.value ≥ beta) ∨
        (entry.flag = 2 ∧ alpha ≥ min beta entry.value)) →
      minimax zobrist_table std_sort (fuel + 1) e board depth alpha beta maximizing hash
        = some (entry.value, e)) ∧
    (entry.depth < depth →
      minimax zobrist_table std_sort (fuel + 1) e board depth alpha beta maximizing hash
        = search_node zobrist_table std_sort
            (fun e next_state alpha beta maximizing next_hash =>
              minimax zobrist_table std_sort fuel e next_state (depth - 1) alpha beta
                maximizing next_hash)
            e board depth alpha beta alpha beta maximizing hash entry.best_move) := by
  constructor
  · intro hdepth hflag
    rw [minimax_succ]
    simp only [hfind, hdepth, if_true]
    rcases hflag with h0 | ⟨h1, hcut⟩ | ⟨h2, hcut⟩
    · simp [h0]
    · rw [h1]
      have e10 : ¬ (1 : Int) = 0 := by decide
      simp only [e10, if_false, if_true]
      rw [if_pos hcut]
    · rw [h2]
      have e20 : ¬ (2 : Int) = 0 := by decide
      have e21 : ¬ (2 : Int) = 1 := by decide
      simp only [e20, e21, if_false, if_true]
      rw [if_pos hcut]
  · intro hdepth
    have hnot : ¬ entry.depth ≥ depth := by omega
    rw [minimax_succ]
    simp only [hfind, hnot, if_false]


/-- A table hit to which C20 applies: an exact entry of depth 3 answers a call of depth 2. -/
theorem minimax_table_hit_witness :
    minimax sample_table sample_sort 1 hit_engine initial_state 2 (-10) 10 true 5
      = some (123, hit_engine) :=
  (minimax_table_hit sample_table sample_sort 0 hit_engine initial_state 2 (-10) 10 true 5
    ⟨123, 0, 3, ⟨8, 8⟩⟩ rfl).1 (by decide) (Or.inl rfl)

/-- The loop of `count_in_direction` counts the cells from `origin` on that
have the color, up to its bound. -/
theorem count_loop_spec (board : Board) (delta : point) (color : Int) (fuel : Nat)
    (origin : point) (count : Int) :
    ∃ m : Nat, count_loop board delta color fuel origin count = count + m ∧ m ≤ fuel ∧
      (∀ k : Nat, k < m → has_color board (cell_at origin delta k) color) ∧
      (m < fuel → ¬ has_color board (cell_at origin delta m) color) := by
  induction fuel generalizing origin count with
  | zero => exact ⟨0, by simp [count_loop], le_refl _, by intro k hk; omega, by intro h; omega⟩
  | succ fuel ih =>
    unfold count_loop
    have h0 : cell_at origin delta (0 : Nat) = origin := by
      simp [cell_at]
    by_cases hv : origin.is_valid = true
    · by_cases hc : board origin.x origin.y = color
      · simp only [hv, hc, if_true]
        obtain ⟨m, hm, hle, hall, hstop⟩ := ih (origin.add delta) (count + 1)
        have hshift : ∀ k : Nat, cell_at (origin.add delta) delta k = cell_at origin delta (k + 1 : Nat) := by
          intro k
          simp only [cell_at, point.add, point.mk.injEq]
          push_cast
          constructor <;> ring
        refine ⟨m + 1, by rw [hm]; push_cast; ring, by omega, ?_, ?_⟩
        · intro k hk
          cases k with
          | zero => rw [h0]; exact ⟨hv, hc⟩
          | succ k => rw [← hshift]; exact hall k (by omega)
        · intro hlt
          rw [← hshift]
          exact hstop (by omega)
      · simp only [hv, hc, if_true, if_false]
        refine ⟨0, by simp, by omega, by intro k hk; omega, ?_⟩
        intro _
        rw [h0]
        exact fun h => hc h.2
    · simp only [hv, Bool.false_eq_true, if_false]
      refine ⟨0, by simp, by omega, by intro k hk; omega, ?_⟩
      intro _
      rw [h0]
      exact fun h => hv h.1

/-- From a cell of the board, `count_in_direction` is the number of consecutive
cells of the color next to the cell in a unit direction. -/
theorem count_in_direction_spec (board : Board) (p d : point) (color : Int)
    (hp : p.is_valid = true) (hd : d.x ≠ 0 ∨ d.y ≠ 0) :
    ∃ n : Nat, count_in_direction board p d color = n ∧ side_run board p d color n := by
  unfold count_in_direction
  obtain ⟨m, hm, hle, hall, hstop⟩ := count_loop_spec board d color 15 (p.add d) 0
  have hshift : ∀ k : Nat, cell_at (p.add d) d k = cell_at p d (k + 1 : Nat) := by
    intro k
    simp only [cell_at, point.add, point.mk.injEq]
    push_cast
    constructor <;> ring
  have hlt : m < 15 := by
    by_contra hge
    have h15 : m = 15 := by omega
    have hlast := (hall 14 (by omega)).1
    rw [is_valid_iff] at hlast hp
    simp only [cell_at, point.add] at hlast
    push_cast at hlast
    omega
  refine ⟨m, by rw [hm]; simp, ?_, ?_⟩
  · intro k hk1 hk2
    obtain ⟨j, rfl⟩ : ∃ j, k = j + 1 := ⟨k - 1, by omega⟩
    rw [← hshift]
    exact hall j (by omega)
  · have := hstop hlt
    rw [hshift] at this
    exact this

/-- The number of consecutive colored cells next to a cell is determined. -/
theorem side_run_unique (board : Board) (p d : point) (c : Int) (n n' : Nat)
    (h : side_run board p d c n) (h' : side_run board p d c n') : n = n' := by
  by_contra hne
  rcases Nat.lt_or_gt_of_ne hne with hlt | hgt
  · exact h.2 (h'.1 (n + 1) (by omega) (by omega))
  · exact h'.2 (h.1 (n' + 1) (by omega) (by omega))


/-- A property of `count(-d) + count(d) + 1`, as `is_win` and `is_long_chain`
compute it, in terms of the cells next to `p`. -/
theorem line_total_iff (board : Board) (p d : point) (c : Int) (hp : p.is_valid = true)
    (hd : d.x ≠ 0 ∨ d.y ≠ 0) (P : Int → Prop) :
    P (count_in_direction board p (opposite d) c + count_in_direction board p d c + 1) ↔
      ∃ len : Nat, run_through board p d c len ∧ P len := by
  have hd' : (opposite d).x ≠ 0 ∨ (opposite d).y ≠ 0 := by
    simp only [opposite]; omega
  obtain ⟨a, ha, hra⟩ := count_in_direction_spec board p (opposite d) c hp hd'
  obtain ⟨b, hb, hrb⟩ := count_in_direction_spec board p d c hp hd
  rw [ha, hb]
  constructor
  · intro h
    exact ⟨a + b + 1, ⟨a, b, hra, hrb, rfl⟩, by push_cast; exact h⟩
  · rintro ⟨len, ⟨a', b', hra', hrb', rfl⟩, h⟩
    rw [side_run_unique board p _ c a a' hra hra', side_run_unique board p d c b b' hrb hrb']
    push_cast at h
    exact h

theorem run_through_unique (board : Board) (p d : point) (c : Int) (len len' : Nat)
    (h : run_through board p d c len) (h' : run_through board p d c len') : len = len' := by
  obtain ⟨a, b, ha, hb, rfl⟩ := h
  obtain ⟨a', b', ha', hb', rfl⟩ := h'
  rw [side_run_unique board p _ c a a' ha ha', side_run_unique board p d c b b' hb hb']

/-- C12: for a cell `p` of the board holding the color `c` (any value, in
particular a stone 1 or 2), `is_win` is true exactly when in one of the four
orientations the maximal run of `c`-colored cells through `p` has length 5; an
orientation whose run has six or more cells has no run of five and does not
count. -/
theorem is_win_iff_run_of_five (board : Board) (p : point) (c : Int)
    (hp : p.is_valid = true) (hc : board p.x p.y = c) :
    (is_win board p = true ↔ ∃ d ∈ orientations, run_through board p d c 5) ∧
      (∀ d ∈ orientations, ∀ len : Nat, 6 ≤ len → run_through board p d c len →
        ¬ run_through board p d c 5) := by
  constructor
  · have h1 := line_total_iff board p ⟨1, 0⟩ c hp (by decide) (fun t => t = 5)
    have h2 := line_total_iff board p ⟨0, 1⟩ c hp (by decide) (fun t => t = 5)
    have h3 := line_total_iff board p ⟨1, 1⟩ c hp (by decide) (fun t => t = 5)
    have h4 := line_total_iff board p ⟨1, -1⟩ c hp (by decide) (fun t => t = 5)
    simp only [opposite, Int.neg_zero, Int.reduceNeg, neg_neg] at h1 h2 h3 h4
    unfold is_win
    simp only [hc, orientations, List.mem_cons, List.mem_singleton, List.not_mem_nil, or_false,
      exists_eq_or_imp, exists_eq_left]
    have e5 : ∀ len : Nat, ((len : Int) = 5) ↔ len = 5 := by intro len; omega
    simp only [e5, exists_eq_right] at h1 h2 h3 h4
    rw [← h1, ← h2, ← h3, ← h4]
    split_ifs <;> simp_all
  · intro d _ len hlen h h5
    have := run_through_unique board p d c len 5 h h5
    omega

/-- C13: for a cell `p` of the board, `is_long_chain` is true exactly when in
one of the four orientations the consecutive cells of the color next to `p` on
its two sides, plus one for `p`, number more than 5; no orientation gives both
exactly 5 (the test of `is_win`) and more than 5. -/
theorem is_long_chain_iff_run_over_five (board : Board) (p : point) (color : Int)
    (hp : p.is_valid = true) :
    (is_long_chain board p color = true ↔
        ∃ d ∈ orientations, ∃ len : Nat, run_through board p d color len ∧ 5 < len) ∧
      (∀ d ∈ orientations,
        ¬ (run_through board p d color 5 ∧
          ∃ len : Nat, run_through board p d color len ∧ 5 < len)) := by
  constructor
  · have h1 := line_total_iff board p ⟨1, 0⟩ color hp (by decide) (fun t => t > 5)
    have h2 := line_total_iff board p ⟨0, 1⟩ color hp (by decide) (fun t => t > 5)
    have h3 := line_total_iff board p ⟨1, 1⟩ color hp (by decide) (fun t => t > 5)
    have h4 := line_total_iff board p ⟨1, -1⟩ color hp (by decide) (fun t => t > 5)
    simp only [opposite, Int.neg_zero, Int.reduceNeg, neg_neg] at h1 h2 h3 h4
    unfold is_long_chain
    simp only [orientations, List.mem_cons, List.mem_singleton, List.not_mem_nil, or_false,
      exists_eq_or_imp, exists_eq_left]
    have e5 : ∀ len : Nat, ((len : Int) > 5) ↔ 5 < len := by intro len; omega
    simp only [e5] at h1 h2 h3 h4
    rw [← h1, ← h2, ← h3, ← h4]
    split_ifs <;> simp_all
  · rintro d _ ⟨h5, len, h, hlen⟩
    have := run_through_unique board p d color len 5 h h5
    omega

theorem foldl_nested {α : Type} (f : α → Int → Int → α) (l1 l2 : List Int) (init : α) :
    l1.foldl (fun acc i => l2.foldl (fun acc j => f acc i j) acc) init
      = (l1.flatMap (fun i => l2.map (fun j => (⟨i, j⟩ : point)))).foldl
          (fun acc p => f acc p.x p.y) init := by
  induction l1 generalizing init with
  | nil => rfl
  | cons a l ih =>
    rw [List.foldl_cons, ih, List.flatMap_cons, List.foldl_append, List.foldl_map]

/-- The table after the cells `cells` were filled from the generator `rng`. -/
theorem fill_cells_spec {G : Type} (gen : random_engine G) (cells : List point)
    (hnd : cells.Nodup) (table : Int → Int → Int → Nat) (rng : G) (i j k : Int) :
    (cells.foldl (fun acc p => fill_cell gen acc p.x p.y) (table, rng)).1 i j k =
      if (⟨i, j⟩ : point) ∈ cells ∧ (k = 0 ∨ k = 1) then
        nth_output gen rng (2 * cells.indexOf ⟨i, j⟩ + k.toNat)
      else table i j k := by
  induction cells generalizing table rng with
  | nil => simp
  | cons c rest ih =>
    rw [List.nodup_cons] at hnd
    rw [List.foldl_cons]
    generalize hfc : fill_cell gen (table, rng) c.x c.y = acc
    obtain ⟨table', rng'⟩ := acc
    rw [ih hnd.2]
    simp only [fill_cell, Prod.mk.injEq] at hfc
    obtain ⟨rfl, rfl⟩ := hfc
    by_cases hc : (⟨i, j⟩ : point) = c
    · subst hc
      simp only [hnd.1, false_and, if_false, List.mem_cons, true_or, true_and,
        List.indexOf_cons_self, Nat.mul_zero, Nat.zero_add]
      by_cases h0 : k = 0
      · subst h0
        simp [set_entry, nth_output]
      · by_cases h1 : k = 1
        · subst h1
          simp [set_entry, nth_output]
        · simp [set_entry, h0, h1]
    · have hc' : ¬ c = (⟨i, j⟩ : point) := fun h => hc h.symm
      have hij : ¬ (i = c.x ∧ j = c.y) := by
        rintro ⟨hx, hy⟩
        apply hc
        cases c
        simp_all
      simp only [List.mem_cons, hc, false_or]
      by_cases hmem : (⟨i, j⟩ : point) ∈ rest ∧ (k = 0 ∨ k = 1)
      · rw [if_pos hmem, if_pos hmem, List.indexOf_cons_ne _ hc']
        have : 2 * (List.indexOf (⟨i, j⟩ : point) rest).succ + k.toNat
            = (2 * List.indexOf (⟨i, j⟩ : point) rest + k.toNat) + 1 + 1 := by omega
        rw [this]
        rfl
      · rw [if_neg hmem, if_neg hmem]
        have h1 : ¬ (i = c.x ∧ j = c.y ∧ k = 1) := fun h => hij ⟨h.1, h.2.1⟩
        have h0 : ¬ (i = c.x ∧ j = c.y ∧ k = 0) := fun h => hij ⟨h.1, h.2.1⟩
        simp only [set_entry, h1, h0, if_false]


set_option maxRecDepth 1000000 in
theorem all_cells_eq_range :
    all_cells = (List.range 225).map
      (fun (n : Nat) => (⟨1 + ((n / 15 : Nat) : Int), 1 + ((n % 15 : Nat) : Int)⟩ : point)) := by
  decide!

theorem all_cells_indexOf : ∀ x ∈ iota 1 16, ∀ y ∈ iota 1 16,
    all_cells.indexOf (⟨x, y⟩ : point) = (15 * (x - 1) + (y - 1)).toNat := by
  intro x hx y hy
  rw [mem_iota] at hx hy
  obtain ⟨a, rfl⟩ : ∃ a : Nat, x = 1 + (a : Int) := ⟨(x - 1).toNat, by omega⟩
  obtain ⟨b, rfl⟩ : ∃ b : Nat, y = 1 + (b : Int) := ⟨(y - 1).toNat, by omega⟩
  have ha : a < 15 := by omega
  have hb : b < 15 := by omega
  have hlen : all_cells.length = 225 := by rw [all_cells_eq_range]; simp
  have hk : 15 * a + b < all_cells.length := by omega
  have hget : all_cells[15 * a + b] = (⟨1 + (a : Int), 1 + (b : Int)⟩ : point) := by
    simp only [all_cells_eq_range, List.getElem_map, List.getElem_range]
    have h1 : (15 * a + b) / 15 = a := by omega
    have h2 : (15 * a + b) % 15 = b := by omega
    rw [h1, h2]
  have hidx := List.indexOf_getElem all_cells_nodup (15 * a + b) hk
  rw [hget] at hidx
  rw [hidx]
  omega

/-- C16: `init_zobrist` is idempotent, a second call changes nothing; after a
call the flag is set; a call that finds the flag unset writes, for every cell
of 1..15 x 1..15 taken row by row, the next two outputs of the generator
seeded with 12345, the constant of index 0 (Black) before that of index 1
(White); entries outside that range are never written. -/
theorem init_zobrist_idempotent {G : Type} (gen : random_engine G) (g : zobrist_globals) :
    init_zobrist gen (init_zobrist gen g) = init_zobrist gen g ∧
      (init_zobrist gen g).zobrist_initialized = true ∧
      (g.zobrist_initialized = false →
        ∀ i j : Int, 1 ≤ i → i ≤ 15 → 1 ≤ j → j ≤ 15 →
          (init_zobrist gen g).zobrist_table i j 0
              = nth_output gen (gen.seeded 12345) (2 * (15 * (i - 1) + (j - 1)).toNat) ∧
            (init_zobrist gen g).zobrist_table i j 1
              = nth_output gen (gen.seeded 12345) (2 * (15 * (i - 1) + (j - 1)).toNat + 1)) ∧
      (∀ i j k : Int, ¬ (1 ≤ i ∧ i ≤ 15 ∧ 1 ≤ j ∧ j ≤ 15 ∧ (k = 0 ∨ k = 1)) →
        (init_zobrist gen g).zobrist_table i j k = g.zobrist_table i j k) := by
  have hflag : (init_zobrist gen g).zobrist_initialized = true := by
    unfold init_zobrist
    split_ifs with h
    · exact h
    · rfl
  have htable : ∀ i j k : Int, g.zobrist_initialized = false →
      (init_zobrist gen g).zobrist_table i j k =
        if (⟨i, j⟩ : point) ∈ all_cells ∧ (k = 0 ∨ k = 1) then
          nth_output gen (gen.seeded 12345) (2 * all_cells.indexOf ⟨i, j⟩ + k.toNat)
        else g.zobrist_table i j k := by
    intro i j k hg
    unfold init_zobrist
    simp only [hg, Bool.false_eq_true, if_false]
    rw [foldl_nested (fun acc i j => fill_cell gen acc i j)]
    exact fill_cells_spec gen all_cells all_cells_nodup _ _ i j k
  refine ⟨?_, hflag, ?_, ?_⟩
  · have hdone : ∀ g' : zobrist_globals, g'.zobrist_initialized = true →
        init_zobrist gen g' = g' := by
      intro g' h
      unfold init_zobrist
      rw [if_pos h]
    exact hdone _ hflag
  · intro hg i j h1 h2 h3 h4
    have hmem : (⟨i, j⟩ : point) ∈ all_cells :=
      (mem_all_cells _).2 ((is_valid_iff _).2 ⟨h1, h2, h3, h4⟩)
    have hidx := all_cells_indexOf i ((mem_iota 1 16 i).2 ⟨h1, by omega⟩) j
      ((mem_iota 1 16 j).2 ⟨h3, by omega⟩)
    rw [htable i j 0 hg, htable i j 1 hg, hidx]
    simp [hmem]
  · intro i j k hout
    by_cases hg : g.zobrist_initialized = true
    · unfold init_zobrist
      rw [if_pos hg]
    · rw [Bool.not_eq_true] at hg
      rw [htable i j k hg]
      have : ¬ ((⟨i, j⟩ : point) ∈ all_cells ∧ (k = 0 ∨ k = 1)) := by
        rintro ⟨hm, hk⟩
        have hv := (is_valid_iff _).1 ((mem_all_cells _).1 hm)
        exact hout ⟨hv.1, hv.2.1, hv.2.2.1, hv.2.2.2, hk⟩
      rw [if_neg this]

theorem search_found (l p : List Char) (h : search l p ≠ l.length) :
    p.isPrefixOf (l.drop (search l p)) = true := by
  induction l with
  | nil => simp [search] at h
  | cons c cs ih =>
    unfold search at h ⊢
    by_cases hp : p.isPrefixOf (c :: cs) = true
    · simp only [hp, if_true, List.drop_zero]
    · simp only [hp, if_false, List.drop_succ_cons] at h ⊢
      exact ih (by simpa using h)

/-- A prefix of the rest of a list gives its cells. -/
theorem prefix_drop_get (l p : List Char) (f : Nat) (hf : f ≤ l.length)
    (h : p.isPrefixOf (l.drop f) = true) :
    f + p.length ≤ l.length ∧ ∀ j : Nat, j < p.length → l[f + j]? = p[j]? := by
  rw [List.isPrefixOf_iff_prefix] at h
  obtain ⟨t, ht⟩ := h
  have hlen : (l.drop f).length = p.length + t.length := by rw [← ht, List.length_append]
  rw [List.length_drop] at hlen
  constructor
  · omega
  · intro j hj
    rw [← List.getElem?_drop, ← ht, List.getElem?_append_left hj]

theorem prefix_of_get (p l : List Char) (h : ∀ j : Nat, j < p.length → l[j]? = p[j]?) :
    p.isPrefixOf l = true := by
  induction p generalizing l with
  | nil => simp [List.isPrefixOf]
  | cons a ps ih =>
    cases l with
    | nil =>
      have := h 0 (by simp)
      simp at this
    | cons b ls =>
      have h0 := h 0 (by simp)
      simp only [List.getElem?_cons_zero, Option.some.injEq] at h0
      subst h0
      simp only [List.isPrefixOf, beq_self_eq_true, Bool.true_and]
      apply ih
      intro j hj
      have := h (j + 1) (by simp; omega)
      simpa using this

theorem fill_zero_zero (l : List Char) : fill l 0 0 = l := by
  cases l <;> rfl

theorem fill_get (l : List Char) (f n i : Nat) :
    (fill l f n)[i]? = if f ≤ i ∧ i < f + n then l[i]?.map (fun _ => '3') else l[i]? := by
  induction l generalizing f n i with
  | nil => simp [fill]
  | cons c cs ih =>
    cases f with
    | zero =>
      cases n with
      | zero => simp [fill]
      | succ n =>
        cases i with
        | zero => simp [fill]
        | succ i =>
          simp only [fill, List.getElem?_cons_succ, ih]
          have : (0 ≤ i ∧ i < 0 + n) ↔ (0 ≤ i + 1 ∧ i + 1 < 0 + (n + 1)) := by omega
          simp only [this]
    | succ f =>
      cases i with
      | zero => simp [fill]
      | succ i =>
        simp only [fill, List.getElem?_cons_succ, ih]
        have : (f ≤ i ∧ i < f + n) ↔ (f + 1 ≤ i + 1 ∧ i + 1 < f + 1 + n) := by omega
        simp only [this]

theorem fill_count_zero (p l : List Char) (h : p.isPrefixOf l = true) (h3 : '3' ∉ p) :
    (fill l 0 p.length).count '3' = l.count '3' + p.length := by
  induction p generalizing l with
  | nil => simp [fill_zero_zero]
  | cons a ps ih =>
    cases l with
    | nil => simp [List.isPrefixOf] at h
    | cons b ls =>
      simp only [List.isPrefixOf, Bool.and_eq_true, beq_iff_eq] at h
      obtain ⟨rfl, hps⟩ := h
      have ha : a ≠ '3' := fun e => h3 (e ▸ List.mem_cons_self _ _)
      have h3' : '3' ∉ ps := fun e => h3 (List.mem_cons_of_mem _ e)
      simp only [List.length_cons, fill, List.count_cons_self, ih ls hps h3']
      have hc : List.count '3' (a :: ls) = List.count '3' ls := by
        simp [List.count_cons, ha]
      rw [hc]
      omega

theorem fill_count (l p : List Char) (f : Nat) (h : p.isPrefixOf (l.drop f) = true)
    (h3 : '3' ∉ p) : (fill l f p.length).count '3' = l.count '3' + p.length := by
  induction l generalizing f with
  | nil =>
    simp only [List.drop_nil] at h
    cases p with
    | nil => simp [fill]
    | cons a ps => simp [List.isPrefixOf] at h
  | cons c cs ih =>
    cases f with
    | zero => exact fill_count_zero p (c :: cs) (by simpa using h) h3
    | succ f =>
      simp only [List.drop_succ_cons] at h
      simp only [fill, List.count_cons, ih f h]
      omega

theorem fill_count_other_zero (p l : List Char) (h : p.isPrefixOf l = true) (c : Char)
    (hc : c ≠ '3') : (fill l 0 p.length).count c + p.count c = l.count c := by
  induction p generalizing l with
  | nil => simp [fill_zero_zero]
  | cons a ps ih =>
    cases l with
    | nil => simp [List.isPrefixOf] at h
    | cons b ls =>
      simp only [List.isPrefixOf, Bool.and_eq_true, beq_iff_eq] at h
      obtain ⟨rfl, hps⟩ := h
      have h3 : ('3' == c) = false := by
        rw [beq_eq_false_iff_ne]; exact fun e => hc e.symm
      simp only [List.length_cons, fill, List.count_cons, h3, Bool.false_eq_true, if_false,
        add_zero]
      have := ih ls hps
      omega

theorem fill_count_other (l p : List Char) (f : Nat) (h : p.isPrefixOf (l.drop f) = true)
    (c : Char) (hc : c ≠ '3') : (fill l f p.length).count c + p.count c = l.count c := by
  induction l generalizing f with
  | nil =>
    simp only [List.drop_nil] at h
    cases p with
    | nil => simp [fill]
    | cons a ps => simp [List.isPrefixOf] at h
  | cons b cs ih =>
    cases f with
    | zero => exact fill_count_other_zero p (b :: cs) (by simpa using h) c hc
    | succ f =>
      simp only [List.drop_succ_cons] at h
      simp only [fill, List.count_cons]
      have := ih f h
      omega

theorem covers_iff (m : counted_match) (i : Nat) :
    m.covers i = true ↔ m.start ≤ i ∧ i < m.start + m.entry.s.length := by
  simp [counted_match.covers]

theorem scan_entry_snd (entry : pattern_entry) (fuel : Nat) (buffer : List Char) (it : Nat)
    (score score' : Int) :
    (scan_entry entry fuel buffer it score).2 = (scan_entry entry fuel buffer it score').2 := by
  induction fuel generalizing buffer it score score' with
  | zero => rfl
  | succ fuel ih =>
    unfold scan_entry
    simp only
    split_ifs
    · exact ih _ _ _ _
    · rfl

/-- One iteration of the `while` loop of `evaluate_line` keeps the invariant. -/
theorem scan_invariant_step (original buffer : List Char) (ms : List counted_match)
    (entry : pattern_entry) (hne : entry.s ≠ []) (h3 : '3' ∉ entry.s) (it : Nat)
    (hit : it ≤ buffer.length) (hinv : scan_invariant original buffer ms)
    (hfound : it + search (buffer.drop it) entry.s ≠ buffer.length) :
    scan_invariant original
      (fill buffer (it + search (buffer.drop it) entry.s) entry.s.length)
      (ms ++ [⟨it + search (buffer.drop it) entry.s, entry⟩]) := by
  obtain ⟨hlen, horig, hthree, hocc, hpair, hsum, hcount⟩ := hinv
  have hsle := search_le (buffer.drop it) entry.s
  rw [List.length_drop] at hsle
  have hs : search (buffer.drop it) entry.s ≠ (buffer.drop it).length := by
    rw [List.length_drop]; omega
  have hpre := search_found _ _ hs
  rw [List.drop_drop] at hpre
  generalize hf : it + search (buffer.drop it) entry.s = f at hfound hpre ⊢
  have hfle : f ≤ buffer.length := by omega
  obtain ⟨hspan, hget⟩ := prefix_drop_get buffer entry.s f hfle hpre
  have hcell : ∀ i : Nat, f ≤ i → i < f + entry.s.length →
      ∃ c : Char, buffer[i]? = some c ∧ c ≠ '3' := by
    intro i h1 h2
    have hj : i - f < entry.s.length := by omega
    have := hget (i - f) hj
    rw [show f + (i - f) = i by omega, List.getElem?_eq_getElem hj] at this
    refine ⟨entry.s[i - f], this, ?_⟩
    intro e
    exact h3 (e ▸ List.getElem_mem hj)
  refine ⟨?_, ?_, ?_, ?_, ?_, ?_, ?_⟩
  · rw [fill_length, hlen]
  · intro i c hc hc3
    rw [fill_get] at hc
    split_ifs at hc with hin
    · obtain ⟨c', hc', -⟩ := hcell i hin.1 hin.2
      rw [hc'] at hc
      simp only [Option.map_some', Option.some.injEq] at hc
      exact absurd hc.symm hc3
    · exact horig i c hc hc3
  · intro m hm i hcov
    rw [fill_get]
    rcases List.mem_append.1 hm with hm | hm
    · have := hthree m hm i hcov
      split_ifs
      · rw [this]; rfl
      · exact this
    · rw [List.mem_singleton] at hm
      subst hm
      rw [covers_iff] at hcov
      dsimp only at hcov
      obtain ⟨c', hc', -⟩ := hcell i hcov.1 hcov.2
      rw [if_pos hcov, hc']
      rfl
  · intro m hm
    rcases List.mem_append.1 hm with hm | hm
    · exact hocc m hm
    · rw [List.mem_singleton] at hm
      subst hm
      dsimp only
      refine ⟨hne, by omega, ?_⟩
      apply prefix_of_get
      intro j hj
      rw [List.getElem?_drop]
      obtain ⟨c', hc', hc3⟩ := hcell (f + j) (by omega) (by omega)
      rw [horig (f + j) c' hc' hc3, ← hc', hget j hj]
  · rw [List.pairwise_append]
    refine ⟨hpair, List.pairwise_singleton _ _, ?_⟩
    intro a ha b hb
    rw [List.mem_singleton] at hb
    subst hb
    unfold disjoint_spans
    dsimp only
    by_contra hcon
    have hane := (hocc a ha).1
    have hapos : 0 < a.entry.s.length := List.length_pos.2 hane
    have hepos : 0 < entry.s.length := List.length_pos.2 hne
    have h1 : a.start ≤ max a.start f ∧ max a.start f < a.start + a.entry.s.length := by
      omega
    have h2 : f ≤ max a.start f ∧ max a.start f < f + entry.s.length := by omega
    have ht := hthree a ha (max a.start f) ((covers_iff _ _).2 h1)
    obtain ⟨c', hc', hc3⟩ := hcell (max a.start f) h2.1 h2.2
    rw [ht] at hc'
    exact hc3 (Option.some.inj hc').symm
  · rw [List.map_append, List.sum_append, fill_count buffer entry.s f hpre h3]
    simp only [List.map_cons, List.map_nil, List.sum_cons, List.sum_nil]
    omega
  · intro c hc
    have h1 := hcount c hc
    have h2 := fill_count_other buffer entry.s f hpre c hc
    rw [List.map_append, List.sum_append]
    simp only [List.map_cons, List.map_nil, List.sum_cons, List.sum_nil]
    omega

/-- The `while` loop of `evaluate_line` for one entry keeps the invariant, and
adds the scores of the matches it counts. -/
theorem scan_entry_invariant (original : List Char) (entry : pattern_entry)
    (hne : entry.s ≠ []) (h3 : '3' ∉ entry.s) (fuel : Nat) (buffer : List Char)
    (ms : List counted_match) (it : Nat) (score : Int) (hit : it ≤ buffer.length)
    (hinv : scan_invariant original buffer ms) :
    scan_invariant original (scan_entry entry fuel buffer it score).2
        (ms ++ scan_entry_matches entry fuel buffer it) ∧
      (scan_entry entry fuel buffer it score).1
        = score + ((scan_entry_matches entry fuel buffer it).map (fun m => m.entry.score)).sum ∧
      ∀ m ∈ scan_entry_matches entry fuel buffer it, m.entry = entry := by
  induction fuel generalizing buffer ms it score with
  | zero =>
    simp only [scan_entry, scan_entry_matches, List.append_nil, List.map_nil, List.sum_nil,
      add_zero, List.not_mem_nil, false_implies, implies_true, and_true]
    exact hinv
  | succ fuel ih =>
    unfold scan_entry scan_entry_matches
    simp only
    by_cases hfound : it + search (buffer.drop it) entry.s = buffer.length
    · simp only [hfound, bne_self_eq_false, Bool.false_eq_true, if_false, List.append_nil,
        List.map_nil, List.sum_nil, add_zero, List.not_mem_nil, false_implies, implies_true,
        and_true]
      exact hinv
    · have hb : (it + search (buffer.drop it) entry.s != buffer.length) = true := by
        simpa using hfound
      simp only [hb, if_true]
      have hstep := scan_invariant_step original buffer ms entry hne h3 it hit hinv hfound
      have hsle := search_le (buffer.drop it) entry.s
      rw [List.length_drop] at hsle
      obtain ⟨h1, h2, h3'⟩ := ih (fill buffer (it + search (buffer.drop it) entry.s) entry.s.length)
        (ms ++ [⟨it + search (buffer.drop it) entry.s, entry⟩])
        (it + search (buffer.drop it) entry.s) (score + entry.score)
        (by rw [fill_length]; omega) hstep
      refine ⟨?_, ?_, ?_⟩
      · rw [List.append_assoc] at h1
        exact h1
      · rw [h2]
        simp only [List.map_cons, List.sum_cons]
        ring
      · intro m hm
        rcases List.mem_cons.1 hm with hm | hm
        · subst hm; rfl
        · exact h3' m hm

/-- The loop over the table keeps the invariant and adds up the scores of the
matches; the loop that records the matches leaves the same buffer. -/
theorem table_scan_invariant (original : List Char) (table : List pattern_entry)
    (htable : ∀ entry ∈ table, entry.s ≠ [] ∧ '3' ∉ entry.s) (fuel : Nat)
    (buffer : List Char) (ms : List counted_match) (score : Int)
    (hinv : scan_invariant original buffer ms)
    (hscore : score = (ms.map (fun m => m.entry.score)).sum)
    (hmem : ∀ m ∈ ms, m.entry ∈ table ∨ m ∈ ms) :
    (table.foldl (fun acc entry =>
          (acc.1 ++ scan_entry_matches entry fuel acc.2 0,
            (scan_entry entry fuel acc.2 0 0).2)) (ms, buffer)).2
        = (table.foldl (fun acc entry => scan_entry entry fuel acc.2 0 acc.1) (score, buffer)).2 ∧
      scan_invariant original
        (table.foldl (fun acc entry => scan_entry entry fuel acc.2 0 acc.1) (score, buffer)).2
        (table.foldl (fun acc entry =>
          (acc.1 ++ scan_entry_matches entry fuel acc.2 0,
            (scan_entry entry fuel acc.2 0 0).2)) (ms, buffer)).1 ∧
      (table.foldl (fun acc entry => scan_entry entry fuel acc.2 0 acc.1) (score, buffer)).1
        = ((table.foldl (fun acc entry =>
          (acc.1 ++ scan_entry_matches entry fuel acc.2 0,
            (scan_entry entry fuel acc.2 0 0).2)) (ms, buffer)).1.map
              (fun m => m.entry.score)).sum ∧
      ∀ m ∈ (table.foldl (fun acc entry =>
          (acc.1 ++ scan_entry_matches entry fuel acc.2 0,
            (scan_entry entry fuel acc.2 0 0).2)) (ms, buffer)).1, m.entry ∈ table ∨ m ∈ ms := by
  induction table generalizing buffer ms score with
  | nil =>
    simp only [List.foldl_nil, true_and]
    exact ⟨hinv, hscore, fun m hm => Or.inr hm⟩
  | cons entry rest ih =>
    simp only [List.foldl_cons]
    obtain ⟨hne, h3⟩ := htable entry (List.mem_cons_self _ _)
    obtain ⟨h1, h2, h3'⟩ := scan_entry_invariant original entry hne h3 fuel buffer ms 0 score
      (Nat.zero_le _) hinv
    have hsnd := scan_entry_snd entry fuel buffer 0 0 score
    rw [hsnd]
    have hall := ih (fun e he => htable e (List.mem_cons_of_mem _ he))
      (scan_entry entry fuel buffer 0 score).2 (ms ++ scan_entry_matches entry fuel buffer 0)
      (scan_entry entry fuel buffer 0 score).1 h1
      (by rw [h2, hscore, List.map_append, List.sum_append])
      (fun m hm => Or.inr hm)
    obtain ⟨i1, i2, i3, i4⟩ := hall
    refine ⟨i1, i2, i3, ?_⟩
    intro m hm
    rcases i4 m hm with h | h
    · exact Or.inl (List.mem_cons_of_mem _ h)
    · rcases List.mem_append.1 h with h | h
      · exact Or.inr h
      · exact Or.inl (by rw [h3' m h]; exact List.mem_cons_self _ _)

theorem scan_invariant_start (line : List Char) : scan_invariant line line [] := by
  refine ⟨rfl, fun i c h _ => h, ?_, ?_, List.Pairwise.nil, ?_, ?_⟩
  · intro m hm; exact absurd hm (List.not_mem_nil _)
  · intro m hm; exact absurd hm (List.not_mem_nil _)
  · simp
  · intro c _; simp

/-- What the scan of a line against a table of nonempty patterns without the
marker leaves: the invariant between the line, the final buffer and the counted
matches; the score as the sum over the matches; every match is of the table. -/
theorem evaluate_line_invariant (line : List Char) (table : List pattern_entry)
    (htable : ∀ entry ∈ table, entry.s ≠ [] ∧ '3' ∉ entry.s) :
    scan_invariant line (evaluate_line line table).2 (evaluate_line_matches line table) ∧
      (evaluate_line line table).1
        = ((evaluate_line_matches line table).map (fun m => m.entry.score)).sum ∧
      ∀ m ∈ evaluate_line_matches line table, m.entry ∈ table := by
  obtain ⟨-, h2, h3, h4⟩ := table_scan_invariant line table htable line.length line [] 0
    (scan_invariant_start line) rfl (fun m hm => Or.inr hm)
  refine ⟨h2, h3, ?_⟩
  intro m hm
  rcases h4 m hm with h | h
  · exact h
  · exact absurd h (List.not_mem_nil _)

/-- Of pairwise disjoint spans at most one covers a cell. -/
theorem covering_le_one (ms : List counted_match) (hpair : ms.Pairwise disjoint_spans)
    (i : Nat) : (ms.filter (fun m => m.covers i)).length ≤ 1 := by
  induction ms with
  | nil => simp
  | cons m rest ih =>
    rw [List.pairwise_cons] at hpair
    by_cases hm : m.covers i = true
    · have hnone : rest.filter (fun m => m.covers i) = [] := by
        rw [List.filter_eq_nil_iff]
        intro m' hm' hcov
        have hd := hpair.1 m' hm'
        rw [covers_iff] at hm hcov
        unfold disjoint_spans at hd
        omega
      simp only [List.filter_cons, hm, if_true, hnone, List.length_singleton, le_refl]
    · simp only [List.filter_cons, hm, if_false]
      exact ih hpair.2

/-- C17: in the scan of a line against a table whose patterns are nonempty and
free of the marker (as both tables of the engine are), the score returned is
the sum of the scores of the counted matches; the spans of two counted matches
have no cell in common; every cell of the line lies in the span of at most one
counted match; and every counted match is an occurrence, within the line as it
was given, of a pattern of the table. -/
theorem counted_matches_disjoint (line : List Char) (table : List pattern_entry)
    (htable : ∀ entry ∈ table, entry.s ≠ [] ∧ '3' ∉ entry.s) :
    (evaluate_line line table).1
        = ((evaluate_line_matches line table).map (fun m => m.entry.score)).sum ∧
      (evaluate_line_matches line table).Pairwise disjoint_spans ∧
      (∀ i : Nat, ((evaluate_line_matches line table).filter (fun m => m.covers i)).length ≤ 1) ∧
      (∀ m ∈ evaluate_line_matches line table,
        m.entry ∈ table ∧ m.start + m.entry.s.length ≤ line.length ∧
          m.entry.s.isPrefixOf (line.drop m.start) = true) := by
  obtain ⟨⟨-, -, -, hocc, hpair, -, -⟩, hsum, hmem⟩ := evaluate_line_invariant line table htable
  exact ⟨hsum, hpair, covering_le_one _ hpair,
    fun m hm => ⟨hmem m hm, (hocc m hm).2.1, (hocc m hm).2.2⟩⟩

/-- The claim C17 for the black table on the line `0111001111`. -/
theorem counted_matches_disjoint_witness :
    (∀ entry ∈ score_table_black, entry.s ≠ [] ∧ '3' ∉ entry.s) ∧
      ((evaluate_line "0111001111".toList score_table_black).1
          = ((evaluate_line_matches "0111001111".toList score_table_black).map
              (fun m => m.entry.score)).sum ∧
        (evaluate_line_matches "0111001111".toList score_table_black).Pairwise disjoint_spans ∧
        (∀ i : Nat, ((evaluate_line_matches "0111001111".toList score_table_black).filter
          (fun m => m.covers i)).length ≤ 1) ∧
        (∀ m ∈ evaluate_line_matches "0111001111".toList score_table_black,
          m.entry ∈ score_table_black ∧
            m.start + m.entry.s.length ≤ "0111001111".toList.length ∧
            m.entry.s.isPrefixOf ("0111001111".toList.drop m.start) = true)) :=
  ⟨score_tables_patterns.1,
    counted_matches_disjoint "0111001111".toList score_table_black score_tables_patterns.1⟩

theorem matches_sum_le (ms : List counted_match) (K : Int) (w : counted_match → Nat)
    (h : ∀ m ∈ ms, m.entry.score ≤ K * (w m : Int)) :
    (ms.map (fun m => m.entry.score)).sum ≤ K * ((ms.map w).sum : Nat) := by
  induction ms with
  | nil => simp
  | cons m rest ih =>
    simp only [List.map_cons, List.sum_cons, Nat.cast_add]
    have h1 := h m (List.mem_cons_self _ _)
    have h2 := ih (fun m' hm' => h m' (List.mem_cons_of_mem _ hm'))
    rw [mul_add]
    omega

theorem matches_sum_nonneg (ms : List counted_match) (h : ∀ m ∈ ms, 0 ≤ m.entry.score) :
    0 ≤ (ms.map (fun m => m.entry.score)).sum := by
  induction ms with
  | nil => simp
  | cons m rest ih =>
    simp only [List.map_cons, List.sum_cons]
    have h1 := h m (List.mem_cons_self _ _)
    have h2 := ih (fun m' hm' => h m' (List.mem_cons_of_mem _ hm'))
    omega

theorem score_tables_nonneg :
    (∀ entry ∈ score_table_black, 0 ≤ entry.score) ∧
      (∀ entry ∈ score_table_white, 0 ≤ entry.score) := by
  decide

/-- A scan never returns a negative score. -/
theorem evaluate_line_nonneg (line : List Char) :
    0 ≤ (evaluate_line line score_table_black).1 ∧
      0 ≤ (evaluate_line line score_table_white).1 := by
  constructor
  · obtain ⟨-, hsum, hmem⟩ := evaluate_line_invariant line score_table_black
      score_tables_patterns.1
    rw [hsum]
    exact matches_sum_nonneg _ (fun m hm => score_tables_nonneg.1 _ (hmem m hm))
  · obtain ⟨-, hsum, hmem⟩ := evaluate_line_invariant line score_table_white
      score_tables_patterns.2
    rw [hsum]
    exact matches_sum_nonneg _ (fun m hm => score_tables_nonneg.2 _ (hmem m hm))

/-- A scan of a line of at most 15 cells that returns 40000 or more counted a
match of an entry worth more than 1440 per cell. -/
theorem decisive_scan (line : List Char) (table : List pattern_entry)
    (htable : ∀ entry ∈ table, entry.s ≠ [] ∧ '3' ∉ entry.s) (hlen : line.length ≤ 15)
    (h : (evaluate_line line table).1 ≥ 40000) :
    ∃ entry ∈ table, ¬ entry.score ≤ 1440 * (entry.s.length : Int) ∧ entry.s <:+: line := by
  obtain ⟨⟨hl, -, -, hocc, -, hsum3, -⟩, hsum, hmem⟩ := evaluate_line_invariant line table htable
  by_contra hcon
  have hall : ∀ m ∈ evaluate_line_matches line table,
      m.entry.score ≤ 1440 * ((m.entry.s.length : Nat) : Int) := by
    intro m hm
    by_contra hbig
    apply hcon
    refine ⟨m.entry, hmem m hm, hbig, ?_⟩
    have hpre := (hocc m hm).2.2
    rw [List.isPrefixOf_iff_prefix] at hpre
    exact hpre.isInfix.trans (List.drop_suffix _ _).isInfix
  have hle := matches_sum_le _ 1440 (fun m => m.entry.s.length) hall
  have hc := List.count_le_length '3' (evaluate_line line table).2
  rw [hsum] at h
  omega

theorem decisive_entries :
    (∀ entry ∈ score_table_black, ¬ entry.score ≤ 1440 * (entry.s.length : Int) →
        entry.s = "11111".toList ∨ entry.s = "011110".toList) ∧
      (∀ entry ∈ score_table_white, ¬ entry.score ≤ 1440 * (entry.s.length : Int) →
        entry.s = "22222".toList ∨ entry.s = "022220".toList) := by
  decide

theorem scanned_lines_length : ∀ l ∈ scanned_lines, l.length ≤ 15 := by
  decide!

/-- C19, per line: when the contribution of one scanned line to the static
score (its black scan minus its white scan) is 40000 or more, that line
contains a Black five `11111` or a Black open four `011110`; when it is -40000
or less, the line contains a White five `22222` or a White open four `022220`.
For the sum over the lines, which is what `evaluate` returns, this does not
hold: weaker shapes add up, as on `fours_state`. -/
theorem decisive_line_has_winning_shape (board : chess_info) (l : List point)
    (hl : l ∈ scanned_lines) :
    (line_score (l.map (symbol board)) ≥ 40000 →
        "11111".toList <:+: l.map (symbol board) ∨
          "011110".toList <:+: l.map (symbol board)) ∧
      (line_score (l.map (symbol board)) ≤ -40000 →
        "22222".toList <:+: l.map (symbol board) ∨
          "022220".toList <:+: l.map (symbol board)) := by
  have hlen : (l.map (symbol board)).length ≤ 15 := by
    rw [List.length_map]; exact scanned_lines_length l hl
  obtain ⟨hb, hw⟩ := evaluate_line_nonneg (l.map (symbol board))
  unfold line_score
  constructor
  · intro h
    obtain ⟨entry, hmem, hbig, hin⟩ := decisive_scan _ score_table_black
      score_tables_patterns.1 hlen (by omega)
    rcases decisive_entries.1 entry hmem hbig with e | e
    · exact Or.inl (e ▸ hin)
    · exact Or.inr (e ▸ hin)
  · intro h
    obtain ⟨entry, hmem, hbig, hin⟩ := decisive_scan _ score_table_white
      score_tables_patterns.2 hlen (by omega)
    rcases decisive_entries.2 entry hmem hbig with e | e
    · exact Or.inl (e ▸ hin)
    · exact Or.inr (e ▸ hin)

theorem white_entries_per_stone : ∀ entry ∈ score_table_white,
    entry.s.count '2' ≤ 2 → entry.score ≤ 60 * (entry.s.count '2' : Int) := by
  decide

/-- A line with at most two White stones scores at most 60 per White stone in
the white scan. -/
theorem white_scan_le (line : List Char) (h2 : line.count '2' ≤ 2) :
    (evaluate_line line score_table_white).1 ≤ 60 * (line.count '2' : Int) := by
  obtain ⟨⟨-, -, -, -, -, -, hcount⟩, hsum, hmem⟩ := evaluate_line_invariant line
    score_table_white score_tables_patterns.2
  have hc := hcount '2' (by decide)
  have hall : ∀ m ∈ evaluate_line_matches line score_table_white,
      m.entry.score ≤ 60 * ((m.entry.s.count '2' : Nat) : Int) := by
    intro m hm
    apply white_entries_per_stone m.entry (hmem m hm)
    have := List.single_le_sum (fun _ _ => Nat.zero_le _) _
      (List.mem_map_of_mem (fun m => m.entry.s.count '2') hm)
    dsimp only at this
    omega
  have hle := matches_sum_le _ 60 (fun m => m.entry.s.count '2') hall
  rw [hsum]
  omega

theorem sum_map_sub {α : Type} (l : List α) (f g : α → Int) :
    (l.map (fun a => f a - g a)).sum = (l.map f).sum - (l.map g).sum := by
  induction l with
  | nil => simp
  | cons a rest ih => simp only [List.map_cons, List.sum_cons, ih]; omega

set_option maxRecDepth 1000000 in
theorem fours_state_white_counts :
    (∀ l ∈ scanned_lines, (l.map (symbol fours_state)).count '2' ≤ 2) ∧
      (scanned_lines.map
        (fun l => 60 * (((l.map (symbol fours_state)).count '2' : Nat) : Int))).sum ≤ 6720 := by
  decide!

set_option maxRecDepth 1000000 in
theorem fours_state_rows :
    (((iota 1 16).map (fun i => (iota 1 16).map (fun j => (⟨i, j⟩ : point)))).map
      (fun l => (evaluate_line (l.map (symbol fours_state)) score_table_black).1)).sum
        = 50400 := by
  decide!

set_option maxRecDepth 1000000 in
theorem fours_state_shapes : ∀ l ∈ scanned_lines,
    ¬ "11111".toList <:+: l.map (symbol fours_state) ∧
      ¬ "011110".toList <:+: l.map (symbol fours_state) := by
  decide!

/-- On `fours_state` the seven Black fours outweigh what White's scans take away. -/
theorem fours_state_evaluate : evaluate fours_state ≥ 40000 := by
  rw [evaluate_eq_sum]
  unfold line_score
  rw [sum_map_sub scanned_lines
    (fun l => (evaluate_line (l.map (symbol fours_state)) score_table_black).1)
    (fun l => (evaluate_line (l.map (symbol fours_state)) score_table_white).1)]
  have hW : (scanned_lines.map
      (fun l => (evaluate_line (l.map (symbol fours_state)) score_table_white).1)).sum
        ≤ 6720 :=
    le_trans (List.sum_le_sum (fun l hl => white_scan_le _ (fours_state_white_counts.1 l hl)))
      fours_state_white_counts.2
  have hnn : ∀ L : List (List point), 0 ≤ (L.map
      (fun l => (evaluate_line (l.map (symbol fours_state)) score_table_black).1)).sum :=
    fun L => List.sum_nonneg (by
      intro x hx
      obtain ⟨l, -, rfl⟩ := List.mem_map.1 hx
      exact (evaluate_line_nonneg _).1)
  have hB : 50400 ≤ (scanned_lines.map
      (fun l => (evaluate_line (l.map (symbol fours_state)) score_table_black).1)).sum := by
    unfold scanned_lines
    simp only [List.map_append, List.sum_append]
    rw [fours_state_rows]
    have h1 := hnn ((iota 1 16).map (fun j => (iota 1 16).map (fun i => (⟨i, j⟩ : point))))
    have h2 := hnn ((iota 0 15).map (fun k => diag_cells 15 (1 + k) 1))
    have h3 := hnn ((iota 1 15).map (fun k => diag_cells 15 1 (1 + k)))
    have h4 := hnn ((iota 0 15).map (fun k => anti_cells 15 1 (1 + k)))
    have h5 := hnn ((iota 1 15).map (fun k => anti_cells 15 (1 + k) 15))
    omega
  omega

/-- C19 fails for the board total: on `fours_state`, a position with 28 stones
of each color, the static score is at least 40000 (seven Black fours `11110`
worth 7200 each, against at most 6720 for White), and no scanned line contains
a Black five `11111` or a Black open four `011110`. -/
theorem threshold_without_winning_shape :
    evaluate fours_state ≥ 40000 ∧
      ∀ l ∈ scanned_lines,
        ¬ "11111".toList <:+: l.map (symbol fours_state) ∧
          ¬ "011110".toList <:+: l.map (symbol fours_state) :=
  ⟨fours_state_evaluate, fours_state_shapes⟩

set_option maxRecDepth 1000000 in
theorem win_row_decisive :
    (iota 1 16).map (fun j => (⟨8, j⟩ : point)) ∈ scanned_lines ∧
      line_score (((iota 1 16).map (fun j => (⟨8, j⟩ : point))).map
        (symbol (win_state.place ⟨8, 9⟩ 1))) ≥ 40000 := by
  decide!

/-- The claim C19 on row 8 of `win_state` after Black completed five at (8,9):
the line scores at least 40000 and contains `11111`. -/
theorem decisive_line_has_winning_shape_witness :
    (iota 1 16).map (fun j => (⟨8, j⟩ : point)) ∈ scanned_lines ∧
      line_score (((iota 1 16).map (fun j => (⟨8, j⟩ : point))).map
        (symbol (win_state.place ⟨8, 9⟩ 1))) ≥ 40000 ∧
      ((line_score (((iota 1 16).map (fun j => (⟨8, j⟩ : point))).map
            (symbol (win_state.place ⟨8, 9⟩ 1))) ≥ 40000 →
          "11111".toList <:+: ((iota 1 16).map (fun j => (⟨8, j⟩ : point))).map
              (symbol (win_state.place ⟨8, 9⟩ 1)) ∨
            "011110".toList <:+: ((iota 1 16).map (fun j => (⟨8, j⟩ : point))).map
              (symbol (win_state.place ⟨8, 9⟩ 1))) ∧
        (line_score (((iota 1 16).map (fun j => (⟨8, j⟩ : point))).map
            (symbol (win_state.place ⟨8, 9⟩ 1))) ≤ -40000 →
          "22222".toList <:+: ((iota 1 16).map (fun j => (⟨8, j⟩ : point))).map
              (symbol (win_state.place ⟨8, 9⟩ 1)) ∨
            "022220".toList <:+: ((iota 1 16).map (fun j => (⟨8, j⟩ : point))).map
              (symbol (win_state.place ⟨8, 9⟩ 1)))) :=
  ⟨win_row_decisive.1, win_row_decisive.2,
    decisive_line_has_winning_shape (win_state.place ⟨8, 9⟩ 1)
      ((iota 1 16).map (fun j => (⟨8, j⟩ : point))) win_row_decisive.1⟩

theorem tables_score_sequence :
    score_table_black.map (fun entry => entry.score)
        = [50000, 50000, 1440, 1440, 1440, 1440, 7200, 7200, 3600, 3600, 3600,
            720, 720, 120, 120, 120, 20, 20] ∧
      score_table_white.map (fun entry => entry.score)
        = score_table_black.map (fun entry => entry.score) := by
  decide

set_option maxRecDepth 1000000 in
theorem open_three_consumes_four :
    "01111".toList.isPrefixOf ("0111001111".toList.drop 5) = true ∧
      (evaluate_line "0111001111".toList score_table_black).1 = 1440 := by
  decide!

/-- C18 fails as stated: in neither table are the scores in non-increasing
order, the four open-three entries (1440) stand before the fours (7200) and the
broken fours (3600); on the line `0111001111` the open three `011100` is
counted first and consumes the cell the four `01111` at index 5 needs, so the
scan returns 1440 and the four is not counted. -/
theorem tables_not_in_score_order :
    ¬ non_increasing_scores score_table_black ∧
      ¬ non_increasing_scores score_table_white ∧
      "01111".toList.isPrefixOf ("0111001111".toList.drop 5) = true ∧
      (evaluate_line "0111001111".toList score_table_black).1 = 1440 := by
  unfold non_increasing_scores
  rw [tables_score_sequence.2, tables_score_sequence.1]
  exact ⟨by decide, by decide, open_three_consumes_four⟩

/-- C18, amended: both tables carry the same score sequence 50000, 50000,
1440 (four times), 7200, 7200, 3600 (three times), 720, 720, 120 (three
times), 20, 20; it is non-increasing once the four entries of score 1440
(list positions 2 to 5) are set aside; `evaluate_line` works through a table in
list order, every entry on the buffer the entries before it left, so the
entries of a first part of the table are all tried, and consume their cells,
before any entry of the rest. -/
theorem tables_score_order :
    (score_table_black.map (fun entry => entry.score)
        = [50000, 50000, 1440, 1440, 1440, 1440, 7200, 7200, 3600, 3600, 3600,
            720, 720, 120, 120, 120, 20, 20] ∧
      score_table_white.map (fun entry => entry.score)
        = score_table_black.map (fun entry => entry.score)) ∧
      non_increasing_scores (score_table_black.take 2 ++ score_table_black.drop 6) ∧
      non_increasing_scores (score_table_white.take 2 ++ score_table_white.drop 6) ∧
      (∀ (line : List Char) (first rest : List pattern_entry),
        evaluate_line line (first ++ rest)
          = rest.foldl (fun acc entry => scan_entry entry line.length acc.2 0 acc.1)
              (evaluate_line line first)) := by
  refine ⟨tables_score_sequence, ?_, ?_, ?_⟩
  · unfold non_increasing_scores; decide
  · unfold non_increasing_scores; decide
  · intro line first rest
    unfold evaluate_line
    rw [List.foldl_append]

/-- A `minimax` frame is the table lookup followed by the search of the node. -/
theorem minimax_eq (zobrist_table : Int → Int → Int → Nat)
    (std_sort : (point → point → Bool) → List point → List point) (fuel : Nat) (e : engine)
    (board : chess_info) (depth alpha beta : Int) (maximizing : Bool) (hash : Nat) :
    minimax zobrist_table std_sort (fuel + 1) e board depth alpha beta maximizing hash =
      match table_answer e hash depth alpha beta with
      | some v => some (v, e)
      | none =>
        search_node zobrist_table std_sort (child_call zobrist_table std_sort fuel depth) e
          board depth (lookup_window e hash depth alpha beta).1
          (lookup_window e hash depth alpha beta).2 alpha beta maximizing hash
          (lookup_hint e hash) := by
  rw [minimax_succ]
  unfold table_answer lookup_window lookup_hint child_call
  cases hfind : e.trans_table.find hash with
  | none => rfl
  | some entry =>
    dsimp only
    by_cases hd : entry.depth ≥ depth
    · simp only [hd, if_true]
      by_cases h0 : entry.flag = 0
      · simp only [h0, if_true]
      · simp only [h0, if_false]
        split_ifs <;> rfl
    · simp only [hd, if_false]

/-- The search of a node, by cases. -/
theorem search_node_eq (zobrist_table : Int → Int → Int → Nat)
    (std_sort : (point → point → Bool) → List point → List point)
    (child : engine → chess_info → Int → Int → Bool → Nat → Option (Int × engine))
    (e : engine) (board : chess_info) (depth alpha beta alpha_orig beta_orig : Int)
    (maximizing : Bool) (hash : Nat) (hash_move : point) :
    (evaluate board ≥ 40000 →
      search_node zobrist_table std_sort child e board depth alpha beta alpha_orig beta_orig
        maximizing hash hash_move = some (evaluate board - (e.max_depth + 1 - depth), e)) ∧
    (evaluate board ≤ -40000 →
      search_node zobrist_table std_sort child e board depth alpha beta alpha_orig beta_orig
        maximizing hash hash_move = some (evaluate board + (e.max_depth + 1 - depth), e)) ∧
    (-40000 < evaluate board → evaluate board < 40000 → (depth = 0 ∨ get_moves board = []) →
      search_node zobrist_table std_sort child e board depth alpha beta alpha_orig beta_orig
        maximizing hash hash_move = some (evaluate board, e)) ∧
    (¬ static_return board depth →
      search_node zobrist_table std_sort child e board depth alpha beta alpha_orig beta_orig
        maximizing hash hash_move =
        (node_loop zobrist_table std_sort child e board depth alpha beta maximizing hash
          hash_move).map (fun st =>
            (st.best_eval, { st.e with trans_table := (st.e.trans_table.insert hash
              (stored_entry st.best_eval depth alpha_orig beta_orig
                st.best_move_this_node)) }))) := by
  refine ⟨?_, ?_, ?_, ?_⟩
  · intro h
    unfold search_node
    simp only [h, if_true]
  · intro h
    have h1 : ¬ evaluate board ≥ 40000 := by omega
    unfold search_node
    simp only [h, h1, if_true, if_false]
  · intro h1 h2 h3
    have h1' : ¬ evaluate board ≥ 40000 := by omega
    have h2' : ¬ evaluate board ≤ -40000 := by omega
    unfold search_node
    simp only [h1', h2', if_false]
    rcases h3 with h3 | h3
    · simp only [h3, if_true]
    · simp only [h3, List.isEmpty_nil, if_true, ite_self]
  · intro hns
    unfold static_return at hns
    push_neg at hns
    obtain ⟨h1, h2, h3, h4⟩ := hns
    have h1' : ¬ evaluate board ≥ 40000 := by omega
    have h2' : ¬ evaluate board ≤ -40000 := by omega
    have h4' : (get_moves board).isEmpty = false := by
      cases hg : get_moves board with
      | nil => exact absurd hg h4
      | cons a l => rfl
    unfold search_node node_loop stored_entry
    simp only [h1', h2', h3, h4', if_false, Bool.false_eq_true]
    cases maximizing
    · simp only [Bool.false_eq_true, if_false]
      cases min_loop zobrist_table child board depth hash
        (std_sort (order_before e.history_table hash_move) (get_moves board))
        ⟨e, alpha, beta, search_infinity, ⟨-1, -1⟩⟩ <;> rfl
    · simp only [if_true]
      cases max_loop zobrist_table child board depth hash
        (std_sort (order_before e.history_table hash_move) (get_moves board))
        ⟨e, alpha, beta, -search_infinity, ⟨-1, -1⟩⟩ <;> rfl

/-- The loop of the maximizing branch returns when every child returns. -/
theorem max_loop_some (zobrist_table : Int → Int → Int → Nat)
    (child : engine → chess_info → Int → Int → Bool → Nat → Option (Int × engine))
    (hchild : ∀ e ns a b m h, (child e ns a b m h).isSome = true)
    (board : chess_info) (depth : Int) (hash : Nat) (moves : List point) (st : frame) :
    (max_loop zobrist_table child board depth hash moves st).isSome = true := by
  induction moves generalizing st with
  | nil => rfl
  | cons move rest ih =>
    unfold max_loop
    dsimp only
    split_ifs
    · exact ih st
    · have hc := hchild st.e { board.place move 1 with
        turn := 1, round := (board.place move 1).round + 1, current_point := move }
        st.alpha st.beta false (hash ^^^ zobrist_table move.x move.y 0)
      cases hr : child st.e { board.place move 1 with
        turn := 1, round := (board.place move 1).round + 1, current_point := move }
        st.alpha st.beta false (hash ^^^ zobrist_table move.x move.y 0) with
      | none => rw [hr] at hc; exact absurd hc (by simp)
      | some r =>
        obtain ⟨eval, e1⟩ := r
        dsimp only
        split_ifs
        all_goals first
          | rfl
          | exact ih _

/-- The loop of the minimizing branch returns when every child returns. -/
theorem min_loop_some (zobrist_table : Int → Int → Int → Nat)
    (child : engine → chess_info → Int → Int → Bool → Nat → Option (Int × engine))
    (hchild : ∀ e ns a b m h, (child e ns a b m h).isSome = true)
    (board : chess_info) (depth : Int) (hash : Nat) (moves : List point) (st : frame) :
    (min_loop zobrist_table child board depth hash moves st).isSome = true := by
  induction moves generalizing st with
  | nil => rfl
  | cons move rest ih =>
    unfold min_loop
    dsimp only
    have hc := hchild st.e { board.place move 2 with
      turn := 0, round := (board.place move 2).round + 1, current_point := move }
      st.alpha st.beta true (hash ^^^ zobrist_table move.x move.y 1)
    cases hr : child st.e { board.place move 2 with
      turn := 0, round := (board.place move 2).round + 1, current_point := move }
      st.alpha st.beta true (hash ^^^ zobrist_table move.x move.y 1) with
    | none => rw [hr] at hc; exact absurd hc (by simp)
    | some r =>
      obtain ⟨eval, e1⟩ := r
      dsimp only
      split_ifs
      all_goals first
        | rfl
        | exact ih _

/-- A relation between engines that every child call and every increment of a
history counter respects holds between the engine before and after the loop
of the maximizing branch. -/
theorem max_loop_rel (R : engine → engine → Prop) (hrefl : ∀ e, R e e)
    (htrans : ∀ e1 e2 e3, R e1 e2 → R e2 e3 → R e1 e3)
    (zobrist_table : Int → Int → Int → Nat)
    (child : engine → chess_info → Int → Int → Bool → Nat → Option (Int × engine))
    (depth : Int)
    (hchild : ∀ e ns a b m h v e1, child e ns a b m h = some (v, e1) → R e e1)
    (hbump : ∀ (e : engine) (move : point),
      R e { e with history_table := bump_history e.history_table move (depth * depth) })
    (board : chess_info) (hash : Nat) (moves : List point) (st st' : frame)
    (h : max_loop zobrist_table child board depth hash moves st = some st') :
    R st.e st'.e := by
  induction moves generalizing st with
  | nil =>
    simp only [max_loop, Option.some.injEq] at h
    subst h
    exact hrefl _
  | cons move rest ih =>
    unfold max_loop at h
    dsimp only at h
    split_ifs at h with hskip
    · exact ih st h
    · cases hr : child st.e { board.place move 1 with
        turn := 1, round := (board.place move 1).round + 1, current_point := move }
        st.alpha st.beta false (hash ^^^ zobrist_table move.x move.y 0) with
      | none => rw [hr] at h; exact absurd h (by simp)
      | some r =>
        obtain ⟨eval, e1⟩ := r
        have hR := hchild _ _ _ _ _ _ _ _ hr
        rw [hr] at h
        dsimp only at h
        split_ifs at h
        all_goals first
          | (simp only [Option.some.injEq] at h
             subst h
             first
               | exact htrans _ _ _ hR (hbump e1 move)
               | exact hR)
          | exact htrans _ _ _ hR (ih _ h)

/-- The same for the loop of the minimizing branch. -/
theorem min_loop_rel (R : engine → engine → Prop) (hrefl : ∀ e, R e e)
    (htrans : ∀ e1 e2 e3, R e1 e2 → R e2 e3 → R e1 e3)
    (zobrist_table : Int → Int → Int → Nat)
    (child : engine → chess_info → Int → Int → Bool → Nat → Option (Int × engine))
    (depth : Int)
    (hchild : ∀ e ns a b m h v e1, child e ns a b m h = some (v, e1) → R e e1)
    (hbump : ∀ (e : engine) (move : point),
      R e { e with history_table := bump_history e.history_table move (depth * depth) })
    (board : chess_info) (hash : Nat) (moves : List point) (st st' : frame)
    (h : min_loop zobrist_table child board depth hash moves st = some st') :
    R st.e st'.e := by
  induction moves generalizing st with
  | nil =>
    simp only [min_loop, Option.some.injEq] at h
    subst h
    exact hrefl _
  | cons move rest ih =>
    unfold min_loop at h
    dsimp only at h
    cases hr : child st.e { board.place move 2 with
      turn := 0, round := (board.place move 2).round + 1, current_point := move }
      st.alpha st.beta true (hash ^^^ zobrist_table move.x move.y 1) with
    | none => rw [hr] at h; exact absurd h (by simp)
    | some r =>
      obtain ⟨eval, e1⟩ := r
      have hR := hchild _ _ _ _ _ _ _ _ hr
      rw [hr] at h
      dsimp only at h
      split_ifs at h
      all_goals first
        | (simp only [Option.some.injEq] at h
           subst h
           first
             | exact htrans _ _ _ hR (hbump e1 move)
             | exact hR)
        | exact htrans _ _ _ hR (ih _ h)

/-- A frame that does not reach its loop returns the engine as it got it. -/
theorem search_node_static (zobrist_table : Int → Int → Int → Nat)
    (std_sort : (point → point → Bool) → List point → List point)
    (child : engine → chess_info → Int → Int → Bool → Nat → Option (Int × engine))
    (e : engine) (board : chess_info) (depth alpha beta alpha_orig beta_orig : Int)
    (maximizing : Bool) (hash : Nat) (hash_move : point) (hs : static_return board depth) :
    ∃ v, search_node zobrist_table std_sort child e board depth alpha beta alpha_orig
      beta_orig maximizing hash hash_move = some (v, e) := by
  obtain ⟨c1, c2, c3, -⟩ := search_node_eq zobrist_table std_sort child e board depth alpha beta
    alpha_orig beta_orig maximizing hash hash_move
  by_cases h1 : evaluate board ≥ 40000
  · exact ⟨_, c1 h1⟩
  · by_cases h2 : evaluate board ≤ -40000
    · exact ⟨_, c2 h2⟩
    · have h3 : depth = 0 ∨ get_moves board = [] := by
        rcases hs with h | h | h | h
        · exact absurd h h1
        · exact absurd h h2
        · exact Or.inl h
        · exact Or.inr h
      exact ⟨_, c3 (by omega) (by omega) h3⟩

/-- With more levels of nesting than remaining depth, `minimax` returns. -/
theorem minimax_returns (zobrist_table : Int → Int → Int → Nat)
    (std_sort : (point → point → Bool) → List point → List point) (fuel : Nat) (e : engine)
    (board : chess_info) (depth alpha beta : Int) (maximizing : Bool) (hash : Nat)
    (h0 : 0 ≤ depth) (hfuel : depth < fuel) :
    (minimax zobrist_table std_sort fuel e board depth alpha beta maximizing hash).isSome
      = true := by
  induction fuel generalizing e board depth alpha beta maximizing hash with
  | zero => simp at hfuel; omega
  | succ fuel ih =>
    rw [minimax_eq]
    cases table_answer e hash depth alpha beta with
    | some v => rfl
    | none =>
      dsimp only
      by_cases hs : static_return board depth
      · obtain ⟨v, hv⟩ := search_node_static zobrist_table std_sort
          (child_call zobrist_table std_sort fuel depth) e board depth
          (lookup_window e hash depth alpha beta).1 (lookup_window e hash depth alpha beta).2
          alpha beta maximizing hash (lookup_hint e hash) hs
        rw [hv]; rfl
      · rw [(search_node_eq zobrist_table std_sort _ e board depth _ _ alpha beta maximizing
          hash _).2.2.2 hs]
        have hd : depth ≠ 0 := fun h => hs (Or.inr (Or.inr (Or.inl h)))
        have hchild : ∀ e ns a b m h,
            (child_call zobrist_table std_sort fuel depth e ns a b m h).isSome = true := by
          intro e ns a b m h
          unfold child_call
          apply ih
          · omega
          · push_cast at hfuel; omega
        rw [Option.isSome_map']
        unfold node_loop
        cases maximizing
        · exact min_loop_some zobrist_table _ hchild board depth hash _ _
        · exact max_loop_some zobrist_table _ hchild board depth hash _ _

/-- The bound on the nesting is not binding: any larger bound gives the same
result. -/
theorem minimax_stable (zobrist_table : Int → Int → Int → Nat)
    (std_sort : (point → point → Bool) → List point → List point) (fuel extra : Nat)
    (e : engine) (board : chess_info) (depth alpha beta : Int) (maximizing : Bool) (hash : Nat)
    (h0 : 0 ≤ depth) (hfuel : depth < fuel) :
    minimax zobrist_table std_sort (fuel + extra) e board depth alpha beta maximizing hash
      = minimax zobrist_table std_sort fuel e board depth alpha beta maximizing hash := by
  induction fuel generalizing e board depth alpha beta maximizing hash with
  | zero => simp at hfuel; omega
  | succ fuel ih =>
    rw [show fuel + 1 + extra = (fuel + extra) + 1 by omega, minimax_eq, minimax_eq]
    cases table_answer e hash depth alpha beta with
    | some v => rfl
    | none =>
      dsimp only
      by_cases hs : static_return board depth
      · obtain ⟨v, hv⟩ := search_node_static zobrist_table std_sort
          (child_call zobrist_table std_sort fuel depth) e board depth
          (lookup_window e hash depth alpha beta).1 (lookup_window e hash depth alpha beta).2
          alpha beta maximizing hash (lookup_hint e hash) hs
        obtain ⟨v', hv'⟩ := search_node_static zobrist_table std_sort
          (child_call zobrist_table std_sort (fuel + extra) depth) e board depth
          (lookup_window e hash depth alpha beta).1 (lookup_window e hash depth alpha beta).2
          alpha beta maximizing hash (lookup_hint e hash) hs
        obtain ⟨c1, c2, c3, -⟩ := search_node_eq zobrist_table std_sort
          (child_call zobrist_table std_sort fuel depth) e board depth
          (lookup_window e hash depth alpha beta).1 (lookup_window e hash depth alpha beta).2
          alpha beta maximizing hash (lookup_hint e hash)
        obtain ⟨d1, d2, d3, -⟩ := search_node_eq zobrist_table std_sort
          (child_call zobrist_table std_sort (fuel + extra) depth) e board depth
          (lookup_window e hash depth alpha beta).1 (lookup_window e hash depth alpha beta).2
          alpha beta maximizing hash (lookup_hint e hash)
        by_cases h1 : evaluate board ≥ 40000
        · rw [c1 h1, d1 h1]
        · by_cases h2 : evaluate board ≤ -40000
          · rw [c2 h2, d2 h2]
          · have h3 : depth = 0 ∨ get_moves board = [] := by
              rcases hs with h | h | h | h
              · exact absurd h h1
              · exact absurd h h2
              · exact Or.inl h
              · exact Or.inr h
            rw [c3 (by omega) (by omega) h3, d3 (by omega) (by omega) h3]
      · have hd : depth ≠ 0 := fun h => hs (Or.inr (Or.inr (Or.inl h)))
        have hchild : child_call zobrist_table std_sort (fuel + extra) depth
            = child_call zobrist_table std_sort fuel depth := by
          funext e ns a b m h
          unfold child_call
          apply ih
          · omega
          · push_cast at hfuel; omega
        rw [hchild]

/-- A relation between engines that every increment of a history counter by a
square and every insertion into the transposition table respects holds
between the engine before and after a `minimax` call. -/
theorem minimax_rel (R : engine → engine → Prop) (hrefl : ∀ e, R e e)
    (htrans : ∀ e1 e2 e3, R e1 e2 → R e2 e3 → R e1 e3)
    (hbump : ∀ (e : engine) (move : point) (d : Int),
      R e { e with history_table := bump_history e.history_table move (d * d) })
    (hinsert : ∀ (e : engine) (hash : Nat) (entry : TTEntry),
      R e { e with trans_table := e.trans_table.insert hash entry })
    (zobrist_table : Int → Int → Int → Nat)
    (std_sort : (point → point → Bool) → List point → List point) (fuel : Nat) (e : engine)
    (board : chess_info) (depth alpha beta : Int) (maximizing : Bool) (hash : Nat) (v : Int)
    (e' : engine)
    (h : minimax zobrist_table std_sort fuel e board depth alpha beta maximizing hash
      = some (v, e')) : R e e' := by
  induction fuel generalizing e board depth alpha beta maximizing hash v e' with
  | zero => simp [minimax] at h
  | succ fuel ih =>
    rw [minimax_eq] at h
    cases ha : table_answer e hash depth alpha beta with
    | some w =>
      rw [ha] at h
      simp only [Option.some.injEq, Prod.mk.injEq] at h
      rw [← h.2]
      exact hrefl e
    | none =>
      rw [ha] at h
      dsimp only at h
      by_cases hs : static_return board depth
      · obtain ⟨w, hw⟩ := search_node_static zobrist_table std_sort
          (child_call zobrist_table std_sort fuel depth) e board depth
          (lookup_window e hash depth alpha beta).1 (lookup_window e hash depth alpha beta).2
          alpha beta maximizing hash (lookup_hint e hash) hs
        rw [hw] at h
        simp only [Option.some.injEq, Prod.mk.injEq] at h
        rw [← h.2]
        exact hrefl e
      · rw [(search_node_eq zobrist_table std_sort _ e board depth _ _ alpha beta maximizing
          hash _).2.2.2 hs] at h
        have hchild : ∀ e ns a b m h v e1,
            child_call zobrist_table std_sort fuel depth e ns a b m h = some (v, e1) →
              R e e1 := by
          intro e ns a b m h v e1 hc
          exact ih e ns (depth - 1) a b m h v e1 hc
        cases hl : node_loop zobrist_table std_sort
            (child_call zobrist_table std_sort fuel depth) e board depth
            (lookup_window e hash depth alpha beta).1 (lookup_window e hash depth alpha beta).2
            maximizing hash (lookup_hint e hash) with
        | none => rw [hl] at h; simp at h
        | some st =>
          rw [hl] at h
          simp only [Option.map_some', Option.some.injEq, Prod.mk.injEq] at h
          have hloop : R e st.e := by
            unfold node_loop at hl
            cases maximizing
            · simp only [Bool.false_eq_true, if_false] at hl
              exact min_loop_rel R hrefl htrans zobrist_table _ depth hchild
                (fun e move => hbump e move depth) board hash _ _ st hl
            · simp only [if_true] at hl
              exact max_loop_rel R hrefl htrans zobrist_table _ depth hchild
                (fun e move => hbump e move depth) board hash _ _ st hl
          rw [← h.2]
          exact htrans _ _ _ hloop (hinsert st.e hash _)

/-- A `minimax` call keeps `max_depth` and lowers no history counter. -/
theorem minimax_history_le (zobrist_table : Int → Int → Int → Nat)
    (std_sort : (point → point → Bool) → List point → List point) (fuel : Nat) (e : engine)
    (board : chess_info) (depth alpha beta : Int) (maximizing : Bool) (hash : Nat) (v : Int)
    (e' : engine)
    (h : minimax zobrist_table std_sort fuel e board depth alpha beta maximizing hash
      = some (v, e')) :
    e'.max_depth = e.max_depth ∧ ∀ i j : Int, e.history_table i j ≤ e'.history_table i j := by
  refine minimax_rel
    (fun e e' => e'.max_depth = e.max_depth ∧
      ∀ i j : Int, e.history_table i j ≤ e'.history_table i j)
    (fun e => ⟨rfl, fun i j => le_refl _⟩)
    (fun e1 e2 e3 h12 h23 => ⟨h23.1.trans h12.1, fun i j => le_trans (h12.2 i j) (h23.2 i j)⟩)
    ?_ (fun e hash entry => ⟨rfl, fun i j => le_refl _⟩)
    zobrist_table std_sort fuel e board depth alpha beta maximizing hash v e' h
  intro e move d
  refine ⟨rfl, fun i j => ?_⟩
  dsimp only [bump_history]
  have := mul_self_nonneg d
  split_ifs <;> omega

/-- A scan counts nothing when every pattern of the table has a symbol that
does not occur in the line. -/
theorem evaluate_line_absent (line : List Char) (table : List pattern_entry)
    (htable : ∀ entry ∈ table, entry.s ≠ [] ∧ '3' ∉ entry.s)
    (habsent : ∀ entry ∈ table, ∃ c ∈ entry.s, c ∉ line) :
    (evaluate_line line table).1 = 0 := by
  obtain ⟨⟨-, -, -, hocc, -, -, -⟩, hsum, hmem⟩ := evaluate_line_invariant line table htable
  have hnil : evaluate_line_matches line table = [] := by
    rw [List.eq_nil_iff_forall_not_mem]
    intro m hm
    obtain ⟨c, hc, hcl⟩ := habsent m.entry (hmem m hm)
    have hpre := (hocc m hm).2.2
    rw [List.isPrefixOf_iff_prefix] at hpre
    exact hcl (List.mem_of_mem_drop (hpre.subset hc))
  rw [hsum, hnil]
  rfl

theorem score_tables_stones :
    (∀ entry ∈ score_table_black, '1' ∈ entry.s) ∧
      (∀ entry ∈ score_table_white, '2' ∈ entry.s) := by
  decide

/-- A board without stones has the static score 0. -/
theorem evaluate_blank (board : chess_info)
    (h : ∀ i j : Int, 1 ≤ i → i ≤ 15 → 1 ≤ j → j ≤ 15 → board.pieces i j = 0) :
    evaluate board = 0 := by
  rw [evaluate_eq_sum]
  have hzero : ∀ l ∈ scanned_lines, line_score (l.map (symbol board)) = 0 := by
    intro l hl
    have hsym : ∀ c ∈ l.map (symbol board), c = '0' := by
      intro c hc
      obtain ⟨p, hp, rfl⟩ := List.mem_map.1 hc
      have hv := (is_valid_iff p).1 (scanned_lines_valid l hl p hp)
      unfold symbol
      rw [h p.x p.y hv.1 hv.2.1 hv.2.2.1 hv.2.2.2]
      rfl
    unfold line_score
    rw [evaluate_line_absent _ _ score_tables_patterns.1
        (fun entry he => ⟨'1', score_tables_stones.1 entry he,
          fun hc => absurd (hsym _ hc) (by decide)⟩),
      evaluate_line_absent _ _ score_tables_patterns.2
        (fun entry he => ⟨'2', score_tables_stones.2 entry he,
          fun hc => absurd (hsym _ hc) (by decide)⟩)]
    rfl
  rw [List.map_congr_left hzero]
  simp

theorem evaluate_initial_state : evaluate initial_state = 0 :=
  evaluate_blank initial_state (fun _ _ _ _ _ _ => rfl)

theorem get_moves_initial_state : get_moves initial_state = [⟨8, 8⟩] := by
  have hp : has_pieces initial_state = false := by
    rw [← Bool.not_eq_true, has_pieces_iff]
    rintro ⟨i, j, -, -, -, -, h⟩
    exact h rfl
  rw [get_moves_eq, hp]
  rfl

theorem initial_state_searched (depth : Int) (hd : depth ≠ 0) :
    ¬ static_return initial_state depth := by
  unfold static_return
  rw [evaluate_initial_state, get_moves_initial_state]
  simp [hd]

/-- C21: a `minimax` call that the table does not answer returns
`s - (max_depth + 1 - depth)` when the static score `s` is at least 40000 and
`s + (max_depth + 1 - depth)` when it is at most -40000, and leaves the engine
as it was. Hence of two such calls on boards of the same static score the one
with more remaining depth returns the strictly higher value for a win and the
strictly lower value for a loss. -/
theorem decisive_score_adjusted (zobrist_table : Int → Int → Int → Nat)
    (std_sort : (point → point → Bool) → List point → List point) (fuel : Nat) (e : engine)
    (board : chess_info) (depth alpha beta : Int) (maximizing : Bool) (hash : Nat)
    (hmiss : table_answer e hash depth alpha beta = none) :
    (evaluate board ≥ 40000 →
      minimax zobrist_table std_sort (fuel + 1) e board depth alpha beta maximizing hash
        = some (evaluate board - (e.max_depth + 1 - depth), e)) ∧
    (evaluate board ≤ -40000 →
      minimax zobrist_table std_sort (fuel + 1) e board depth alpha beta maximizing hash
        = some (evaluate board + (e.max_depth + 1 - depth), e)) ∧
    (∀ (fuel' : Nat) (board' : chess_info) (depth' alpha' beta' : Int) (maximizing' : Bool)
        (hash' : Nat) (v v' : Int),
      table_answer e hash' depth' alpha' beta' = none →
      evaluate board' = evaluate board → depth' < depth →
      minimax zobrist_table std_sort (fuel + 1) e board depth alpha beta maximizing hash
        = some (v, e) →
      minimax zobrist_table std_sort (fuel' + 1) e board' depth' alpha' beta' maximizing' hash'
        = some (v', e) →
      (evaluate board ≥ 40000 → v' < v) ∧ (evaluate board ≤ -40000 → v < v')) := by
  have key : ∀ (fuel : Nat) (board : chess_info) (depth alpha beta : Int) (maximizing : Bool)
      (hash : Nat), table_answer e hash depth alpha beta = none →
      (evaluate board ≥ 40000 →
        minimax zobrist_table std_sort (fuel + 1) e board depth alpha beta maximizing hash
          = some (evaluate board - (e.max_depth + 1 - depth), e)) ∧
      (evaluate board ≤ -40000 →
        minimax zobrist_table std_sort (fuel + 1) e board depth alpha beta maximizing hash
          = some (evaluate board + (e.max_depth + 1 - depth), e)) := by
    intro fuel board depth alpha beta maximizing hash hmiss
    constructor
    · intro h
      rw [minimax_eq, hmiss]
      exact (search_node_eq zobrist_table std_sort _ e board depth _ _ alpha beta maximizing
        hash _).1 h
    · intro h
      rw [minimax_eq, hmiss]
      exact (search_node_eq zobrist_table std_sort _ e board depth _ _ alpha beta maximizing
        hash _).2.1 h
  refine ⟨(key fuel board depth alpha beta maximizing hash hmiss).1,
    (key fuel board depth alpha beta maximizing hash hmiss).2, ?_⟩
  intro fuel' board' depth' alpha' beta' maximizing' hash' v v' hmiss' hs hd hv hv'
  constructor
  · intro h
    rw [(key fuel board depth alpha beta maximizing hash hmiss).1 h] at hv
    rw [(key fuel' board' depth' alpha' beta' maximizing' hash' hmiss').1 (by omega)] at hv'
    simp only [Option.some.injEq, Prod.mk.injEq, and_true] at hv hv'
    omega
  · intro h
    rw [(key fuel board depth alpha beta maximizing hash hmiss).2 h] at hv
    rw [(key fuel' board' depth' alpha' beta' maximizing' hash' hmiss').2 (by omega)] at hv'
    simp only [Option.some.injEq, Prod.mk.injEq, and_true] at hv hv'
    omega

/-- The claim C21 on `fours_state`, whose static score is at least 40000, for a
fresh engine of depth 3 and a call of remaining depth 2. -/
theorem decisive_score_adjusted_witness :
    table_answer fresh_engine 0 2 (-search_infinity) search_infinity = none ∧
      evaluate fours_state ≥ 40000 ∧
      minimax sample_table sample_sort 1 fresh_engine fours_state 2 (-search_infinity)
        search_infinity true 0 = some (evaluate fours_state - (3 + 1 - 2), fresh_engine) :=
  ⟨rfl, fours_state_evaluate,
    (decisive_score_adjusted sample_table sample_sort 0 fresh_engine fours_state 2
      (-search_infinity) search_infinity true 0 rfl).1 fours_state_evaluate⟩

/-- C22 fails for decisive boards: a call of remaining depth 0 on `fours_state`,
not answered from the table, returns the static score less 4 (the engine has
depth 3), not the static score. -/
theorem leaf_score_modified :
    table_answer fresh_engine 0 0 (-search_infinity) search_infinity = none ∧
      minimax sample_table sample_sort 1 fresh_engine fours_state 0 (-search_infinity)
        search_infinity true 0 = some (evaluate fours_state - 4, fresh_engine) ∧
      evaluate fours_state - 4 ≠ evaluate fours_state := by
  refine ⟨rfl, ?_, by omega⟩
  rw [minimax_eq]
  exact (search_node_eq sample_table sample_sort _ fresh_engine fours_state 0 _ _ _ _ true
    0 _).1 fours_state_evaluate

/-- C22, amended: a `minimax` call of remaining depth 0 that the table does not
answer returns the static score unmodified when that score lies strictly
between -40000 and 40000; it returns the score less `max_depth + 1` when the
score is at least 40000 and the score plus `max_depth + 1` when it is at most
-40000. The engine is left as it was. -/
theorem leaf_returns_static_score (zobrist_table : Int → Int → Int → Nat)
    (std_sort : (point → point → Bool) → List point → List point) (fuel : Nat) (e : engine)
    (board : chess_info) (alpha beta : Int) (maximizing : Bool) (hash : Nat)
    (hmiss : table_answer e hash 0 alpha beta = none) :
    (-40000 < evaluate board → evaluate board < 40000 →
      minimax zobrist_table std_sort (fuel + 1) e board 0 alpha beta maximizing hash
        = some (evaluate board, e)) ∧
    (evaluate board ≥ 40000 →
      minimax zobrist_table std_sort (fuel + 1) e board 0 alpha beta maximizing hash
        = some (evaluate board - (e.max_depth + 1), e)) ∧
    (evaluate board ≤ -40000 →
      minimax zobrist_table std_sort (fuel + 1) e board 0 alpha beta maximizing hash
        = some (evaluate board + (e.max_depth + 1), e)) := by
  obtain ⟨c1, c2, c3, -⟩ := search_node_eq zobrist_table std_sort
    (child_call zobrist_table std_sort fuel 0) e board 0 (lookup_window e hash 0 alpha beta).1
    (lookup_window e hash 0 alpha beta).2 alpha beta maximizing hash (lookup_hint e hash)
  refine ⟨?_, ?_, ?_⟩
  · intro h1 h2
    rw [minimax_eq, hmiss]
    exact c3 h1 h2 (Or.inl rfl)
  · intro h
    rw [minimax_eq, hmiss]
    rw [show evaluate board - (e.max_depth + 1) = evaluate board - (e.max_depth + 1 - 0) by
      omega]
    exact c1 h
  · intro h
    rw [minimax_eq, hmiss]
    rw [show evaluate board + (e.max_depth + 1) = evaluate board + (e.max_depth + 1 - 0) by
      omega]
    exact c2 h

/-- The amended C22 on the empty board, whose static score is 0. -/
theorem leaf_returns_static_score_witness :
    table_answer fresh_engine 0 0 (-search_infinity) search_infinity = none ∧
      evaluate initial_state = 0 ∧
      minimax sample_table sample_sort 1 fresh_engine initial_state 0 (-search_infinity)
        search_infinity true 0 = some (evaluate initial_state, fresh_engine) :=
  ⟨rfl, evaluate_initial_state,
    (leaf_returns_static_score sample_table sample_sort 0 fresh_engine initial_state
      (-search_infinity) search_infinity true 0 rfl).1
      (by rw [evaluate_initial_state]; decide) (by rw [evaluate_initial_state]; decide)⟩

/-- C23: a `minimax` call that returns `v` after its loop over the children
(the table did not answer, the static score is not decisive, the depth is not
0, there are candidates) leaves a transposition table that is the table after
the loop with one insertion: the fingerprint of the call maps to the entry of
value `v`, the depth of the call, the best move of the node, and the flag 2
(UpperBound) if `v <= alpha`, else 1 (LowerBound) if `v >= beta`, else 0
(Exact), for the window `alpha`, `beta` given to the call. A call that returns
from the table, or with a static score, returns the engine as it got it. -/
theorem minimax_store (zobrist_table : Int → Int → Int → Nat)
    (std_sort : (point → point → Bool) → List point → List point) (fuel : Nat) (e : engine)
    (board : chess_info) (depth alpha beta : Int) (maximizing : Bool) (hash : Nat) (v : Int)
    (e' : engine)
    (hret : minimax zobrist_table std_sort (fuel + 1) e board depth alpha beta maximizing hash
      = some (v, e')) :
    ((table_answer e hash depth alpha beta ≠ none ∨ static_return board depth) → e' = e) ∧
    (table_answer e hash depth alpha beta = none → ¬ static_return board depth →
      ∃ st : frame,
        node_loop zobrist_table std_sort (child_call zobrist_table std_sort fuel depth) e board
          depth (lookup_window e hash depth alpha beta).1
          (lookup_window e hash depth alpha beta).2 maximizing hash (lookup_hint e hash)
            = some st ∧
        v = st.best_eval ∧
        e'.history_table = st.e.history_table ∧
        e'.trans_table = st.e.trans_table.insert hash
          ⟨v, if v ≤ alpha then 2 else if v ≥ beta then 1 else 0, depth,
            st.best_move_this_node⟩ ∧
        e'.trans_table.find hash
          = some ⟨v, if v ≤ alpha then 2 else if v ≥ beta then 1 else 0, depth,
            st.best_move_this_node⟩) := by
  rw [minimax_eq] at hret
  constructor
  · intro h
    cases ha : table_answer e hash depth alpha beta with
    | some w =>
      rw [ha] at hret
      simp only [Option.some.injEq, Prod.mk.injEq] at hret
      exact hret.2.symm
    | none =>
      rw [ha] at hret
      rcases h with h | h
      · exact absurd ha h
      · obtain ⟨w, hw⟩ := search_node_static zobrist_table std_sort
          (child_call zobrist_table std_sort fuel depth) e board depth
          (lookup_window e hash depth alpha beta).1 (lookup_window e hash depth alpha beta).2
          alpha beta maximizing hash (lookup_hint e hash) h
        dsimp only at hret
        rw [hw] at hret
        simp only [Option.some.injEq, Prod.mk.injEq] at hret
        exact hret.2.symm
  · intro ha hs
    rw [ha] at hret
    dsimp only at hret
    rw [(search_node_eq zobrist_table std_sort _ e board depth _ _ alpha beta maximizing
      hash _).2.2.2 hs] at hret
    cases hl : node_loop zobrist_table std_sort
        (child_call zobrist_table std_sort fuel depth) e board depth
        (lookup_window e hash depth alpha beta).1 (lookup_window e hash depth alpha beta).2
        maximizing hash (lookup_hint e hash) with
    | none => rw [hl] at hret; simp at hret
    | some st =>
      rw [hl] at hret
      simp only [Option.map_some', Option.some.injEq, Prod.mk.injEq] at hret
      obtain ⟨hv, he⟩ := hret
      subst hv
      subst he
      refine ⟨st, rfl, rfl, rfl, rfl, ?_⟩
      exact find_insert_same _ _ _

/-- The claim C23 on the empty board: a call of remaining depth 1 on a fresh
engine returns and has stored an entry of depth 1 for its fingerprint. -/
theorem minimax_store_witness :
    ∃ (v : Int) (e' : engine),
      minimax sample_table sample_sort 2 fresh_engine initial_state 1 (-search_infinity)
        search_infinity true 0 = some (v, e') ∧
      ∃ best : point, e'.trans_table.find 0
        = some ⟨v, if v ≤ -search_infinity then 2 else if v ≥ search_infinity then 1 else 0,
            1, best⟩ := by
  have hsome := minimax_returns sample_table sample_sort 2 fresh_engine initial_state 1
    (-search_infinity) search_infinity true 0 (by decide) (by decide)
  obtain ⟨⟨v, e'⟩, hret⟩ := Option.isSome_iff_exists.1 hsome
  obtain ⟨st, -, -, -, -, hfind⟩ := (minimax_store sample_table sample_sort 1 fresh_engine
    initial_state 1 (-search_infinity) search_infinity true 0 v e' hret).2 rfl
    (initial_state_searched 1 (by decide))
  exact ⟨v, e', hret, st.best_move_this_node, hfind⟩

/-- One iteration of the loop of the maximizing branch. -/
theorem max_loop_cons (zobrist_table : Int → Int → Int → Nat)
    (child : engine → chess_info → Int → Int → Bool → Nat → Option (Int × engine))
    (board : chess_info) (depth : Int) (hash : Nat) (move : point) (rest : List point)
    (st : frame) :
    max_loop zobrist_table child board depth hash (move :: rest) st =
      if black_allowed board move = false then
        max_loop zobrist_table child board depth hash rest st
      else
        match child st.e (black_child_state board move) st.alpha st.beta false
            (hash ^^^ zobrist_table move.x move.y 0) with
        | none => none
        | some (eval, e) =>
          if (max_update st move eval e).beta ≤ (max_update st move eval e).alpha then
            some { max_update st move eval e with e := { e with
              history_table := bump_history e.history_table move (depth * depth) } }
          else if (max_update st move eval e).best_eval ≥ 40000 then
            some (max_update st move eval e)
          else max_loop zobrist_table child board depth hash rest (max_update st move eval e) := by
  rw [max_loop]
  unfold black_allowed black_child_state max_update
  cases hw : is_win (board.place move 1).pieces move <;>
    cases hf : black_forbidden (board.place move 1).pieces move <;>
    simp only [Bool.not_true, Bool.not_false, Bool.and_true, Bool.and_false, Bool.or_true,
      Bool.or_false, Bool.true_or, Bool.false_or, if_true, if_false, Bool.false_eq_true,
      Bool.true_and, Bool.false_and] <;> rfl

/-- One iteration of the loop of the minimizing branch. -/
theorem min_loop_cons (zobrist_table : Int → Int → Int → Nat)
    (child : engine → chess_info → Int → Int → Bool → Nat → Option (Int × engine))
    (board : chess_info) (depth : Int) (hash : Nat) (move : point) (rest : List point)
    (st : frame) :
    min_loop zobrist_table child board depth hash (move :: rest) st =
      match child st.e (white_child_state board move) st.alpha st.beta true
          (hash ^^^ zobrist_table move.x move.y 1) with
      | none => none
      | some (eval, e) =>
        if (min_update st move eval e).beta ≤ (min_update st move eval e).alpha then
          some { min_update st move eval e with e := { e with
            history_table := bump_history e.history_table move (depth * depth) } }
        else if (min_update st move eval e).best_eval ≤ -40000 then
          some (min_update st move eval e)
        else min_loop zobrist_table child board depth hash rest (min_update st move eval e) := by
  rw [min_loop]
  rfl

theorem max_update_best (st : frame) (move : point) (eval : Int) (e : engine) :
    (max_update st move eval e).best_move_this_node = st.best_move_this_node ∨
      (max_update st move eval e).best_move_this_node = move := by
  unfold max_update
  dsimp only
  split_ifs
  · exact Or.inr rfl
  · exact Or.inl rfl

theorem min_update_best (st : frame) (move : point) (eval : Int) (e : engine) :
    (min_update st move eval e).best_move_this_node = st.best_move_this_node ∨
      (min_update st move eval e).best_move_this_node = move := by
  unfold min_update
  dsimp only
  split_ifs
  · exact Or.inr rfl
  · exact Or.inl rfl

/-- The loop of the maximizing branch is the loop over the candidates that are
not skipped. -/
theorem max_loop_filter (zobrist_table : Int → Int → Int → Nat)
    (child : engine → chess_info → Int → Int → Bool → Nat → Option (Int × engine))
    (board : chess_info) (depth : Int) (hash : Nat) (moves : List point) (st : frame) :
    max_loop zobrist_table child board depth hash moves st
      = max_loop zobrist_table child board depth hash (moves.filter (black_allowed board))
          st := by
  induction moves generalizing st with
  | nil => rfl
  | cons move rest ih =>
    by_cases ha : black_allowed board move = true
    · rw [List.filter_cons_of_pos ha, max_loop_cons, max_loop_cons]
      simp only [ih]
    · rw [List.filter_cons_of_neg ha, max_loop_cons]
      rw [Bool.not_eq_true] at ha
      rw [if_pos ha]
      exact ih st

/-- The best move the loop of the maximizing branch records is the one it
started with or a candidate that is not skipped. -/
theorem max_loop_best (zobrist_table : Int → Int → Int → Nat)
    (child : engine → chess_info → Int → Int → Bool → Nat → Option (Int × engine))
    (board : chess_info) (depth : Int) (hash : Nat) (moves : List point) (st st' : frame)
    (h : max_loop zobrist_table child board depth hash moves st = some st') :
    st'.best_move_this_node = st.best_move_this_node ∨
      (st'.best_move_this_node ∈ moves ∧
        black_allowed board st'.best_move_this_node = true) := by
  induction moves generalizing st with
  | nil =>
    simp only [max_loop, Option.some.injEq] at h
    subst h
    exact Or.inl rfl
  | cons move rest ih =>
    rw [max_loop_cons] at h
    by_cases ha : black_allowed board move = true
    · rw [if_neg (by simp [ha])] at h
      cases hr : child st.e (black_child_state board move) st.alpha st.beta false
          (hash ^^^ zobrist_table move.x move.y 0) with
      | none => rw [hr] at h; simp at h
      | some r =>
        obtain ⟨eval, e1⟩ := r
        rw [hr] at h
        dsimp only at h
        have hb := max_update_best st move eval e1
        have hfin : ∀ x : point, (x = st.best_move_this_node ∨ x = move) →
            x = st.best_move_this_node ∨
              (x ∈ move :: rest ∧ black_allowed board x = true) := by
          intro x hx
          rcases hx with hx | hx
          · exact Or.inl hx
          · exact Or.inr ⟨hx ▸ List.mem_cons_self _ _, hx ▸ ha⟩
        split_ifs at h
        · simp only [Option.some.injEq] at h
          subst h
          exact hfin _ hb
        · simp only [Option.some.injEq] at h
          subst h
          exact hfin _ hb
        · rcases ih _ h with h' | ⟨h1, h2⟩
          · rw [h']
            exact hfin _ hb
          · exact Or.inr ⟨List.mem_cons_of_mem _ h1, h2⟩
    · rw [Bool.not_eq_true] at ha
      rw [if_pos ha] at h
      rcases ih _ h with h' | ⟨h1, h2⟩
      · exact Or.inl h'
      · exact Or.inr ⟨List.mem_cons_of_mem _ h1, h2⟩

/-- The best move the loop of the minimizing branch records is the one it
started with or one of the candidates. -/
theorem min_loop_best (zobrist_table : Int → Int → Int → Nat)
    (child : engine → chess_info → Int → Int → Bool → Nat → Option (Int × engine))
    (board : chess_info) (depth : Int) (hash : Nat) (moves : List point) (st st' : frame)
    (h : min_loop zobrist_table child board depth hash moves st = some st') :
    st'.best_move_this_node = st.best_move_this_node ∨ st'.best_move_this_node ∈ moves := by
  induction moves generalizing st with
  | nil =>
    simp only [min_loop, Option.some.injEq] at h
    subst h
    exact Or.inl rfl
  | cons move rest ih =>
    rw [min_loop_cons] at h
    cases hr : child st.e (white_child_state board move) st.alpha st.beta true
        (hash ^^^ zobrist_table move.x move.y 1) with
    | none => rw [hr] at h; simp at h
    | some r =>
      obtain ⟨eval, e1⟩ := r
      rw [hr] at h
      dsimp only at h
      have hb := min_update_best st move eval e1
      have hfin : ∀ x : point, (x = st.best_move_this_node ∨ x = move) →
          x = st.best_move_this_node ∨ x ∈ move :: rest := by
        intro x hx
        rcases hx with hx | hx
        · exact Or.inl hx
        · exact Or.inr (hx ▸ List.mem_cons_self _ _)
      split_ifs at h
      · simp only [Option.some.injEq] at h
        subst h
        exact hfin _ hb
      · simp only [Option.some.injEq] at h
        subst h
        exact hfin _ hb
      · rcases ih _ h with h' | h1
        · rw [h']
          exact hfin _ hb
        · exact Or.inr (List.mem_cons_of_mem _ h1)

/-- C25: the loop of a maximizing (Black) node is the loop over the candidates
at which a Black stone completes five or makes no double three, no double four
and no overline; the skipped candidates are not passed to the recursive call,
and the best move the loop records is the one it started with or one of the
others. The loop of a minimizing (White) node tests no rule predicate: it
passes its first candidate to the recursive call whatever that candidate is,
and records only candidates as best move. -/
theorem forbidden_skipped_for_black_only (zobrist_table : Int → Int → Int → Nat)
    (child : engine → chess_info → Int → Int → Bool → Nat → Option (Int × engine))
    (board : chess_info) (depth : Int) (hash : Nat) (moves : List point) (st : frame) :
    max_loop zobrist_table child board depth hash moves st
        = max_loop zobrist_table child board depth hash
            (moves.filter (fun move =>
              is_win (board.place move 1).pieces move ||
                !(is_double_three (board.place move 1).pieces move ||
                  is_double_four (board.place move 1).pieces move ||
                  is_long_chain (board.place move 1).pieces move 1))) st ∧
      (∀ st' : frame, max_loop zobrist_table child board depth hash moves st = some st' →
        st'.best_move_this_node = st.best_move_this_node ∨
          (st'.best_move_this_node ∈ moves ∧
            (is_win (board.place st'.best_move_this_node 1).pieces st'.best_move_this_node
                = true ∨
              (is_double_three (board.place st'.best_move_this_node 1).pieces
                  st'.best_move_this_node = false ∧
                is_double_four (board.place st'.best_move_this_node 1).pieces
                  st'.best_move_this_node = false ∧
                is_long_chain (board.place st'.best_move_this_node 1).pieces
                  st'.best_move_this_node 1 = false)))) ∧
      (∀ (move : point) (rest : List point),
        child st.e (white_child_state board move) st.alpha st.beta true
            (hash ^^^ zobrist_table move.x move.y 1) = none →
          min_loop zobrist_table child board depth hash (move :: rest) st = none) ∧
      (∀ st' : frame, min_loop zobrist_table child board depth hash moves st = some st' →
        st'.best_move_this_node = st.best_move_this_node ∨
          st'.best_move_this_node ∈ moves) := by
  refine ⟨max_loop_filter zobrist_table child board depth hash moves st, ?_, ?_,
    fun st' h => min_loop_best zobrist_table child board depth hash moves st st' h⟩
  · intro st' h
    rcases max_loop_best zobrist_table child board depth hash moves st st' h with h1 | ⟨h1, h2⟩
    · exact Or.inl h1
    · refine Or.inr ⟨h1, ?_⟩
      unfold black_allowed black_forbidden at h2
      simp only [Bool.or_eq_true, Bool.not_eq_true', Bool.or_eq_false_iff] at h2
      rcases h2 with h2 | ⟨⟨h3, h4⟩, h5⟩
      · exact Or.inl h2
      · exact Or.inr ⟨h3, h4, h5⟩
  · intro move rest hnone
    rw [min_loop_cons, hnone]

/-- C27: a `minimax` call lowers no history counter. Within a frame, after the
child of a candidate returned and the window was updated: if the window has
closed (`beta <= alpha`) the loop ends there, whatever candidates remain, and
the engine is the one the child left except that the counter of that
candidate's cell has grown by `depth * depth`; if the window is still open the
frame leaves the engine as the child left it and goes on (or stops on a
decisive value). A skipped candidate changes nothing. -/
theorem history_only_grows (zobrist_table : Int → Int → Int → Nat)
    (std_sort : (point → point → Bool) → List point → List point) (fuel : Nat) (e : engine)
    (board : chess_info) (depth alpha beta : Int) (maximizing : Bool) (hash : Nat) (v : Int)
    (e' : engine)
    (hret : minimax zobrist_table std_sort fuel e board depth alpha beta maximizing hash
      = some (v, e')) :
    (∀ i j : Int, e.history_table i j ≤ e'.history_table i j) ∧
    (∀ (child : engine → chess_info → Int → Int → Bool → Nat → Option (Int × engine))
        (move : point) (rest : List point) (st : frame) (eval : Int) (e1 : engine),
      (black_allowed board move = false →
        max_loop zobrist_table child board depth hash (move :: rest) st
          = max_loop zobrist_table child board depth hash rest st) ∧
      (black_allowed board move = true →
        child st.e (black_child_state board move) st.alpha st.beta false
          (hash ^^^ zobrist_table move.x move.y 0) = some (eval, e1) →
        ((max_update st move eval e1).beta ≤ (max_update st move eval e1).alpha →
          max_loop zobrist_table child board depth hash (move :: rest) st
            = some { max_update st move eval e1 with e := { e1 with
                history_table := bump_history e1.history_table move (depth * depth) } }) ∧
        (¬ (max_update st move eval e1).beta ≤ (max_update st move eval e1).alpha →
          (max_update st move eval e1).e = e1 ∧
          max_loop zobrist_table child board depth hash (move :: rest) st
            = if (max_update st move eval e1).best_eval ≥ 40000 then
                some (max_update st move eval e1)
              else max_loop zobrist_table child board depth hash rest
                (max_update st move eval e1))) ∧
      (child st.e (white_child_state board move) st.alpha st.beta true
          (hash ^^^ zobrist_table move.x move.y 1) = some (eval, e1) →
        ((min_update st move eval e1).beta ≤ (min_update st move eval e1).alpha →
          min_loop zobrist_table child board depth hash (move :: rest) st
            = some { min_update st move eval e1 with e := { e1 with
                history_table := bump_history e1.history_table move (depth * depth) } }) ∧
        (¬ (min_update st move eval e1).beta ≤ (min_update st move eval e1).alpha →
          (min_update st move eval e1).e = e1 ∧
          min_loop zobrist_table child board depth hash (move :: rest) st
            = if (min_update st move eval e1).best_eval ≤ -40000 then
                some (min_update st move eval e1)
              else min_loop zobrist_table child board depth hash rest
                (min_update st move eval e1)))) ∧
    (∀ (history_table : Int → Int → Int) (move : point) (amount : Int),
      bump_history history_table move amount move.x move.y
          = history_table move.x move.y + amount ∧
        ∀ i j : Int, ¬ (i = move.x ∧ j = move.y) →
          bump_history history_table move amount i j = history_table i j) := by
  refine ⟨(minimax_history_le zobrist_table std_sort fuel e board depth alpha beta maximizing
    hash v e' hret).2, ?_, ?_⟩
  · intro child move rest st eval e1
    refine ⟨?_, ?_, ?_⟩
    · intro ha
      rw [max_loop_cons, if_pos ha]
    · intro ha hc
      have ha' : ¬ black_allowed board move = false := by simp [ha]
      constructor
      · intro hclose
        rw [max_loop_cons, if_neg ha', hc]
        dsimp only
        rw [if_pos hclose]
      · intro hopen
        refine ⟨rfl, ?_⟩
        rw [max_loop_cons, if_neg ha', hc]
        dsimp only
        rw [if_neg hopen]
    · intro hc
      constructor
      · intro hclose
        rw [min_loop_cons, hc]
        dsimp only
        rw [if_pos hclose]
      · intro hopen
        refine ⟨rfl, ?_⟩
        rw [min_loop_cons, hc]
        dsimp only
        rw [if_neg hopen]
  · intro history_table move amount
    constructor
    · simp [bump_history]
    · intro i j hij
      simp [bump_history, hij]

/-- The claim C27 on the empty board: a call of remaining depth 1 on a fresh
engine returns and every counter is at least 0, its value before the call. -/
theorem history_only_grows_witness :
    ∃ (v : Int) (e' : engine),
      minimax sample_table sample_sort 2 fresh_engine initial_state 1 (-search_infinity)
        search_infinity true 0 = some (v, e') ∧
      ∀ i j : Int, fresh_engine.history_table i j ≤ e'.history_table i j := by
  have hsome := minimax_returns sample_table sample_sort 2 fresh_engine initial_state 1
    (-search_infinity) search_infinity true 0 (by decide) (by decide)
  obtain ⟨⟨v, e'⟩, hret⟩ := Option.isSome_iff_exists.1 hsome
  exact ⟨v, e', hret, (history_only_grows sample_table sample_sort 2 fresh_engine initial_state
    1 (-search_infinity) search_infinity true 0 v e' hret).1⟩

/-- A child of remaining depth 0 returns the engine as it got it. -/
theorem leaf_child_engine (zobrist_table : Int → Int → Int → Nat)
    (std_sort : (point → point → Bool) → List point → List point) (fuel : Nat) (e : engine)
    (ns : chess_info) (a b : Int) (m : Bool) (h : Nat) (v : Int) (e1 : engine)
    (hc : child_call zobrist_table std_sort fuel 1 e ns a b m h = some (v, e1)) : e1 = e := by
  unfold child_call at hc
  cases fuel with
  | zero => simp [minimax] at hc
  | succ fuel =>
    rw [minimax_eq] at hc
    cases ha : table_answer e h (1 - 1) a b with
    | some w =>
      rw [ha] at hc
      simp only [Option.some.injEq, Prod.mk.injEq] at hc
      exact hc.2.symm
    | none =>
      rw [ha] at hc
      obtain ⟨w, hw⟩ := search_node_static zobrist_table std_sort
        (child_call zobrist_table std_sort fuel (1 - 1)) e ns (1 - 1)
        (lookup_window e h (1 - 1) a b).1 (lookup_window e h (1 - 1) a b).2
        a b m h (lookup_hint e h) (Or.inr (Or.inr (Or.inl (by norm_num))))
      dsimp only at hc
      rw [hw] at hc
      simp only [Option.some.injEq, Prod.mk.injEq] at hc
      exact hc.2.symm

/-- The loop of a frame of remaining depth 1 leaves the transposition table as
it was. -/
theorem node_loop_table_depth_one (zobrist_table : Int → Int → Int → Nat)
    (std_sort : (point → point → Bool) → List point → List point) (fuel : Nat) (e : engine)
    (board : chess_info) (alpha beta : Int) (maximizing : Bool) (hash : Nat)
    (hash_move : point) (st : frame)
    (hl : node_loop zobrist_table std_sort (child_call zobrist_table std_sort fuel 1) e board 1
      alpha beta maximizing hash hash_move = some st) :
    st.e.trans_table = e.trans_table := by
  have hchild : ∀ e ns a b m h v e1,
      child_call zobrist_table std_sort fuel 1 e ns a b m h = some (v, e1) →
        e1.trans_table = e.trans_table := by
    intro e ns a b m h v e1 hc
    rw [leaf_child_engine zobrist_table std_sort fuel e ns a b m h v e1 hc]
  unfold node_loop at hl
  cases maximizing
  · simp only [Bool.false_eq_true, if_false] at hl
    exact min_loop_rel (fun e e' => e'.trans_table = e.trans_table) (fun _ => rfl)
      (fun _ _ _ h12 h23 => h23.trans h12) zobrist_table _ 1 hchild (fun _ _ => rfl)
      board hash _ _ st hl
  · simp only [if_true] at hl
    exact max_loop_rel (fun e e' => e'.trans_table = e.trans_table) (fun _ => rfl)
      (fun _ _ _ h12 h23 => h23.trans h12) zobrist_table _ 1 hchild (fun _ _ => rfl)
      board hash _ _ st hl

/-- C24 fails: the table of `bound_engine` holds for the fingerprint 0 a lower
bound 7 of depth 5. A call of remaining depth 1 on the empty board with the
full window is not answered by it (the window stays open), searches its
candidate, and the table as the loop leaves it still holds that entry; the
call then stores its result, so that afterwards the fingerprint maps to an
entry of depth 1: the entry of depth 5 was replaced by a shallower one. -/
theorem deeper_entry_overwritten :
    bound_engine.trans_table.find 0 = some ⟨7, 1, 5, ⟨8, 8⟩⟩ ∧
      ∃ (v : Int) (e' : engine) (st : frame),
        minimax sample_table sample_sort 2 bound_engine initial_state 1 (-search_infinity)
          search_infinity true 0 = some (v, e') ∧
        st.e.trans_table.find 0 = some ⟨7, 1, 5, ⟨8, 8⟩⟩ ∧
        e'.trans_table = st.e.trans_table.insert 0
          ⟨v, if v ≤ -search_infinity then 2 else if v ≥ search_infinity then 1 else 0, 1,
            st.best_move_this_node⟩ ∧
        (e'.trans_table.find 0).map (fun entry => entry.depth) = some 1 := by
  refine ⟨rfl, ?_⟩
  have hsome := minimax_returns sample_table sample_sort 2 bound_engine initial_state 1
    (-search_infinity) search_infinity true 0 (by decide) (by decide)
  obtain ⟨⟨v, e'⟩, hret⟩ := Option.isSome_iff_exists.1 hsome
  have hret' := hret
  rw [minimax_eq] at hret'
  have ha : table_answer bound_engine 0 1 (-search_infinity) search_infinity = none := by
    decide
  rw [ha] at hret'
  dsimp only at hret'
  rw [(search_node_eq sample_table sample_sort _ bound_engine initial_state 1 _ _
    (-search_infinity) search_infinity true 0 _).2.2.2
    (initial_state_searched 1 (by decide))] at hret'
  cases hl : node_loop sample_table sample_sort (child_call sample_table sample_sort 1 1)
      bound_engine initial_state 1
      (lookup_window bound_engine 0 1 (-search_infinity) search_infinity).1
      (lookup_window bound_engine 0 1 (-search_infinity) search_infinity).2 true 0
      (lookup_hint bound_engine 0) with
  | none => rw [hl] at hret'; simp at hret'
  | some st =>
    rw [hl] at hret'
    simp only [Option.map_some', Option.some.injEq, Prod.mk.injEq] at hret'
    obtain ⟨hv, he⟩ := hret'
    have htable := node_loop_table_depth_one sample_table sample_sort 1 bound_engine
      initial_state _ _ true 0 _ st hl
    refine ⟨v, e', st, hret, ?_, ?_, ?_⟩
    · rw [htable]; rfl
    · rw [← he, ← hv]; rfl
    · rw [← he]
      dsimp only
      rw [find_insert_same]
      rfl

/-- C24, amended: a `minimax` call that searches its children stores an entry
of the depth of the call for its fingerprint, whatever the table holds there
(the table after the call is the table after the loop with that insertion). An
entry the lookup at the head of the call found is then either of smaller depth
than the call, or a bound (flag not 0) of at least the depth of the call that
left the window open; in the second case the stored entry can be shallower than
the entry found. -/
theorem store_is_unconditional (zobrist_table : Int → Int → Int → Nat)
    (std_sort : (point → point → Bool) → List point → List point) (fuel : Nat) (e : engine)
    (board : chess_info) (depth alpha beta : Int) (maximizing : Bool) (hash : Nat) (v : Int)
    (e' : engine)
    (hret : minimax zobrist_table std_sort (fuel + 1) e board depth alpha beta maximizing hash
      = some (v, e'))
    (hmiss : table_answer e hash depth alpha beta = none)
    (hsearch : ¬ static_return board depth) :
    (∃ st : frame,
      node_loop zobrist_table std_sort (child_call zobrist_table std_sort fuel depth) e board
        depth (lookup_window e hash depth alpha beta).1
        (lookup_window e hash depth alpha beta).2 maximizing hash (lookup_hint e hash)
          = some st ∧
      e'.trans_table = st.e.trans_table.insert hash
        ⟨v, if v ≤ alpha then 2 else if v ≥ beta then 1 else 0, depth,
          st.best_move_this_node⟩) ∧
    (e'.trans_table.find hash).map (fun entry => entry.depth) = some depth ∧
    (∀ found : TTEntry, e.trans_table.find hash = some found →
      found.depth < depth ∨
        (found.depth ≥ depth ∧ found.flag ≠ 0 ∧
          (lookup_window e hash depth alpha beta).1
            < (lookup_window e hash depth alpha beta).2)) := by
  have hret' := hret
  rw [minimax_eq, hmiss] at hret'
  dsimp only at hret'
  rw [(search_node_eq zobrist_table std_sort _ e board depth _ _ alpha beta maximizing
    hash _).2.2.2 hsearch] at hret'
  cases hl : node_loop zobrist_table std_sort
      (child_call zobrist_table std_sort fuel depth) e board depth
      (lookup_window e hash depth alpha beta).1 (lookup_window e hash depth alpha beta).2
      maximizing hash (lookup_hint e hash) with
  | none => rw [hl] at hret'; simp at hret'
  | some st =>
    rw [hl] at hret'
    simp only [Option.map_some', Option.some.injEq, Prod.mk.injEq] at hret'
    obtain ⟨hv, he⟩ := hret'
    refine ⟨⟨st, rfl, ?_⟩, ?_, ?_⟩
    · rw [← he, ← hv]; rfl
    · rw [← he]
      dsimp only
      rw [find_insert_same]
      rfl
    · intro found hfound
      unfold table_answer at hmiss
      unfold lookup_window
      rw [hfound] at hmiss ⊢
      dsimp only at hmiss ⊢
      by_cases hd : found.depth ≥ depth
      · right
        simp only [hd, if_true] at hmiss ⊢
        by_cases h0 : found.flag = 0
        · simp [h0] at hmiss
        · simp only [h0, if_false] at hmiss
          refine ⟨trivial, h0, ?_⟩
          by_contra hcon
          rw [if_pos (by omega)] at hmiss
          exact absurd hmiss (by simp)
      · left
        omega

/-- The amended C24 on the call of `deeper_entry_overwritten`. -/
theorem store_is_unconditional_witness :
    table_answer bound_engine 0 1 (-search_infinity) search_infinity = none ∧
      ¬ static_return initial_state 1 ∧
      ∃ (v : Int) (e' : engine),
        minimax sample_table sample_sort 2 bound_engine initial_state 1 (-search_infinity)
          search_infinity true 0 = some (v, e') ∧
        (e'.trans_table.find 0).map (fun entry => entry.depth) = some 1 := by
  refine ⟨by decide, initial_state_searched 1 (by decide), ?_⟩
  have hsome := minimax_returns sample_table sample_sort 2 bound_engine initial_state 1
    (-search_infinity) search_infinity true 0 (by decide) (by decide)
  obtain ⟨⟨v, e'⟩, hret⟩ := Option.isSome_iff_exists.1 hsome
  exact ⟨v, e', hret, (store_is_unconditional sample_table sample_sort 1 bound_engine
    initial_state 1 (-search_infinity) search_infinity true 0 v e' hret (by decide)
    (initial_state_searched 1 (by decide))).2.1⟩

theorem order_before_eq (history_table : Int → Int → Int) (hash_move a b : point) :
    order_before history_table hash_move a b
      = decide (order_key history_table hash_move a > order_key history_table hash_move b) := by
  rfl

theorem order_before_false (history_table : Int → Int → Int) (hash_move a b : point) :
    order_before history_table hash_move b a = false ↔
      order_key history_table hash_move b ≤ order_key history_table hash_move a := by
  rw [order_before_eq, decide_eq_false_iff_not]
  omega

theorem insert_sorted_perm (before : point → point → Bool) (a : point) (l : List point) :
    (insert_sorted before a l).Perm (a :: l) := by
  induction l with
  | nil => exact List.Perm.refl _
  | cons b rest ih =>
    unfold insert_sorted
    split_ifs
    · exact (List.Perm.cons b ih).trans (List.Perm.swap a b rest)
    · exact List.Perm.refl _

theorem insert_sorted_pairwise (history_table : Int → Int → Int) (hash_move a : point)
    (l : List point)
    (hl : l.Pairwise (fun a b => order_before history_table hash_move b a = false)) :
    (insert_sorted (order_before history_table hash_move) a l).Pairwise
      (fun a b => order_before history_table hash_move b a = false) := by
  induction l with
  | nil => exact List.pairwise_singleton _ _
  | cons b rest ih =>
    rw [List.pairwise_cons] at hl
    unfold insert_sorted
    split_ifs with hba
    · rw [List.pairwise_cons]
      refine ⟨?_, ih hl.2⟩
      intro x hx
      rcases List.mem_cons.1 ((insert_sorted_perm _ a rest).subset hx) with hx | hx
      · subst hx
        rw [order_before_eq, decide_eq_true_eq] at hba
        rw [order_before_false]
        omega
      · exact hl.1 x hx
    · rw [Bool.not_eq_true] at hba
      rw [List.pairwise_cons]
      refine ⟨?_, List.pairwise_cons.2 hl⟩
      intro x hx
      rcases List.mem_cons.1 hx with hx | hx
      · subst hx
        exact hba
      · have h1 := hl.1 x hx
        rw [order_before_false] at h1 hba ⊢
        omega

/-- The insertion sort used for concrete runs meets the contract of `std::sort`. -/
theorem sample_sort_contract : sort_contract sample_sort := by
  intro history_table hash_move moves
  unfold sample_sort
  induction moves with
  | nil => exact ⟨List.Perm.refl _, List.Pairwise.nil⟩
  | cons a rest ih =>
    rw [List.foldr_cons]
    exact ⟨(insert_sorted_perm _ a _).trans (List.Perm.cons a ih.1),
      insert_sorted_pairwise history_table hash_move a _ ih.2⟩

theorem order_key_hint (history_table : Int → Int → Int) (hash_move : point) :
    order_key history_table hash_move hash_move = 10000000 := by
  simp [order_key]

theorem order_key_other (history_table : Int → Int → Int) (hash_move m : point)
    (h : m ≠ hash_move) : order_key history_table hash_move m = history_table m.x m.y := by
  unfold order_key
  rw [if_neg]
  rintro ⟨hx, hy⟩
  apply h
  cases m
  cases hash_move
  simp_all

/-- C26, amended: `std::sort` leaves the candidates in non-increasing order of
the key, which is 10000000 for the hinted move and the history counter for any
other candidate. If the hinted move is among the candidates and every other
candidate has a counter below 10000000, the hinted move is tried first and the
others follow in non-increasing order of their counters. If another candidate
has a counter above 10000000, the hinted move is not first. -/
theorem hinted_move_first (std_sort : (point → point → Bool) → List point → List point)
    (hsort : sort_contract std_sort) (history_table : Int → Int → Int) (hash_move : point)
    (moves : List point) (hnodup : moves.Nodup) (hmem : hash_move ∈ moves) :
    (std_sort (order_before history_table hash_move) moves).Perm moves ∧
      (std_sort (order_before history_table hash_move) moves).Pairwise
        (fun a b => order_key history_table hash_move a
          ≥ order_key history_table hash_move b) ∧
      ((∀ m ∈ moves, m ≠ hash_move → history_table m.x m.y < 10000000) →
        ∃ rest : List point,
          std_sort (order_before history_table hash_move) moves = hash_move :: rest ∧
            hash_move ∉ rest ∧
            rest.Pairwise (fun a b => history_table a.x a.y ≥ history_table b.x b.y)) ∧
      ((∃ m ∈ moves, m ≠ hash_move ∧ history_table m.x m.y > 10000000) →
        (std_sort (order_before history_table hash_move) moves).head? ≠ some hash_move) := by
  obtain ⟨hperm, hpair⟩ := hsort history_table hash_move moves
  have hkeys : (std_sort (order_before history_table hash_move) moves).Pairwise
      (fun a b => order_key history_table hash_move a
        ≥ order_key history_table hash_move b) :=
    hpair.imp (fun h => (order_before_false _ _ _ _).1 h)
  refine ⟨hperm, hkeys, ?_, ?_⟩
  · intro hbound
    have hnd : (std_sort (order_before history_table hash_move) moves).Nodup :=
      hperm.nodup_iff.2 hnodup
    have hin : hash_move ∈ std_sort (order_before history_table hash_move) moves :=
      hperm.mem_iff.2 hmem
    cases hL : std_sort (order_before history_table hash_move) moves with
    | nil => rw [hL] at hin; exact absurd hin (List.not_mem_nil _)
    | cons first rest =>
      rw [hL] at hin hnd hkeys hperm
      rw [List.pairwise_cons] at hkeys
      rw [List.nodup_cons] at hnd
      have hfirst : first = hash_move := by
        by_contra hne
        rcases List.mem_cons.1 hin with h | h
        · exact hne h.symm
        · have h1 := hkeys.1 hash_move h
          rw [order_key_hint, order_key_other _ _ _ hne] at h1
          have h2 := hbound first (hperm.mem_iff.1 (List.mem_cons_self _ _)) hne
          omega
      subst hfirst
      refine ⟨rest, rfl, hnd.1, ?_⟩
      refine hkeys.2.imp_of_mem ?_
      intro a b ha hb hab
      have hane : a ≠ first := fun h => hnd.1 (h ▸ ha)
      have hbne : b ≠ first := fun h => hnd.1 (h ▸ hb)
      rw [order_key_other _ _ _ hane, order_key_other _ _ _ hbne] at hab
      exact hab
  · rintro ⟨m, hm, hne, hbig⟩ hhead
    have hin : m ∈ std_sort (order_before history_table hash_move) moves :=
      hperm.mem_iff.2 hm
    cases hL : std_sort (order_before history_table hash_move) moves with
    | nil => rw [hL] at hin; exact absurd hin (List.not_mem_nil _)
    | cons first rest =>
      rw [hL] at hin hkeys hhead
      simp only [List.head?_cons, Option.some.injEq] at hhead
      subst hhead
      rw [List.pairwise_cons] at hkeys
      rcases List.mem_cons.1 hin with h | h
      · exact hne h
      · have h1 := hkeys.1 m h
        rw [order_key_hint, order_key_other _ _ _ hne] at h1
        omega

theorem one_stone_state_candidates :
    (⟨7, 7⟩ : point) ∈ get_moves one_stone_state ∧
      (⟨8, 8⟩ : point) ∈ get_moves one_stone_state ∧ (get_moves one_stone_state).Nodup := by
  have hp : has_pieces one_stone_state = true := by
    rw [has_pieces_iff]
    exact ⟨8, 7, by decide, by decide, by decide, by decide, by decide⟩
  refine ⟨?_, ?_, ?_⟩
  · rw [mem_get_moves one_stone_state hp]
    decide
  · rw [mem_get_moves one_stone_state hp]
    decide
  · refine (get_moves_pairwise one_stone_state hp).imp ?_
    intro a b hab he
    subst he
    unfold point.lt at hab
    simp at hab

/-- C26 fails for counters that have reached the key of the hint: with one
stone at (8,7), the counter 10000001 at the candidate (7,7) and the hint
(8,8), which is a candidate, every sort that meets the contract of `std::sort`
(the insertion sort `sample_sort` does) puts a move other than the hint first. -/
theorem hinted_move_not_first :
    (⟨8, 8⟩ : point) ∈ get_moves one_stone_state ∧
      hot_history 7 7 = 10000001 ∧
      sort_contract sample_sort ∧
      ∀ std_sort : (point → point → Bool) → List point → List point,
        sort_contract std_sort →
          (std_sort (order_before hot_history ⟨8, 8⟩) (get_moves one_stone_state)).head?
            ≠ some ⟨8, 8⟩ := by
  refine ⟨one_stone_state_candidates.2.1, rfl, sample_sort_contract, ?_⟩
  intro std_sort hsort
  obtain ⟨hperm, hpair⟩ := hsort hot_history ⟨8, 8⟩ (get_moves one_stone_state)
  intro hhead
  have hin : (⟨7, 7⟩ : point) ∈
      std_sort (order_before hot_history ⟨8, 8⟩) (get_moves one_stone_state) :=
    hperm.mem_iff.2 one_stone_state_candidates.1
  cases hL : std_sort (order_before hot_history ⟨8, 8⟩) (get_moves one_stone_state) with
  | nil => rw [hL] at hin; exact absurd hin (List.not_mem_nil _)
  | cons first rest =>
    rw [hL] at hin hpair hhead
    simp only [List.head?_cons, Option.some.injEq] at hhead
    subst hhead
    rw [List.pairwise_cons] at hpair
    rcases List.mem_cons.1 hin with h | h
    · exact absurd h (by decide)
    · have h1 := hpair.1 ⟨7, 7⟩ h
      revert h1
      decide

/-- The amended C26 on the candidates of `one_stone_state` with the hint (8,8)
and the counters of a fresh engine, all 0. -/
theorem hinted_move_first_witness :
    sort_contract sample_sort ∧ (get_moves one_stone_state).Nodup ∧
      (⟨8, 8⟩ : point) ∈ get_moves one_stone_state ∧
      (sample_sort (order_before fresh_engine.history_table ⟨8, 8⟩)
          (get_moves one_stone_state)).Perm (get_moves one_stone_state) ∧
      ∃ rest : List point,
        sample_sort (order_before fresh_engine.history_table ⟨8, 8⟩)
            (get_moves one_stone_state) = ⟨8, 8⟩ :: rest ∧
          (⟨8, 8⟩ : point) ∉ rest ∧
          rest.Pairwise (fun a b => fresh_engine.history_table a.x a.y
            ≥ fresh_engine.history_table b.x b.y) :=
  ⟨sample_sort_contract, one_stone_state_candidates.2.2, one_stone_state_candidates.2.1,
    (hinted_move_first sample_sort sample_sort_contract fresh_engine.history_table ⟨8, 8⟩
      (get_moves one_stone_state) one_stone_state_candidates.2.2
      one_stone_state_candidates.2.1).1,
    (hinted_move_first sample_sort sample_sort_contract fresh_engine.history_table ⟨8, 8⟩
      (get_moves one_stone_state) one_stone_state_candidates.2.2
      one_stone_state_candidates.2.1).2.2.1
      (fun _ _ _ => show (0 : Int) < 10000000 by decide)⟩

theorem spec_scanned_nil (decisive : Int → Bool) : spec_scanned decisive [] = [] := rfl

theorem spec_scanned_cons (decisive : Int → Bool) (s : Int) (rest : List Int) :
    spec_scanned decisive (s :: rest)
      = if decisive s then [s] else s :: spec_scanned decisive rest := by
  unfold spec_scanned spec_stop_index
  by_cases hs : decisive s = true
  · simp [hs, List.findIdx_cons]
  · rw [Bool.not_eq_true] at hs
    simp only [List.any_cons, hs, Bool.false_or, List.findIdx_cons, cond_false,
      List.length_cons, Nat.add_sub_cancel, Bool.false_eq_true, if_false]
    by_cases hany : rest.any decisive = true
    · simp only [hany, if_true, List.take_succ_cons]
    · simp only [hany, if_false]
      cases rest with
      | nil => rfl
      | cons r rs =>
        simp only [List.length_cons, Nat.add_sub_cancel, List.take_succ_cons,
          Bool.false_eq_true, if_false]

theorem spec_maximum_cons (s : Int) (rest : List Int) (h : rest ≠ []) :
    spec_maximum (s :: rest) = max s (spec_maximum rest) := by
  cases rest with
  | nil => exact absurd rfl h
  | cons r rs => rfl

theorem spec_minimum_cons (s : Int) (rest : List Int) (h : rest ≠ []) :
    spec_minimum (s :: rest) = min s (spec_minimum rest) := by
  cases rest with
  | nil => exact absurd rfl h
  | cons r rs => rfl

theorem spec_scanned_ne_nil (decisive : Int → Bool) (scores : List Int) (h : scores ≠ []) :
    spec_scanned decisive scores ≠ [] := by
  cases scores with
  | nil => exact absurd rfl h
  | cons s rest =>
    rw [spec_scanned_cons]
    split_ifs <;> simp

/-- The loop of the maximizer from any best value below 40000. -/
theorem aggregate_max_spec (scores : List Int) (moves : List point) (bv : Int) (bm : point)
    (hlen : scores.length = moves.length) (hbv : bv < 40000) :
    aggregate true (List.zip scores moves) bv bm =
      if scores ≠ [] ∧ spec_maximum (spec_scanned (fun s => decide (s ≥ 40000)) scores) > bv
      then moves.getD ((spec_scanned (fun s => decide (s ≥ 40000)) scores).indexOf
        (spec_maximum (spec_scanned (fun s => decide (s ≥ 40000)) scores))) ⟨-1, -1⟩
      else bm := by
  induction scores generalizing moves bv bm with
  | nil => simp [aggregate]
  | cons s ss ih =>
    cases moves with
    | nil => simp at hlen
    | cons m ms =>
      simp only [List.length_cons, Nat.add_right_cancel_iff] at hlen
      rw [List.zip_cons_cons, aggregate, spec_scanned_cons]
      simp only [if_true, decide_eq_true_eq, ne_eq, reduceCtorEq, not_false_eq_true, true_and]
      by_cases hdec : s ≥ 40000
      · have hgt : s > bv := by omega
        simp only [hdec, hgt, if_true, spec_maximum, List.indexOf_cons_self,
          List.getD_cons_zero]
      · simp only [hdec, if_false]
        by_cases hss : ss = []
        · subst hss
          cases ms with
          | nil =>
            simp only [List.zip_nil_right, aggregate, spec_scanned_nil, spec_maximum,
              List.indexOf_cons_self, List.getD_cons_zero]
            split_ifs <;> rfl
          | cons _ _ => simp at hlen
        · have hne := spec_scanned_ne_nil (fun s => decide (s ≥ 40000)) ss hss
          rw [spec_maximum_cons _ _ hne]
          by_cases hs : s > bv
          · simp only [hs, if_true]
            rw [ih ms s m hlen (by omega)]
            simp only [hss, ne_eq, not_false_eq_true, true_and]
            by_cases hG : spec_maximum (spec_scanned (fun s => decide (s ≥ 40000)) ss) > s
            · have hmax : max s (spec_maximum (spec_scanned (fun s => decide (s ≥ 40000)) ss))
                  = spec_maximum (spec_scanned (fun s => decide (s ≥ 40000)) ss) := by omega
              have hne' : s ≠ spec_maximum (spec_scanned (fun s => decide (s ≥ 40000)) ss) := by
                omega
              rw [hmax, if_pos hG, if_pos (by omega), List.indexOf_cons_ne _ hne',
                List.getD_cons_succ]
            · have hmax : max s (spec_maximum (spec_scanned (fun s => decide (s ≥ 40000)) ss))
                  = s := by omega
              rw [hmax, if_neg hG, if_pos hs, List.indexOf_cons_self, List.getD_cons_zero]
          · simp only [hs, if_false]
            rw [ih ms bv bm hlen hbv]
            simp only [hss, ne_eq, not_false_eq_true, true_and]
            by_cases hG : spec_maximum (spec_scanned (fun s => decide (s ≥ 40000)) ss) > bv
            · have hmax : max s (spec_maximum (spec_scanned (fun s => decide (s ≥ 40000)) ss))
                  = spec_maximum (spec_scanned (fun s => decide (s ≥ 40000)) ss) := by omega
              have hne' : s ≠ spec_maximum (spec_scanned (fun s => decide (s ≥ 40000)) ss) := by
                omega
              rw [hmax, if_pos hG, if_pos hG, List.indexOf_cons_ne _ hne',
                List.getD_cons_succ]
            · have hle : ¬ max s
                  (spec_maximum (spec_scanned (fun s => decide (s ≥ 40000)) ss)) > bv := by
                omega
              rw [if_neg hG, if_neg hle]

/-- The loop of the minimizer from any best value above -40000. -/
theorem aggregate_min_spec (scores : List Int) (moves : List point) (bv : Int) (bm : point)
    (hlen : scores.length = moves.length) (hbv : -40000 < bv) :
    aggregate false (List.zip scores moves) bv bm =
      if scores ≠ [] ∧ spec_minimum (spec_scanned (fun s => decide (s ≤ -40000)) scores) < bv
      then moves.getD ((spec_scanned (fun s => decide (s ≤ -40000)) scores).indexOf
        (spec_minimum (spec_scanned (fun s => decide (s ≤ -40000)) scores))) ⟨-1, -1⟩
      else bm := by
  induction scores generalizing moves bv bm with
  | nil => simp [aggregate]
  | cons s ss ih =>
    cases moves with
    | nil => simp at hlen
    | cons m ms =>
      simp only [List.length_cons, Nat.add_right_cancel_iff] at hlen
      rw [List.zip_cons_cons, aggregate, spec_scanned_cons]
      simp only [Bool.false_eq_true, if_false, decide_eq_true_eq, ne_eq, reduceCtorEq, not_false_eq_true, true_and]
      by_cases hdec : s ≤ -40000
      · have hgt : s < bv := by omega
        simp only [hdec, hgt, if_true, spec_minimum, List.indexOf_cons_self,
          List.getD_cons_zero]
      · simp only [hdec, if_false]
        by_cases hss : ss = []
        · subst hss
          cases ms with
          | nil =>
            simp only [List.zip_nil_right, aggregate, spec_scanned_nil, spec_minimum,
              List.indexOf_cons_self, List.getD_cons_zero]
            split_ifs <;> rfl
          | cons _ _ => simp at hlen
        · have hne := spec_scanned_ne_nil (fun s => decide (s ≤ -40000)) ss hss
          rw [spec_minimum_cons _ _ hne]
          by_cases hs : s < bv
          · simp only [hs, if_true]
            rw [ih ms s m hlen (by omega)]
            simp only [hss, ne_eq, not_false_eq_true, true_and]
            by_cases hG : spec_minimum (spec_scanned (fun s => decide (s ≤ -40000)) ss) < s
            · have hmax : min s (spec_minimum (spec_scanned (fun s => decide (s ≤ -40000)) ss))
                  = spec_minimum (spec_scanned (fun s => decide (s ≤ -40000)) ss) := by omega
              have hne' : s ≠ spec_minimum (spec_scanned (fun s => decide (s ≤ -40000)) ss) := by
                omega
              rw [hmax, if_pos hG, if_pos (by omega), List.indexOf_cons_ne _ hne',
                List.getD_cons_succ]
            · have hmax : min s (spec_minimum (spec_scanned (fun s => decide (s ≤ -40000)) ss))
                  = s := by omega
              rw [hmax, if_neg hG, if_pos hs, List.indexOf_cons_self, List.getD_cons_zero]
          · simp only [hs, if_false]
            rw [ih ms bv bm hlen hbv]
            simp only [hss, ne_eq, not_false_eq_true, true_and]
            by_cases hG : spec_minimum (spec_scanned (fun s => decide (s ≤ -40000)) ss) < bv
            · have hmax : min s (spec_minimum (spec_scanned (fun s => decide (s ≤ -40000)) ss))
                  = spec_minimum (spec_scanned (fun s => decide (s ≤ -40000)) ss) := by omega
              have hne' : s ≠ spec_minimum (spec_scanned (fun s => decide (s ≤ -40000)) ss) := by
                omega
              rw [hmax, if_pos hG, if_pos hG, List.indexOf_cons_ne _ hne',
                List.getD_cons_succ]
            · have hle : ¬ min s
                  (spec_minimum (spec_scanned (fun s => decide (s ≤ -40000)) ss)) < bv := by
                omega
              rw [if_neg hG, if_neg hle]

/-- The maximizer returns the first candidate whose score is decisive. -/
theorem aggregate_max_first_decisive (before : List Int) (s : Int) (after : List Int)
    (moves_before : List point) (m : point) (moves_after : List point) (bv : Int) (bm : point)
    (hlen : before.length = moves_before.length) (hbefore : ∀ x ∈ before, x < 40000)
    (hs : s ≥ 40000) (hbv : bv < 40000) :
    aggregate true (List.zip (before ++ s :: after) (moves_before ++ m :: moves_after)) bv bm
      = m := by
  induction before generalizing moves_before bv bm with
  | nil =>
    cases moves_before with
    | nil =>
      have hgt : s > bv := by omega
      simp [aggregate, hs, hgt]
    | cons _ _ => simp at hlen
  | cons x xs ih =>
    cases moves_before with
    | nil => simp at hlen
    | cons y ys =>
      simp only [List.length_cons, Nat.add_right_cancel_iff] at hlen
      have hx : ¬ x ≥ 40000 := by
        have := hbefore x (List.mem_cons_self _ _)
        omega
      simp only [List.cons_append, List.zip_cons_cons, aggregate, if_true, hx, if_false]
      apply ih ys _ _ hlen (fun z hz => hbefore z (List.mem_cons_of_mem _ hz))
      split_ifs <;> dsimp only <;> omega

/-- The minimizer returns the first candidate whose score is decisive. -/
theorem aggregate_min_first_decisive (before : List Int) (s : Int) (after : List Int)
    (moves_before : List point) (m : point) (moves_after : List point) (bv : Int) (bm : point)
    (hlen : before.length = moves_before.length) (hbefore : ∀ x ∈ before, -40000 < x)
    (hs : s ≤ -40000) (hbv : -40000 < bv) :
    aggregate false (List.zip (before ++ s :: after) (moves_before ++ m :: moves_after)) bv bm
      = m := by
  induction before generalizing moves_before bv bm with
  | nil =>
    cases moves_before with
    | nil =>
      have hgt : s < bv := by omega
      simp [aggregate, hs, hgt]
    | cons _ _ => simp at hlen
  | cons x xs ih =>
    cases moves_before with
    | nil => simp at hlen
    | cons y ys =>
      simp only [List.length_cons, Nat.add_right_cancel_iff] at hlen
      have hx : ¬ x ≤ -40000 := by
        have := hbefore x (List.mem_cons_self _ _)
        omega
      simp only [List.cons_append, List.zip_cons_cons, aggregate, Bool.false_eq_true, if_false,
        hx]
      apply ih ys _ _ hlen (fun z hz => hbefore z (List.mem_cons_of_mem _ hz))
      split_ifs <;> dsimp only <;> omega

/-- C28: for scores `s_0 .. s_(n-1)` of the `n >= 1` candidates in generation
order, let `j` be the index of the first score `>= 40000`, or `n - 1` when there
is none. If the maximum of `s_0 .. s_j` is greater than `-search_infinity`, the
last loop of `get_best_point` returns for the maximizer the candidate of least
index among `0 .. j` whose score is that maximum, and otherwise the placeholder
(-1,-1); for the minimizer the same holds with the minimum, `<= -40000` and
`search_infinity`. When a score is decisive the first decisive candidate is
returned. -/
theorem aggregation_rule (scores : List Int) (moves : List point)
    (hlen : scores.length = moves.length) (hne : scores ≠ []) :
    (aggregate true (List.zip scores moves) (-search_infinity) ⟨-1, -1⟩
        = if spec_maximum (spec_scanned (fun s => decide (s ≥ 40000)) scores)
              > -search_infinity
          then spec_max_choice scores moves else ⟨-1, -1⟩) ∧
      (aggregate false (List.zip scores moves) search_infinity ⟨-1, -1⟩
        = if spec_minimum (spec_scanned (fun s => decide (s ≤ -40000)) scores)
              < search_infinity
          then spec_min_choice scores moves else ⟨-1, -1⟩) ∧
      (∀ (before : List Int) (s : Int) (after : List Int) (moves_before : List point)
          (m : point) (moves_after : List point),
        scores = before ++ s :: after → moves = moves_before ++ m :: moves_after →
        before.length = moves_before.length →
        ((∀ x ∈ before, x < 40000) → s ≥ 40000 →
          aggregate true (List.zip scores moves) (-search_infinity) ⟨-1, -1⟩ = m) ∧
        ((∀ x ∈ before, -40000 < x) → s ≤ -40000 →
          aggregate false (List.zip scores moves) search_infinity ⟨-1, -1⟩ = m)) := by
  refine ⟨?_, ?_, ?_⟩
  · rw [aggregate_max_spec scores moves _ _ hlen (by decide)]
    simp only [hne, ne_eq, not_false_eq_true, true_and]
    rfl
  · rw [aggregate_min_spec scores moves _ _ hlen (by decide)]
    simp only [hne, ne_eq, not_false_eq_true, true_and]
    rfl
  · intro before s after moves_before m moves_after hs hm hl
    subst hs
    subst hm
    exact ⟨fun hb hd => aggregate_max_first_decisive before s after moves_before m moves_after
        _ _ hl hb hd (by decide),
      fun hb hd => aggregate_min_first_decisive before s after moves_before m moves_after
        _ _ hl hb hd (by decide)⟩

/-- The claim C28 on five scores: the tie of 7 at the indices 1 and 2 is below
the first decisive score, at index 3, whose candidate is returned. -/
theorem aggregation_rule_witness :
    [3, 7, 7, 40001, 50000].length
        = [(⟨1, 1⟩ : point), ⟨2, 2⟩, ⟨3, 3⟩, ⟨4, 4⟩, ⟨5, 5⟩].length ∧
      aggregate true (List.zip [3, 7, 7, 40001, 50000]
          [(⟨1, 1⟩ : point), ⟨2, 2⟩, ⟨3, 3⟩, ⟨4, 4⟩, ⟨5, 5⟩]) (-search_infinity) ⟨-1, -1⟩
        = (if spec_maximum (spec_scanned (fun s => decide (s ≥ 40000)) [3, 7, 7, 40001, 50000])
              > -search_infinity
          then spec_max_choice [3, 7, 7, 40001, 50000]
            [(⟨1, 1⟩ : point), ⟨2, 2⟩, ⟨3, 3⟩, ⟨4, 4⟩, ⟨5, 5⟩] else ⟨-1, -1⟩) ∧
      spec_max_choice [3, 7, 7, 40001, 50000]
        [(⟨1, 1⟩ : point), ⟨2, 2⟩, ⟨3, 3⟩, ⟨4, 4⟩, ⟨5, 5⟩] = ⟨4, 4⟩ ∧
      spec_max_choice [3, 7, 7, 5] [(⟨1, 1⟩ : point), ⟨2, 2⟩, ⟨3, 3⟩, ⟨4, 4⟩] = ⟨2, 2⟩ :=
  ⟨rfl, (aggregation_rule [3, 7, 7, 40001, 50000]
    [(⟨1, 1⟩ : point), ⟨2, 2⟩, ⟨3, 3⟩, ⟨4, 4⟩, ⟨5, 5⟩] rfl (by decide)).1, by decide, by decide⟩

/-- The vector `winning_candidates` after a first loop that did not return. -/
theorem mem_win_pass_snd (state : chess_info) (moves wc : List point)
    (hw : (win_pass state moves wc).1 = none) (m : point) :
    m ∈ (win_pass state moves wc).2 ↔ m ∈ wc ∨ (m ∈ moves ∧ winning_candidate state m) := by
  induction moves generalizing wc with
  | nil => simp [win_pass]
  | cons move rest ih =>
    unfold win_pass at hw ⊢
    simp only at hw ⊢
    have hpiece : (if state.turn = 0 then (1 : Int) else 2) = mover_piece state := rfl
    rw [hpiece] at hw ⊢
    by_cases hskip : (decide (state.turn = 0) &&
        !is_win (state.place move (mover_piece state)).pieces move &&
        black_forbidden (state.place move (mover_piece state)).pieces move) = true
    · rw [if_pos hskip] at hw ⊢
      rw [ih wc hw]
      have hnot : ¬ winning_candidate state move := by
        intro h
        apply h.1
        simp only [Bool.and_eq_true, decide_eq_true_eq, Bool.not_eq_true'] at hskip
        exact ⟨hskip.1.1, hskip.1.2, hskip.2⟩
      constructor
      · rintro (h | ⟨h1, h2⟩)
        · exact Or.inl h
        · exact Or.inr ⟨List.mem_cons_of_mem _ h1, h2⟩
      · rintro (h | ⟨h1, h2⟩)
        · exact Or.inl h
        · rcases List.mem_cons.1 h1 with h1 | h1
          · subst h1; exact absurd h2 hnot
          · exact Or.inr ⟨h1, h2⟩
    · rw [if_neg hskip] at hw ⊢
      have hns : ¬ (state.turn = 0 ∧
          is_win (state.place move (mover_piece state)).pieces move = false ∧
          black_forbidden (state.place move (mover_piece state)).pieces move = true) := by
        rintro ⟨h1, h2, h3⟩
        apply hskip
        simp [h1, h2, h3]
      by_cases hwin : is_win (state.place move (mover_piece state)).pieces move = true
      · rw [if_pos hwin] at hw
        simp at hw
      · rw [if_neg hwin] at hw ⊢
        by_cases ht : state.turn = 0
        · rw [if_pos ht] at hw ⊢
          rw [ih _ hw]
          by_cases hsc : evaluate (state.place move (mover_piece state)) ≥ 40000
          · rw [if_pos hsc]
            have hyes : winning_candidate state move := ⟨hns, by rw [if_pos ht]; exact hsc⟩
            constructor
            · rintro (h | ⟨h1, h2⟩)
              · rcases List.mem_append.1 h with h | h
                · exact Or.inl h
                · rw [List.mem_singleton] at h
                  subst h
                  exact Or.inr ⟨List.mem_cons_self _ _, hyes⟩
              · exact Or.inr ⟨List.mem_cons_of_mem _ h1, h2⟩
            · rintro (h | ⟨h1, h2⟩)
              · exact Or.inl (List.mem_append_left _ h)
              · rcases List.mem_cons.1 h1 with h1 | h1
                · subst h1
                  exact Or.inl (List.mem_append_right _ (List.mem_singleton_self _))
                · exact Or.inr ⟨h1, h2⟩
          · rw [if_neg hsc]
            have hnot : ¬ winning_candidate state move := by
              intro h
              have := h.2
              rw [if_pos ht] at this
              exact hsc this
            constructor
            · rintro (h | ⟨h1, h2⟩)
              · exact Or.inl h
              · exact Or.inr ⟨List.mem_cons_of_mem _ h1, h2⟩
            · rintro (h | ⟨h1, h2⟩)
              · exact Or.inl h
              · rcases List.mem_cons.1 h1 with h1 | h1
                · subst h1; exact absurd h2 hnot
                · exact Or.inr ⟨h1, h2⟩
        · rw [if_neg ht] at hw ⊢
          rw [ih _ hw]
          by_cases hsc : evaluate (state.place move (mover_piece state)) ≤ -40000
          · rw [if_pos hsc]
            have hyes : winning_candidate state move := ⟨hns, by rw [if_neg ht]; exact hsc⟩
            constructor
            · rintro (h | ⟨h1, h2⟩)
              · rcases List.mem_append.1 h with h | h
                · exact Or.inl h
                · rw [List.mem_singleton] at h
                  subst h
                  exact Or.inr ⟨List.mem_cons_self _ _, hyes⟩
              · exact Or.inr ⟨List.mem_cons_of_mem _ h1, h2⟩
            · rintro (h | ⟨h1, h2⟩)
              · exact Or.inl (List.mem_append_left _ h)
              · rcases List.mem_cons.1 h1 with h1 | h1
                · subst h1
                  exact Or.inl (List.mem_append_right _ (List.mem_singleton_self _))
                · exact Or.inr ⟨h1, h2⟩
          · rw [if_neg hsc]
            have hnot : ¬ winning_candidate state move := by
              intro h
              have := h.2
              rw [if_neg ht] at this
              exact hsc this
            constructor
            · rintro (h | ⟨h1, h2⟩)
              · exact Or.inl h
              · exact Or.inr ⟨List.mem_cons_of_mem _ h1, h2⟩
            · rintro (h | ⟨h1, h2⟩)
              · exact Or.inl h
              · rcases List.mem_cons.1 h1 with h1 | h1
                · subst h1; exact absurd h2 hnot
                · exact Or.inr ⟨h1, h2⟩

/-- C29: when neither the win pass nor the block pass returns and the first
loop collected a winning candidate, the bulk phase and the last loop work on
the vector of winning candidates alone: `get_best_point` is the aggregation of
the scores of those candidates, and a valid point it returns is one of them.
The winning candidates are the candidates that the first loop does not skip as
forbidden for Black and whose static score after the mover's stone is at least
40000 for Black to move, at most -40000 for White to move. -/
theorem search_restricted_to_winning (zobrist_table : Int → Int → Int → Nat)
    (run : parallel_run) (e : engine) (state : chess_info) (hr : state.round ≠ 0)
    (hw : (win_pass state (get_moves state) []).1 = none)
    (hb : block_pass state (get_moves state) = none)
    (hne : (win_pass state (get_moves state) []).2 ≠ []) :
    (∀ m : point, m ∈ (win_pass state (get_moves state) []).2 ↔
      m ∈ get_moves state ∧ winning_candidate state m) ∧
    get_best_point zobrist_table run e state =
      (aggregate (decide (state.turn = 0))
        (List.zip
          ((win_pass state (get_moves state) []).2.enum.map (fun t =>
            root_task zobrist_table run e state (root_hash zobrist_table state)
              (decide (state.turn = 0)) t.1 t.2))
          (win_pass state (get_moves state) []).2)
        (if state.turn = 0 then -search_infinity else search_infinity) ⟨-1, -1⟩,
       run.tables e) ∧
    ((get_best_point zobrist_table run e state).1.is_valid = true →
      (get_best_point zobrist_table run e state).1 ∈ (win_pass state (get_moves state) []).2) := by
  have hchar : ∀ m : point, m ∈ (win_pass state (get_moves state) []).2 ↔
      m ∈ get_moves state ∧ winning_candidate state m := by
    intro m
    rw [mem_win_pass_snd state (get_moves state) [] hw m]
    simp
  have hm : get_moves state ≠ [] := by
    intro h
    apply hne
    rw [List.eq_nil_iff_forall_not_mem]
    intro m hmem
    have := ((hchar m).1 hmem).1
    rw [h] at this
    exact absurd this (List.not_mem_nil _)
  have hcand : root_candidates state = (win_pass state (get_moves state) []).2 := by
    have hyes : (!(win_pass state (get_moves state) []).2.isEmpty) = true := by
      cases hwc : (win_pass state (get_moves state) []).2 with
      | nil => exact absurd hwc hne
      | cons a l => rfl
    unfold root_candidates
    dsimp only
    rw [if_pos hyes]
  have heq := get_best_point_of_search zobrist_table run e state hr hm hw hb
  have hscores : root_scores zobrist_table run e state
      = (win_pass state (get_moves state) []).2.enum.map (fun t =>
          root_task zobrist_table run e state (root_hash zobrist_table state)
            (decide (state.turn = 0)) t.1 t.2) := by
    unfold root_scores
    rw [hcand]
  rw [hscores, hcand] at heq
  refine ⟨hchar, heq, ?_⟩
  rw [heq]
  dsimp only
  intro hvalid
  have hsub : ∀ m ∈ (List.zip
      ((win_pass state (get_moves state) []).2.enum.map (fun t =>
        root_task zobrist_table run e state (root_hash zobrist_table state)
          (decide (state.turn = 0)) t.1 t.2))
      (win_pass state (get_moves state) []).2).map Prod.snd,
      m ∈ (win_pass state (get_moves state) []).2 := by
    intro m hmem
    obtain ⟨p, hp, rfl⟩ := List.mem_map.1 hmem
    exact (List.of_mem_zip hp).2
  generalize List.zip
      ((win_pass state (get_moves state) []).2.enum.map (fun t =>
        root_task zobrist_table run e state (root_hash zobrist_table state)
          (decide (state.turn = 0)) t.1 t.2))
      (win_pass state (get_moves state) []).2 = L at hvalid hsub ⊢
  by_cases ht : state.turn = 0
  · simp only [ht, decide_True, if_true] at hvalid ⊢
    rcases aggregate_max_cases _ (-search_infinity) ⟨-1, -1⟩ (by decide) with h | ⟨h, -⟩
    · exact hsub _ h
    · rw [h, placeholder_not_valid] at hvalid
      exact absurd hvalid (by decide)
  · simp only [ht, decide_False, if_false] at hvalid ⊢
    rcases aggregate_min_cases _ search_infinity ⟨-1, -1⟩ (by decide) with h | ⟨h, -⟩
    · exact hsub _ h
    · rw [h, placeholder_not_valid] at hvalid
      exact absurd hvalid (by decide)

set_option maxRecDepth 1000000 in
theorem open_three_state_no_win : ∀ x ∈ iota 1 16, ∀ y ∈ iota 1 16,
    open_three_state.pieces x y = 0 →
      is_win (set_piece open_three_state.pieces ⟨x, y⟩ (mover_piece open_three_state)) ⟨x, y⟩
        = false := by
  decide!

set_option maxRecDepth 1000000 in
theorem open_three_state_no_threat : ∀ x ∈ iota 1 16, ∀ y ∈ iota 1 16,
    open_three_state.pieces x y = 0 →
      is_win (set_piece open_three_state.pieces ⟨x, y⟩ (opponent_piece open_three_state))
        ⟨x, y⟩ = false := by
  decide!

set_option maxRecDepth 1000000 in
theorem open_three_state_has_pieces : has_pieces open_three_state = true := by
  rw [has_pieces_iff]
  exact ⟨8, 6, by decide, by decide, by decide, by decide, by decide!⟩

set_option maxRecDepth 1000000 in
theorem open_three_state_four :
    (⟨8, 5⟩ : point) ∈ get_moves open_three_state ∧
      black_forbidden (open_three_state.place ⟨8, 5⟩ 1).pieces ⟨8, 5⟩ = false ∧
      (evaluate_line (((iota 1 16).map (fun j => (⟨8, j⟩ : point))).map
        (symbol (open_three_state.place ⟨8, 5⟩ 1))) score_table_black).1 = 50000 := by
  refine ⟨?_, by decide!, by decide!⟩
  have hp := open_three_state_has_pieces
  rw [mem_get_moves open_three_state hp]
  decide!

set_option maxRecDepth 1000000 in
theorem open_three_state_white_counts :
    (∀ l ∈ scanned_lines,
      (l.map (symbol (open_three_state.place ⟨8, 5⟩ 1))).count '2' ≤ 2) ∧
      (scanned_lines.map (fun l =>
        60 * (((l.map (symbol (open_three_state.place ⟨8, 5⟩ 1))).count '2' : Nat) : Int))).sum
          ≤ 720 := by
  decide!

/-- A lower bound of the static score: the black scan of one scanned line less
60 for every White stone of every scanned line, on a board no line of which
holds more than two White stones. -/
theorem evaluate_lower_bound (board : chess_info) (l0 : List point) (hl0 : l0 ∈ scanned_lines)
    (hcount : ∀ l ∈ scanned_lines, (l.map (symbol board)).count '2' ≤ 2) :
    evaluate board ≥ (evaluate_line (l0.map (symbol board)) score_table_black).1
      - (scanned_lines.map (fun l =>
          60 * (((l.map (symbol board)).count '2' : Nat) : Int))).sum := by
  rw [evaluate_eq_sum]
  unfold line_score
  rw [sum_map_sub scanned_lines
    (fun l => (evaluate_line (l.map (symbol board)) score_table_black).1)
    (fun l => (evaluate_line (l.map (symbol board)) score_table_white).1)]
  have hW : (scanned_lines.map
      (fun l => (evaluate_line (l.map (symbol board)) score_table_white).1)).sum
        ≤ (scanned_lines.map (fun l =>
          60 * (((l.map (symbol board)).count '2' : Nat) : Int))).sum :=
    List.sum_le_sum (fun l hl => white_scan_le _ (hcount l hl))
  have hmem : (evaluate_line (l0.map (symbol board)) score_table_black).1 ∈
      scanned_lines.map
        (fun l => (evaluate_line (l.map (symbol board)) score_table_black).1) :=
    List.mem_map.2 ⟨l0, hl0, rfl⟩
  have hnn : ∀ x ∈ scanned_lines.map
      (fun l => (evaluate_line (l.map (symbol board)) score_table_black).1), 0 ≤ x := by
    intro x hx
    obtain ⟨l, -, rfl⟩ := List.mem_map.1 hx
    exact (evaluate_line_nonneg _).1
  have hB := List.single_le_sum hnn _ hmem
  linarith

theorem open_three_state_passes :
    (win_pass open_three_state (get_moves open_three_state) []).1 = none ∧
      block_pass open_three_state (get_moves open_three_state) = none ∧
      (⟨8, 5⟩ : point) ∈ (win_pass open_three_state (get_moves open_three_state) []).2 := by
  have hp := open_three_state_has_pieces
  have hw : (win_pass open_three_state (get_moves open_three_state) []).1 = none := by
    rw [win_pass_fst, List.find?_eq_none]
    intro m hm
    obtain ⟨hv, he⟩ := get_moves_valid_empty open_three_state hp m hm
    rw [forall_valid_of_iota (fun c => open_three_state.pieces c.x c.y = 0 →
      is_win (set_piece open_three_state.pieces c (mover_piece open_three_state)) c = false)
      open_three_state_no_win m hv he]
    decide
  have hb : block_pass open_three_state (get_moves open_three_state) = none := by
    rw [block_pass_eq, List.find?_eq_none]
    intro m hm
    obtain ⟨hv, he⟩ := get_moves_valid_empty open_three_state hp m hm
    rw [forall_valid_of_iota (fun c => open_three_state.pieces c.x c.y = 0 →
      is_win (set_piece open_three_state.pieces c (opponent_piece open_three_state)) c = false)
      open_three_state_no_threat m hv he]
    decide
  refine ⟨hw, hb, ?_⟩
  rw [mem_win_pass_snd open_three_state _ [] hw]
  right
  refine ⟨open_three_state_four.1, ?_, ?_⟩
  · rintro ⟨-, -, h⟩
    have := open_three_state_four.2.1
    rw [show mover_piece open_three_state = 1 from rfl, this] at h
    exact absurd h (by decide)
  · rw [if_pos (show open_three_state.turn = 0 from rfl)]
    have hrow : (iota 1 16).map (fun j => (⟨8, j⟩ : point)) ∈ scanned_lines := by
      unfold scanned_lines
      simp only [List.mem_append, List.mem_map]
      exact Or.inl (Or.inl (Or.inl (Or.inl (Or.inl ⟨8, by decide, rfl⟩))))
    have := evaluate_lower_bound (open_three_state.place ⟨8, 5⟩ 1) _ hrow
      open_three_state_white_counts.1
    have h2 := open_three_state_white_counts.2
    rw [open_three_state_four.2.2] at this
    show evaluate (open_three_state.place ⟨8, 5⟩ 1) ≥ 40000
    omega

/-- The claim C29 on `open_three_state`: no side wins at once, Black makes an
open four at (8,5), a winning candidate, and a valid point returned is a
winning candidate. -/
theorem search_restricted_to_winning_witness :
    open_three_state.round ≠ 0 ∧
      (win_pass open_three_state (get_moves open_three_state) []).1 = none ∧
      block_pass open_three_state (get_moves open_three_state) = none ∧
      (⟨8, 5⟩ : point) ∈ (win_pass open_three_state (get_moves open_three_state) []).2 ∧
      ((get_best_point sample_table idle_run fresh_engine open_three_state).1.is_valid = true →
        (get_best_point sample_table idle_run fresh_engine open_three_state).1
          ∈ (win_pass open_three_state (get_moves open_three_state) []).2) :=
  ⟨by decide, open_three_state_passes.1, open_three_state_passes.2.1,
    open_three_state_passes.2.2,
    (search_restricted_to_winning sample_table idle_run fresh_engine open_three_state
      (by decide) open_three_state_passes.1 open_three_state_passes.2.1
      (List.ne_nil_of_mem open_three_state_passes.2.2)).2.2⟩

theorem cell_at_add (p d : point) (k : Int) :
    cell_at (p.add d) d k = cell_at p d (k + 1) := by
  unfold cell_at point.add
  dsimp only
  congr 1 <;> ring

theorem cell_at_one (p d : point) : cell_at p d 1 = p.add d := by
  unfold cell_at point.add
  congr 1 <;> ring

/-- The loop of `collect_sequence` when all the cells are on the board. -/
theorem collect_loop_valid (board : Board) (delta : point) (steps : Nat) (origin : point)
    (sequence : List Char)
    (h : ∀ k : Nat, 1 ≤ k → k ≤ steps → (cell_at origin delta k).is_valid = true) :
    collect_loop board delta steps origin sequence
      = sequence ++ (List.range steps).map (fun (k : Nat) =>
          to_char (board (cell_at origin delta ((k : Int) + 1)).x
            (cell_at origin delta ((k : Int) + 1)).y)) := by
  induction steps generalizing origin sequence with
  | zero => simp [collect_loop]
  | succ n ih =>
    unfold collect_loop
    have h1 := h 1 (le_refl _) (by omega)
    rw [Nat.cast_one, cell_at_one] at h1
    simp only [h1, Bool.not_true, Bool.false_eq_true, if_false]
    rw [ih]
    · rw [List.range_succ_eq_map, List.map_cons, List.map_map, List.append_assoc]
      congr 1
      simp only [List.singleton_append, CharP.cast_eq_zero, zero_add, cell_at_one,
        List.cons.injEq, true_and]
      apply List.map_congr_left
      intro k _
      simp only [Function.comp_apply, Nat.cast_succ, cell_at_add]
    · intro k hk1 hk2
      rw [cell_at_add]
      exact_mod_cast h (k + 1) (by omega) (by omega)

/-- The loop of `collect_sequence` when a cell is off the board. -/
theorem collect_loop_invalid (board : Board) (delta : point) (steps : Nat) (origin : point)
    (sequence : List Char)
    (h : ∃ k : Nat, 1 ≤ k ∧ k ≤ steps ∧ (cell_at origin delta k).is_valid = false) :
    collect_loop board delta steps origin sequence = ['N'] := by
  induction steps generalizing origin sequence with
  | zero =>
    obtain ⟨k, h1, h2, -⟩ := h
    omega
  | succ n ih =>
    unfold collect_loop
    by_cases hv : (origin.add delta).is_valid = true
    · simp only [hv, Bool.not_true, Bool.false_eq_true, if_false]
      apply ih
      obtain ⟨k, h1, h2, h3⟩ := h
      have hk : k ≠ 1 := by
        rintro rfl
        rw [Nat.cast_one, cell_at_one, hv] at h3
        exact absurd h3 (by decide)
      refine ⟨k - 1, by omega, by omega, ?_⟩
      rw [cell_at_add]
      have : ((k - 1 : Nat) : Int) + 1 = (k : Int) := by omega
      rw [this]
      exact h3
    · rw [Bool.not_eq_true] at hv
      simp only [hv, Bool.not_false, if_true]

/-- The function `collect_sequence`: the symbols of the cells, or "N". -/
theorem collect_sequence_eq (board : Board) (origin delta : point) (steps : Nat) :
    ((∀ k : Nat, 1 ≤ k → k ≤ steps → (cell_at origin delta k).is_valid = true) →
      collect_sequence board origin delta steps
        = (List.range steps).map (fun (k : Nat) =>
            to_char (board (cell_at origin delta ((k : Int) + 1)).x
              (cell_at origin delta ((k : Int) + 1)).y))) ∧
    (¬ (∀ k : Nat, 1 ≤ k → k ≤ steps → (cell_at origin delta k).is_valid = true) →
      collect_sequence board origin delta steps = ['N']) := by
  unfold collect_sequence
  constructor
  · intro h
    rw [collect_loop_valid board delta steps origin [] h]
    rfl
  · intro h
    push_neg at h
    obtain ⟨k, h1, h2, h3⟩ := h
    apply collect_loop_invalid
    exact ⟨k, h1, h2, by simpa using h3⟩

theorem window_cell_before (p : point) (dx dy : Int) (idx t : Nat) (h : t ≤ idx) :
    window_cell p ⟨-dx, -dy⟩ idx t = cell_at p ⟨dx, dy⟩ (((idx - t : Nat) : Int)) := by
  unfold window_cell cell_at
  dsimp only
  have : ((idx - t : Nat) : Int) = (idx : Int) - (t : Int) := by omega
  rw [this]
  congr 1 <;> ring

theorem window_cell_self (p d : point) (idx : Nat) : window_cell p d idx idx = p := by
  unfold window_cell cell_at
  simp

/-- The string `before + "1" + after` of the detectors, when all the cells are
on the board, is the window read symbol by symbol. -/
theorem window_string (board : Board) (p : point) (dx dy : Int) (len idx : Nat)
    (hidx : idx < len) :
    ((List.range idx).map (fun (k : Nat) =>
        to_char (board (cell_at p ⟨dx, dy⟩ ((k : Int) + 1)).x
          (cell_at p ⟨dx, dy⟩ ((k : Int) + 1)).y))).reverse ++ ['1'] ++
      (List.range (len - idx - 1)).map (fun (k : Nat) =>
        to_char (board (cell_at p ⟨-dx, -dy⟩ ((k : Int) + 1)).x
          (cell_at p ⟨-dx, -dy⟩ ((k : Int) + 1)).y))
      = (List.range len).map (window_symbol board p ⟨-dx, -dy⟩ idx) := by
  apply List.ext_getElem?
  intro t
  by_cases h1 : t < idx
  · rw [List.append_assoc, List.getElem?_append_left (by simp; exact h1),
      List.getElem?_reverse (by simp; exact h1)]
    simp only [List.length_map, List.length_range, List.getElem?_map]
    rw [List.getElem?_range (by omega), List.getElem?_range (by omega)]
    simp only [Option.map_some', Option.some.injEq]
    unfold window_symbol
    rw [if_neg (by omega), window_cell_before p dx dy idx t (by omega)]
    have : (((idx - 1 - t : Nat) : Int) + 1) = ((idx - t : Nat) : Int) := by omega
    rw [this]
  · by_cases h2 : t = idx
    · subst h2
      rw [List.append_assoc, List.getElem?_append_right (by simp)]
      simp only [List.length_reverse, List.length_map, List.length_range, Nat.sub_self,
        List.singleton_append, List.getElem?_cons_zero, List.getElem?_map]
      rw [List.getElem?_range hidx]
      simp [window_symbol]
    · rw [List.getElem?_append_right (by simp; omega)]
      simp only [List.length_append, List.length_reverse, List.length_map, List.length_range,
        List.length_singleton, List.getElem?_map]
      by_cases h3 : t < len
      · rw [List.getElem?_range (by omega), List.getElem?_range h3]
        simp only [Option.map_some', Option.some.injEq]
        unfold window_symbol window_cell
        rw [if_neg h2]
        have : (((t - (idx + 1) : Nat) : Int) + 1) = (t : Int) - (idx : Int) := by omega
        rw [this]
      · rw [List.getElem?_eq_none (by simp; omega), List.getElem?_eq_none (by simp; omega)]
        rfl

/-- The body of the innermost loop of the detectors is the match of the window
that has `origin` at position `idx`, read in the direction `(-dx, -dy)`. -/
theorem pattern_at_iff (board : Board) (p : point) (dx dy : Int) (pattern : List Char)
    (idx : Nat) (hp : p.is_valid = true) (hidx : idx < pattern.length)
    (hN : 'N' ∉ pattern) :
    pattern_at board p dx dy pattern idx = true ↔
      window_matches board p ⟨-dx, -dy⟩ pattern idx := by
  have hget : pattern.getD idx '1' = pattern[idx] := by
    rw [List.getD_eq_getElem?_getD, List.getElem?_eq_getElem hidx]
    rfl
  have hsome : pattern[idx]? = some pattern[idx] := List.getElem?_eq_getElem hidx
  unfold pattern_at window_matches
  rw [hget, hsome]
  by_cases h1 : pattern[idx] = '1'
  swap
  · have hb : (pattern[idx] != '1') = true := by simpa using h1
    rw [if_pos hb]
    constructor
    · intro h; exact absurd h (by decide)
    · rintro ⟨-, h, -⟩
      exact absurd (Option.some.inj h) h1
  have hb : ¬ (pattern[idx] != '1') = true := by simp [h1]
  rw [if_neg hb]
  simp only [Bool.and_eq_true, bne_iff_ne, ne_eq, beq_iff_eq]
  obtain ⟨b1, b2⟩ := collect_sequence_eq board p ⟨dx, dy⟩ idx
  obtain ⟨a1, a2⟩ := collect_sequence_eq board p ⟨-dx, -dy⟩ (pattern.length - idx - 1)
  have hstr := window_string board p dx dy pattern.length idx hidx
  constructor
  · rintro ⟨⟨hbn, han⟩, heq⟩
    have hVb : ∀ k : Nat, 1 ≤ k → k ≤ idx → (cell_at p ⟨dx, dy⟩ k).is_valid = true := by
      by_contra hcon
      exact hbn (by rw [b2 hcon]; rfl)
    have hVa : ∀ k : Nat, 1 ≤ k → k ≤ pattern.length - idx - 1 →
        (cell_at p ⟨-dx, -dy⟩ k).is_valid = true := by
      by_contra hcon
      exact han (a2 hcon)
    rw [b1 hVb, a1 hVa, hstr] at heq
    refine ⟨hidx, by rw [h1], ?_, ?_⟩
    · intro t ht
      by_cases ht1 : t < idx
      · rw [window_cell_before p dx dy idx t (by omega)]
        exact hVb (idx - t) (by omega) (by omega)
      · by_cases ht2 : t = idx
        · rw [ht2, window_cell_self]; exact hp
        · have := hVa (t - idx) (by omega) (by omega)
          unfold window_cell
          have hc : ((t - idx : Nat) : Int) = (t : Int) - (idx : Int) := by omega
          rw [← hc]
          exact this
    · intro t ht
      rw [← heq, List.getElem?_map, List.getElem?_range ht]
      rfl
  · rintro ⟨-, -, hvalid, hsym⟩
    have hVb : ∀ k : Nat, 1 ≤ k → k ≤ idx → (cell_at p ⟨dx, dy⟩ k).is_valid = true := by
      intro k hk1 hk2
      have := hvalid (idx - k) (by omega)
      rw [window_cell_before p dx dy idx (idx - k) (by omega)] at this
      have hc : idx - (idx - k) = k := by omega
      rw [hc] at this
      exact this
    have hVa : ∀ k : Nat, 1 ≤ k → k ≤ pattern.length - idx - 1 →
        (cell_at p ⟨-dx, -dy⟩ k).is_valid = true := by
      intro k hk1 hk2
      have := hvalid (idx + k) (by omega)
      unfold window_cell at this
      have hc : ((idx + k : Nat) : Int) - (idx : Int) = (k : Int) := by omega
      rw [hc] at this
      exact this
    have hpat : (List.range pattern.length).map (window_symbol board p ⟨-dx, -dy⟩ idx)
        = pattern := by
      apply List.ext_getElem?
      intro t
      by_cases ht : t < pattern.length
      · rw [hsym t ht, List.getElem?_map, List.getElem?_range ht]
        rfl
      · rw [List.getElem?_eq_none (by simp; omega), List.getElem?_eq_none (by omega)]
    rw [b1 hVb, a1 hVa]
    refine ⟨⟨?_, ?_⟩, by rw [hstr, hpat]⟩
    · intro hn
      apply hN
      rw [← hpat, ← hstr, hn]
      simp
    · intro hn
      apply hN
      rw [← hpat, ← hstr, hn]
      simp

/-- The flag `found` of a direction is the match of the opposite orientation. -/
theorem direction_found_iff (board : Board) (p : point) (patterns : List (List Char))
    (dx dy : Int) (hp : p.is_valid = true) (hN : ∀ pattern ∈ patterns, 'N' ∉ pattern) :
    direction_found board p patterns dx dy = true ↔
      orientation_matches board p patterns ⟨-dx, -dy⟩ := by
  unfold direction_found orientation_matches
  simp only [List.any_eq_true, List.mem_range]
  constructor
  · rintro ⟨pattern, hmem, idx, hidx, hat⟩
    exact ⟨pattern, hmem, idx,
      (pattern_at_iff board p dx dy pattern idx hp hidx (hN pattern hmem)).1 hat⟩
  · rintro ⟨pattern, hmem, idx, hw⟩
    exact ⟨pattern, hmem, idx, hw.1,
      (pattern_at_iff board p dx dy pattern idx hp hw.1 (hN pattern hmem)).2 hw⟩

/-- The counter `matches` is the number of directions with the flag `found`. -/
theorem count_matches_eq (board : Board) (p : point) (patterns : List (List Char)) :
    count_matches board p patterns
      = (if direction_found board p patterns (-1) 0 then 1 else 0)
        + (if direction_found board p patterns 0 (-1) then 1 else 0)
        + (if direction_found board p patterns (-1) (-1) then 1 else 0)
        + (if direction_found board p patterns (-1) 1 then 1 else 0) := by
  unfold count_matches dx_offsets dy_offsets
  simp only [List.zip_cons_cons, List.zip_nil_right, List.foldl_cons, List.foldl_nil]
  split_ifs <;> rfl

/-- A detector with patterns free of 'N' is true exactly when two of the four
orientations match. -/
theorem count_matches_iff (board : Board) (p : point) (patterns : List (List Char))
    (hp : p.is_valid = true) (hN : ∀ pattern ∈ patterns, 'N' ∉ pattern) :
    decide (count_matches board p patterns ≥ 2) = true ↔
      spec_double_shape board p patterns := by
  have m1 := direction_found_iff board p patterns (-1) 0 hp hN
  have m2 := direction_found_iff board p patterns 0 (-1) hp hN
  have m3 := direction_found_iff board p patterns (-1) (-1) hp hN
  have m4 := direction_found_iff board p patterns (-1) 1 hp hN
  simp only [neg_neg, neg_zero] at m1 m2 m3 m4
  rw [decide_eq_true_eq, count_matches_eq]
  unfold spec_double_shape orientations
  constructor
  · intro h
    by_cases b1 : direction_found board p patterns (-1) 0 = true
    · by_cases b2 : direction_found board p patterns 0 (-1) = true
      · exact ⟨⟨1, 0⟩, by simp, ⟨0, 1⟩, by simp, by decide, m1.1 b1, m2.1 b2⟩
      · by_cases b3 : direction_found board p patterns (-1) (-1) = true
        · exact ⟨⟨1, 0⟩, by simp, ⟨1, 1⟩, by simp, by decide, m1.1 b1, m3.1 b3⟩
        · by_cases b4 : direction_found board p patterns (-1) 1 = true
          · exact ⟨⟨1, 0⟩, by simp, ⟨1, -1⟩, by simp, by decide, m1.1 b1, m4.1 b4⟩
          · simp [b1, b2, b3, b4] at h
    · by_cases b2 : direction_found board p patterns 0 (-1) = true
      · by_cases b3 : direction_found board p patterns (-1) (-1) = true
        · exact ⟨⟨0, 1⟩, by simp, ⟨1, 1⟩, by simp, by decide, m2.1 b2, m3.1 b3⟩
        · by_cases b4 : direction_found board p patterns (-1) 1 = true
          · exact ⟨⟨0, 1⟩, by simp, ⟨1, -1⟩, by simp, by decide, m2.1 b2, m4.1 b4⟩
          · simp [b1, b2, b3, b4] at h
      · by_cases b3 : direction_found board p patterns (-1) (-1) = true
        · by_cases b4 : direction_found board p patterns (-1) 1 = true
          · exact ⟨⟨1, 1⟩, by simp, ⟨1, -1⟩, by simp, by decide, m3.1 b3, m4.1 b4⟩
          · simp [b1, b2, b3, b4] at h
        · by_cases b4 : direction_found board p patterns (-1) 1 = true
          · simp [b1, b2, b3, b4] at h
          · simp [b1, b2, b3, b4] at h
  · rintro ⟨d1, hd1, d2, hd2, hne, h1, h2⟩
    simp only [List.mem_cons, List.mem_singleton, List.not_mem_nil, or_false] at hd1 hd2
    have c1 : (if direction_found board p patterns (-1) 0 = true then (1 : Int) else 0) ≥ 0 := by
      split_ifs <;> decide
    have c2 : (if direction_found board p patterns 0 (-1) = true then (1 : Int) else 0) ≥ 0 := by
      split_ifs <;> decide
    have c3 : (if direction_found board p patterns (-1) (-1) = true then (1 : Int) else 0) ≥ 0 := by
      split_ifs <;> decide
    have c4 : (if direction_found board p patterns (-1) 1 = true then (1 : Int) else 0) ≥ 0 := by
      split_ifs <;> decide
    rcases hd1 with rfl | rfl | rfl | rfl <;> rcases hd2 with rfl | rfl | rfl | rfl <;>
      first
        | exact absurd rfl hne
        | (first
            | rw [if_pos (m1.2 h1)] at c1 ⊢
            | rw [if_pos (m2.2 h1)] at c2 ⊢
            | rw [if_pos (m3.2 h1)] at c3 ⊢
            | rw [if_pos (m4.2 h1)] at c4 ⊢
           first
            | rw [if_pos (m1.2 h2)] at c1 ⊢
            | rw [if_pos (m2.2 h2)] at c2 ⊢
            | rw [if_pos (m3.2 h2)] at c3 ⊢
            | rw [if_pos (m4.2 h2)] at c4 ⊢
           omega)

theorem detector_patterns_symbols :
    (∀ pattern ∈ triple_patterns, 'N' ∉ pattern) ∧
      (∀ pattern ∈ quadruple_patterns, 'N' ∉ pattern) := by
  decide

theorem window_cell_opposite (p d : point) (len idx t : Nat) (hidx : idx < len)
    (ht : t < len) :
    window_cell p (opposite d) (len - 1 - idx) t = window_cell p d idx (len - 1 - t) := by
  unfold window_cell cell_at opposite
  dsimp only
  have h1 : ((len - 1 - idx : Nat) : Int) = (len : Int) - 1 - (idx : Int) := by omega
  have h2 : ((len - 1 - t : Nat) : Int) = (len : Int) - 1 - (t : Int) := by omega
  rw [h1, h2]
  congr 1 <;> ring

/-- A window that reads as a pattern reads, in the opposite direction, as the
reversed pattern. -/
theorem window_matches_reverse (board : Board) (p d : point) (pattern : List Char)
    (idx : Nat) (h : window_matches board p d pattern idx) :
    window_matches board p (opposite d) pattern.reverse (pattern.length - 1 - idx) := by
  obtain ⟨hidx, hone, hvalid, hsym⟩ := h
  refine ⟨by rw [List.length_reverse]; omega, ?_, ?_, ?_⟩
  · rw [List.getElem?_reverse (by omega)]
    have : pattern.length - 1 - (pattern.length - 1 - idx) = idx := by omega
    rw [this]
    exact hone
  · intro t ht
    rw [List.length_reverse] at ht
    rw [window_cell_opposite p d pattern.length idx t hidx ht]
    exact hvalid _ (by omega)
  · intro t ht
    rw [List.length_reverse] at ht
    rw [List.getElem?_reverse ht, hsym _ (by omega)]
    unfold window_symbol
    rw [window_cell_opposite p d pattern.length idx t hidx ht]
    by_cases hc : t = pattern.length - 1 - idx
    · rw [if_pos hc, if_pos (by omega)]
    · rw [if_neg hc, if_neg (by omega)]

theorem detector_patterns_reverse :
    (∀ pattern ∈ triple_patterns, pattern.reverse ∈ triple_patterns) ∧
      (∀ pattern ∈ quadruple_patterns, pattern.reverse ∈ quadruple_patterns) := by
  decide

/-- For patterns closed under reversal an orientation matches whichever way
its windows are read. -/
theorem orientation_matches_opposite (board : Board) (p : point) (patterns : List (List Char))
    (hrev : ∀ pattern ∈ patterns, pattern.reverse ∈ patterns) (d : point)
    (h : orientation_matches board p patterns d) :
    orientation_matches board p patterns (opposite d) := by
  obtain ⟨pattern, hmem, idx, hw⟩ := h
  exact ⟨pattern.reverse, hrev pattern hmem, pattern.length - 1 - idx,
    window_matches_reverse board p d pattern idx hw⟩

/-- C30: for a cell `p` of the board, `is_double_three` (with the patterns
01110, 010110, 011010) and `is_double_four` (with 011110, 11110, 01111, 11011,
10111, 11101) are true exactly when for two different ones of the four
orientations there is a window of the line through `p` that lies on the
board, has `p` at a position where the pattern has '1', and reads as one of
the patterns when the own cell of `p` is taken as '1'. An orientation counts
once however many of its windows match, and it matches whichever way its
windows are read, both pattern lists being closed under reversal. -/
theorem double_shape_iff_two_orientations (board : Board) (p : point)
    (hp : p.is_valid = true) :
    (is_double_three board p = true ↔ spec_double_shape board p triple_patterns) ∧
      (is_double_four board p = true ↔ spec_double_shape board p quadruple_patterns) ∧
      triple_patterns = ["01110".toList, "010110".toList, "011010".toList] ∧
      quadruple_patterns = ["011110".toList, "11110".toList, "01111".toList, "11011".toList,
        "10111".toList, "11101".toList] ∧
      (∀ d : point, orientation_matches board p triple_patterns d →
        orientation_matches board p triple_patterns (opposite d)) ∧
      (∀ d : point, orientation_matches board p quadruple_patterns d →
        orientation_matches board p quadruple_patterns (opposite d)) :=
  ⟨count_matches_iff board p triple_patterns hp detector_patterns_symbols.1,
    count_matches_iff board p quadruple_patterns hp detector_patterns_symbols.2, rfl, rfl,
    orientation_matches_opposite board p triple_patterns detector_patterns_reverse.1,
    orientation_matches_opposite board p quadruple_patterns detector_patterns_reverse.2⟩

set_option maxRecDepth 1000000 in
theorem forbidden_block_double_three :
    is_double_three (set_piece forbidden_block_state.pieces ⟨2, 5⟩ 1) ⟨2, 5⟩ = true := by
  decide!

/-- The claim C30 at the cell (2,5) of `forbidden_block_state` with a Black
stone put there, which makes a double three. -/
theorem double_shape_iff_two_orientations_witness :
    (⟨2, 5⟩ : point).is_valid = true ∧
      is_double_three (set_piece forbidden_block_state.pieces ⟨2, 5⟩ 1) ⟨2, 5⟩ = true ∧
      spec_double_shape (set_piece forbidden_block_state.pieces ⟨2, 5⟩ 1) ⟨2, 5⟩
        triple_patterns :=
  ⟨by decide, forbidden_block_double_three,
    (double_shape_iff_two_orientations (set_piece forbidden_block_state.pieces ⟨2, 5⟩ 1)
      ⟨2, 5⟩ (by decide)).1.1 forbidden_block_double_three⟩

/-! ## Termination and bounds -/

/-- A frame of remaining depth 0 makes no recursive call: its result does not
depend on what the recursive call would do. -/
theorem search_node_leaf (zobrist_table : Int → Int → Int → Nat)
    (std_sort : (point → point → Bool) → List point → List point)
    (child child' : engine → chess_info → Int → Int → Bool → Nat → Option (Int × engine))
    (e : engine) (board : chess_info) (alpha beta alpha_orig beta_orig : Int)
    (maximizing : Bool) (hash : Nat) (hash_move : point) :
    search_node zobrist_table std_sort child e board 0 alpha beta alpha_orig beta_orig
        maximizing hash hash_move
      = search_node zobrist_table std_sort child' e board 0 alpha beta alpha_orig beta_orig
          maximizing hash hash_move := by
  obtain ⟨c1, c2, c3, -⟩ := search_node_eq zobrist_table std_sort child e board 0 alpha beta
    alpha_orig beta_orig maximizing hash hash_move
  obtain ⟨d1, d2, d3, -⟩ := search_node_eq zobrist_table std_sort child' e board 0 alpha beta
    alpha_orig beta_orig maximizing hash hash_move
  by_cases h1 : evaluate board ≥ 40000
  · rw [c1 h1, d1 h1]
  · by_cases h2 : evaluate board ≤ -40000
    · rw [c2 h2, d2 h2]
    · rw [c3 (by omega) (by omega) (Or.inl rfl), d3 (by omega) (by omega) (Or.inl rfl)]

/-- C31: for a remaining depth `depth >= 0`, whatever the board, the window and
the content of the tables, `minimax` returns within `depth` levels of nesting
below the initial call (`depth + 1` frames in all), and a larger bound on the
nesting gives the same result. Every frame is the table lookup followed by the
search of the node, whose only recursive calls are calls of `minimax` with
`depth - 1`; a frame of depth 0 makes no recursive call. -/
theorem minimax_terminates (zobrist_table : Int → Int → Int → Nat)
    (std_sort : (point → point → Bool) → List point → List point) (e : engine)
    (board : chess_info) (depth alpha beta : Int) (maximizing : Bool) (hash : Nat)
    (h0 : 0 ≤ depth) :
    (minimax zobrist_table std_sort (depth.toNat + 1) e board depth alpha beta maximizing
        hash).isSome = true ∧
      (∀ extra : Nat,
        minimax zobrist_table std_sort (depth.toNat + 1 + extra) e board depth alpha beta
            maximizing hash
          = minimax zobrist_table std_sort (depth.toNat + 1) e board depth alpha beta
              maximizing hash) ∧
      (∀ fuel : Nat,
        minimax zobrist_table std_sort (fuel + 1) e board depth alpha beta maximizing hash =
          match table_answer e hash depth alpha beta with
          | some v => some (v, e)
          | none =>
            search_node zobrist_table std_sort
              (fun e next_state alpha beta maximizing next_hash =>
                minimax zobrist_table std_sort fuel e next_state (depth - 1) alpha beta
                  maximizing next_hash)
              e board depth (lookup_window e hash depth alpha beta).1
              (lookup_window e hash depth alpha beta).2 alpha beta maximizing hash
              (lookup_hint e hash)) ∧
      (∀ (child child' :
          engine → chess_info → Int → Int → Bool → Nat → Option (Int × engine))
          (e : engine) (board : chess_info) (alpha beta alpha_orig beta_orig : Int)
          (maximizing : Bool) (hash : Nat) (hash_move : point),
        search_node zobrist_table std_sort child e board 0 alpha beta alpha_orig beta_orig
            maximizing hash hash_move
          = search_node zobrist_table std_sort child' e board 0 alpha beta alpha_orig
              beta_orig maximizing hash hash_move) := by
  have hfuel : depth < ((depth.toNat + 1 : Nat) : Int) := by
    push_cast
    omega
  refine ⟨minimax_returns zobrist_table std_sort _ e board depth alpha beta maximizing hash h0
      hfuel,
    fun extra => minimax_stable zobrist_table std_sort _ extra e board depth alpha beta
      maximizing hash h0 hfuel,
    fun fuel => minimax_eq zobrist_table std_sort fuel e board depth alpha beta maximizing hash,
    search_node_leaf zobrist_table std_sort⟩

/-- The claim C31 for a call of remaining depth 3 on the empty board: four
frames of nesting are enough. -/
theorem minimax_terminates_witness :
    (0 : Int) ≤ 3 ∧
      (minimax sample_table sample_sort ((3 : Int).toNat + 1) fresh_engine initial_state 3
        (-search_infinity) search_infinity true 0).isSome = true ∧
      ∀ extra : Nat,
        minimax sample_table sample_sort ((3 : Int).toNat + 1 + extra) fresh_engine
            initial_state 3 (-search_infinity) search_infinity true 0
          = minimax sample_table sample_sort ((3 : Int).toNat + 1) fresh_engine initial_state 3
              (-search_infinity) search_infinity true 0 :=
  ⟨by decide,
    (minimax_terminates sample_table sample_sort fresh_engine initial_state 3
      (-search_infinity) search_infinity true 0 (by decide)).1,
    (minimax_terminates sample_table sample_sort fresh_engine initial_state 3
      (-search_infinity) search_infinity true 0 (by decide)).2.1⟩

theorem score_tables_entries :
    (∀ entry ∈ score_table_black,
      5 ≤ entry.s.length ∧ 0 ≤ entry.score ∧ entry.score ≤ 50000) ∧
    (∀ entry ∈ score_table_white,
      5 ≤ entry.s.length ∧ 0 ≤ entry.score ∧ entry.score ≤ 50000) := by
  decide

theorem sum_const_le (ms : List counted_match) (K : Nat) (w : counted_match → Nat)
    (h : ∀ m ∈ ms, K ≤ w m) : K * ms.length ≤ (ms.map w).sum := by
  induction ms with
  | nil => simp
  | cons m rest ih =>
    simp only [List.length_cons, List.map_cons, List.sum_cons]
    have h1 := h m (List.mem_cons_self _ _)
    have h2 := ih (fun m' hm' => h m' (List.mem_cons_of_mem _ hm'))
    rw [Nat.mul_succ]
    omega

theorem sum_filter_le (ms : List counted_match) (keep : counted_match → Bool)
    (w : counted_match → Nat) : ((ms.filter keep).map w).sum ≤ (ms.map w).sum := by
  induction ms with
  | nil => simp
  | cons m rest ih =>
    by_cases hk : keep m = true
    · rw [List.filter_cons_of_pos hk]
      simp only [List.map_cons, List.sum_cons]
      omega
    · rw [List.filter_cons_of_neg hk]
      simp only [List.map_cons, List.sum_cons]
      omega

/-- The spans of the counted matches fit into the line. -/
theorem matches_length_sum (line : List Char) (table : List pattern_entry)
    (htable : ∀ entry ∈ table, entry.s ≠ [] ∧ '3' ∉ entry.s) :
    ((evaluate_line_matches line table).map (fun m => m.entry.s.length)).sum
      ≤ line.length := by
  obtain ⟨⟨hl, -, -, -, -, hsum3, -⟩, -, -⟩ := evaluate_line_invariant line table htable
  have hc := List.count_le_length '3' (evaluate_line line table).2
  omega

/-- A scan of a line of at most 15 cells against a table of patterns of at
least 5 symbols and scores between 0 and 50000 counts at most 3 matches and
returns at most 150000. -/
theorem scan_bounded (line : List Char) (hlen : line.length ≤ 15)
    (table : List pattern_entry)
    (htable : ∀ entry ∈ table, entry.s ≠ [] ∧ '3' ∉ entry.s)
    (hentries : ∀ entry ∈ table,
      5 ≤ entry.s.length ∧ 0 ≤ entry.score ∧ entry.score ≤ 50000) :
    (evaluate_line_matches line table).length ≤ 3 ∧
      0 ≤ (evaluate_line line table).1 ∧ (evaluate_line line table).1 ≤ 150000 := by
  obtain ⟨-, hsum, hmem⟩ := evaluate_line_invariant line table htable
  have hfit := matches_length_sum line table htable
  have hfive := sum_const_le (evaluate_line_matches line table) 5
    (fun m => m.entry.s.length) (fun m hm => (hentries _ (hmem m hm)).1)
  have hcount : (evaluate_line_matches line table).length ≤ 3 := by omega
  refine ⟨hcount, ?_, ?_⟩
  · rw [hsum]
    exact matches_sum_nonneg _ (fun m hm => (hentries _ (hmem m hm)).2.1)
  · rw [hsum]
    have h1 := matches_sum_le (evaluate_line_matches line table) 50000 (fun _ => 1)
      (fun m hm => by
        have := (hentries _ (hmem m hm)).2.2
        simpa using this)
    have h2 : ((evaluate_line_matches line table).map (fun _ => 1)).sum
        = (evaluate_line_matches line table).length := by
      simp
    rw [h2] at h1
    have h3 : (((evaluate_line_matches line table).length : Nat) : Int) ≤ 3 := by
      exact_mod_cast hcount
    omega

theorem sum_abs_le {α : Type} (l : List α) (f : α → Int) (K : Int)
    (h : ∀ a ∈ l, -K ≤ f a ∧ f a ≤ K) :
    -(K * (l.length : Int)) ≤ (l.map f).sum ∧ (l.map f).sum ≤ K * (l.length : Int) := by
  induction l with
  | nil => simp
  | cons a rest ih =>
    have h1 := h a (List.mem_cons_self _ _)
    have h2 := ih (fun b hb => h b (List.mem_cons_of_mem _ hb))
    simp only [List.map_cons, List.sum_cons, List.length_cons, Nat.cast_succ, mul_add, mul_one]
    omega

set_option maxRecDepth 1000000 in
theorem scanned_lines_count : scanned_lines.length = 88 := by decide!

/-- C32: on every board, each of the 88 scanned lines has at most 15 cells, so
each of its two scans counts at most 3 disjoint matches of at most 50000 each
and returns between 0 and 150000; hence `evaluate` lies between -13200000 and
13200000, strictly between `-search_infinity` and `search_infinity`
(255803199), the sentinels given to a filtered root move. -/
theorem evaluate_below_infinity (board : chess_info) :
    scanned_lines.length = 88 ∧
      (∀ l ∈ scanned_lines, l.length ≤ 15 ∧
        (evaluate_line_matches (l.map (symbol board)) score_table_black).length ≤ 3 ∧
        (evaluate_line_matches (l.map (symbol board)) score_table_white).length ≤ 3 ∧
        0 ≤ (evaluate_line (l.map (symbol board)) score_table_black).1 ∧
        (evaluate_line (l.map (symbol board)) score_table_black).1 ≤ 3 * 50000 ∧
        0 ≤ (evaluate_line (l.map (symbol board)) score_table_white).1 ∧
        (evaluate_line (l.map (symbol board)) score_table_white).1 ≤ 3 * 50000) ∧
      -(88 * 3 * 50000) ≤ evaluate board ∧ evaluate board ≤ 88 * 3 * 50000 ∧
      (88 * 3 * 50000 : Int) = 13200000 ∧ (13200000 : Int) < search_infinity ∧
      search_infinity = 255803199 ∧
      -search_infinity < evaluate board ∧ evaluate board < search_infinity := by
  have hline : ∀ l ∈ scanned_lines, l.length ≤ 15 ∧
      (evaluate_line_matches (l.map (symbol board)) score_table_black).length ≤ 3 ∧
      (evaluate_line_matches (l.map (symbol board)) score_table_white).length ≤ 3 ∧
      0 ≤ (evaluate_line (l.map (symbol board)) score_table_black).1 ∧
      (evaluate_line (l.map (symbol board)) score_table_black).1 ≤ 3 * 50000 ∧
      0 ≤ (evaluate_line (l.map (symbol board)) score_table_white).1 ∧
      (evaluate_line (l.map (symbol board)) score_table_white).1 ≤ 3 * 50000 := by
    intro l hl
    have hlen := scanned_lines_length l hl
    have hlen' : (l.map (symbol board)).length ≤ 15 := by rw [List.length_map]; exact hlen
    obtain ⟨b1, b2, b3⟩ := scan_bounded _ hlen' score_table_black score_tables_patterns.1
      score_tables_entries.1
    obtain ⟨w1, w2, w3⟩ := scan_bounded _ hlen' score_table_white score_tables_patterns.2
      score_tables_entries.2
    exact ⟨hlen, b1, w1, b2, by omega, w2, by omega⟩
  have hsum := sum_abs_le scanned_lines (fun l => line_score (l.map (symbol board))) 150000
    (fun l hl => by
      obtain ⟨-, -, -, b2, b3, w2, w3⟩ := hline l hl
      dsimp only [line_score]
      constructor <;> omega)
  rw [← evaluate_eq_sum, scanned_lines_count] at hsum
  have hinf : search_infinity = 255803199 := by decide
  refine ⟨scanned_lines_count, hline, by omega, by omega, by decide, by rw [hinf]; decide,
    hinf, by omega, by omega⟩

/-- What the scan of a line against a table of nonempty patterns without the
marker satisfies: the inner loops exit within their bound, the counted matches
start at distinct positions, their spans are disjoint and hold the marker in
the final buffer, and an entry is counted at most `len / pattern length` times. -/
theorem scan_terminates (line : List Char) (table : List pattern_entry)
    (htable : ∀ entry ∈ table, entry.s ≠ [] ∧ '3' ∉ entry.s) :
    (∀ extra : Nat,
      evaluate_line_fuel (line.length + extra) line table = evaluate_line line table) ∧
    (evaluate_line_matches line table).Pairwise disjoint_spans ∧
    (evaluate_line_matches line table).Pairwise (fun m m' => m.start ≠ m'.start) ∧
    (∀ m ∈ evaluate_line_matches line table, ∀ i : Nat, m.covers i = true →
      (evaluate_line line table).2[i]? = some '3') ∧
    (∀ entry ∈ table,
      ((evaluate_line_matches line table).filter (fun m => decide (m.entry = entry))).length
        ≤ line.length / entry.s.length) := by
  obtain ⟨⟨-, -, hcov, hocc, hdis, -, -⟩, -, hmem⟩ := evaluate_line_invariant line table htable
  refine ⟨evaluate_line_stable line table htable, hdis, ?_, hcov, ?_⟩
  · refine List.Pairwise.imp_of_mem ?_ hdis
    intro m m' hm hm' hd heq
    have h1 := (hocc m hm).1
    have h2 := (hocc m' hm').1
    have l1 : 0 < m.entry.s.length := List.length_pos.2 h1
    have l2 : 0 < m'.entry.s.length := List.length_pos.2 h2
    unfold disjoint_spans at hd
    omega
  · intro entry hentry
    have hpos : 0 < entry.s.length := List.length_pos.2 (htable entry hentry).1
    rw [Nat.le_div_iff_mul_le hpos]
    have h1 := sum_const_le
      ((evaluate_line_matches line table).filter (fun m => decide (m.entry = entry)))
      entry.s.length (fun m => m.entry.s.length) (fun m hm => by
        have := (List.mem_filter.1 hm).2
        simp only [decide_eq_true_eq] at this
        simp [this])
    have h2 := sum_filter_le (evaluate_line_matches line table)
      (fun m => decide (m.entry = entry)) (fun m => m.entry.s.length)
    have h3 := matches_length_sum line table htable
    rw [Nat.mul_comm]
    omega

/-- C33: for every line (of any length, over any symbols) and each of the two
pattern tables, the `while` loops of `evaluate_line` exit within `len`
iterations, so a larger bound on the loop gives the same score and buffer. No
pattern of the tables is empty or contains the marker '3'; every counted match
leaves '3' on its whole span in the final buffer, two counted matches never
start at the same position and their spans are disjoint, and each table entry
is counted at most `len / pattern length` times. -/
theorem evaluate_line_terminates (line : List Char) :
    ((∀ entry ∈ score_table_black, entry.s ≠ [] ∧ '3' ∉ entry.s) ∧
      (∀ entry ∈ score_table_white, entry.s ≠ [] ∧ '3' ∉ entry.s)) ∧
    ∀ table ∈ [score_table_black, score_table_white],
      (∀ extra : Nat,
        evaluate_line_fuel (line.length + extra) line table = evaluate_line line table) ∧
      (evaluate_line_matches line table).Pairwise disjoint_spans ∧
      (evaluate_line_matches line table).Pairwise (fun m m' => m.start ≠ m'.start) ∧
      (∀ m ∈ evaluate_line_matches line table, ∀ i : Nat, m.covers i = true →
        (evaluate_line line table).2[i]? = some '3') ∧
      (∀ entry ∈ table,
        ((evaluate_line_matches line table).filter (fun m => decide (m.entry = entry))).length
          ≤ line.length / entry.s.length) := by
  refine ⟨score_tables_patterns, ?_⟩
  intro table htable
  simp only [List.mem_cons, List.mem_singleton, List.not_mem_nil, or_false] at htable
  rcases htable with h | h
  · rw [h]; exact scan_terminates line score_table_black score_tables_patterns.1
  · rw [h]; exact scan_terminates line score_table_white score_tables_patterns.2

/-! ## The claims on concrete states -/

set_option maxRecDepth 1000000 in
theorem win_state_four :
    is_win (set_piece win_state.pieces ⟨8, 4⟩ (mover_piece win_state)) ⟨8, 4⟩ = true := by decide!

/-- A state to which C1 applies: the open four of `win_state`. -/
theorem immediate_win_is_returned_witness :
    ∃ m : point, is_win (set_piece win_state.pieces m (mover_piece win_state)) m = true ∧
      m.is_valid = true ∧ win_state.pieces m.x m.y = 0 ∧
      ∀ (zobrist_table : Int → Int → Int → Nat) (run : parallel_run) (e : engine),
        get_best_point zobrist_table run e win_state = (m, e) :=
  immediate_win_is_returned win_state ⟨8, 4⟩ (by decide) (by decide) (by decide) win_state_four

set_option maxRecDepth 1000000 in
theorem block_state_only : ∀ x ∈ iota 1 16, ∀ y ∈ iota 1 16,
    block_state.pieces x y = 0 →
      is_win (set_piece block_state.pieces ⟨x, y⟩ (opponent_piece block_state)) ⟨x, y⟩ = true →
        (⟨x, y⟩ : point) = ⟨3, 5⟩ := by decide!

set_option maxRecDepth 1000000 in
theorem block_state_no_win : ∀ x ∈ iota 1 16, ∀ y ∈ iota 1 16,
    block_state.pieces x y = 0 →
      is_win (set_piece block_state.pieces ⟨x, y⟩ (mover_piece block_state)) ⟨x, y⟩ = false := by
  decide!

set_option maxRecDepth 1000000 in
theorem block_state_threat :
    is_win (set_piece block_state.pieces ⟨3, 5⟩ (opponent_piece block_state)) ⟨3, 5⟩ = true := by
  decide!

/-- A state to which the amended C2 applies: the single threat of `block_state`. -/
theorem unique_block_is_returned_witness :
    get_best_point sample_table idle_run fresh_engine block_state = (⟨3, 5⟩, fresh_engine) :=
  unique_block_is_returned block_state ⟨3, 5⟩ (by decide) (by decide) (by decide)
    block_state_threat
    (forall_valid_of_iota _ block_state_only) (forall_valid_of_iota _ block_state_no_win)
    sample_table idle_run fresh_engine

set_option maxRecDepth 1000000 in
theorem race_state_only : ∀ x ∈ iota 1 16, ∀ y ∈ iota 1 16,
    race_state.pieces x y = 0 →
      is_win (set_piece race_state.pieces ⟨x, y⟩ (opponent_piece race_state)) ⟨x, y⟩ = true →
        (⟨x, y⟩ : point) = ⟨3, 5⟩ := by decide!

set_option maxRecDepth 1000000 in
theorem race_state_passes :
    get_moves race_state ≠ [] ∧
      (win_pass race_state (get_moves race_state) []).1 = some ⟨1, 5⟩ ∧
      is_win (set_piece race_state.pieces ⟨3, 5⟩ (opponent_piece race_state)) ⟨3, 5⟩ = true := by
  decide!

/-- C2, counterexample: in `race_state` (round 8, Black to move) the opponent
has exactly one winning reply, the empty cell (3,5), yet `get_best_point`
returns (1,5), Black's own five, whatever the search would do. -/
theorem unique_block_not_returned :
    race_state.round ≥ 1 ∧
      (point.is_valid ⟨3, 5⟩ = true ∧ race_state.pieces 3 5 = 0 ∧
        is_win (set_piece race_state.pieces ⟨3, 5⟩ (opponent_piece race_state)) ⟨3, 5⟩ = true) ∧
      (∀ c : point, c.is_valid = true → race_state.pieces c.x c.y = 0 →
        is_win (set_piece race_state.pieces c (opponent_piece race_state)) c = true →
          c = ⟨3, 5⟩) ∧
      (∀ (zobrist_table : Int → Int → Int → Nat) (run : parallel_run) (e : engine),
        get_best_point zobrist_table run e race_state = (⟨1, 5⟩, e)) ∧
      (⟨1, 5⟩ : point) ≠ ⟨3, 5⟩ :=
  ⟨by decide, ⟨by decide, by decide, race_state_passes.2.2⟩,
    forall_valid_of_iota _ race_state_only,
    fun zt run e => get_best_point_of_win zt run e race_state ⟨1, 5⟩ (by decide)
      race_state_passes.1 race_state_passes.2.1,
    by decide⟩

set_option maxRecDepth 1000000 in
theorem crowded_state_cells : ∀ x ∈ iota 1 16, ∀ y ∈ iota 1 16,
    crowded_state.pieces x y = 0 ∨ crowded_state.pieces x y = 1 ∨ crowded_state.pieces x y = 2 := by
  decide!

set_option maxRecDepth 1000000 in
theorem crowded_state_placeholder (zobrist_table : Int → Int → Int → Nat) (run : parallel_run)
    (e : engine) : (get_best_point zobrist_table run e crowded_state).1 = ⟨-1, -1⟩ := by
  rfl

/-- C3, counterexample: in `crowded_state` (cells in 0..2, round 224, Black to
move) the only candidate (8,8) is filtered as forbidden, no pass returns, and
`get_best_point` returns the placeholder (-1,-1), which is not a valid point. -/
theorem placeholder_is_returned :
    (∀ i j : Int, 1 ≤ i → i ≤ 15 → 1 ≤ j → j ≤ 15 →
      crowded_state.pieces i j = 0 ∨ crowded_state.pieces i j = 1 ∨
        crowded_state.pieces i j = 2) ∧
      crowded_state.round ≥ 1 ∧
      (∀ (zobrist_table : Int → Int → Int → Nat) (run : parallel_run) (e : engine),
        (get_best_point zobrist_table run e crowded_state).1 = ⟨-1, -1⟩) ∧
      point.is_valid ⟨-1, -1⟩ = false :=
  ⟨forall_cells_of_iota _ crowded_state_cells, by decide, crowded_state_placeholder, by decide⟩

set_option maxRecDepth 1000000 in
theorem forbidden_block_state_moves :
    get_moves forbidden_block_state = [
      ⟨1, 1⟩, ⟨1, 2⟩, ⟨1, 3⟩, ⟨1, 4⟩, ⟨1, 5⟩, ⟨1, 6⟩, ⟨1, 7⟩, ⟨1, 8⟩,
      ⟨2, 5⟩, ⟨2, 6⟩, ⟨2, 7⟩, ⟨2, 8⟩, ⟨2, 9⟩,
      ⟨3, 1⟩, ⟨3, 2⟩, ⟨3, 3⟩, ⟨3, 4⟩, ⟨3, 7⟩, ⟨3, 8⟩, ⟨3, 9⟩,
      ⟨4, 1⟩, ⟨4, 2⟩, ⟨4, 3⟩, ⟨4, 4⟩, ⟨4, 6⟩, ⟨4, 8⟩, ⟨4, 9⟩,
      ⟨5, 3⟩, ⟨5, 4⟩, ⟨5, 5⟩, ⟨5, 6⟩, ⟨5, 7⟩, ⟨5, 8⟩, ⟨5, 9⟩,
      ⟨6, 3⟩, ⟨6, 4⟩, ⟨6, 5⟩, ⟨6, 6⟩, ⟨6, 7⟩, ⟨6, 8⟩, ⟨6, 9⟩] := by
  decide!

set_option maxRecDepth 1000000 in
theorem forbidden_block_state_candidates :
    (∀ m ∈ get_moves forbidden_block_state,
        is_win (set_piece forbidden_block_state.pieces m 1) m = false) ∧
      (∃ m ∈ get_moves forbidden_block_state,
        black_forbidden (set_piece forbidden_block_state.pieces m 1) m = false) ∧
      (⟨2, 5⟩ : point) ∈ get_moves forbidden_block_state ∧
      is_double_three (set_piece forbidden_block_state.pieces ⟨2, 5⟩ 1) ⟨2, 5⟩ = true := by
  rw [forbidden_block_state_moves]
  decide!

set_option maxRecDepth 1000000 in
theorem forbidden_block_state_passes :
    get_moves forbidden_block_state ≠ [] ∧
      (win_pass forbidden_block_state (get_moves forbidden_block_state) []).1 = none ∧
      block_pass forbidden_block_state (get_moves forbidden_block_state) = some ⟨2, 5⟩ := by
  refine ⟨List.ne_nil_of_mem forbidden_block_state_candidates.2.2.1, ?_, ?_⟩
  · rw [win_pass_fst, List.find?_eq_none]
    intro m hm
    rw [show mover_piece forbidden_block_state = 1 from rfl,
      forbidden_block_state_candidates.1 m hm]
    decide
  · rw [block_pass_eq, forbidden_block_state_moves]
    decide!

/-- C4, the code at the failing input: in `forbidden_block_state` Black is to
move at round 8, no candidate is an immediate win for Black, some candidate is
not forbidden, and the block pass makes `get_best_point` return the candidate
(2,5), at which a Black stone makes `is_double_three` true. -/
theorem forbidden_block_is_returned :
    forbidden_block_state.turn = 0 ∧ forbidden_block_state.round ≥ 1 ∧
      (∀ m ∈ get_moves forbidden_block_state,
        is_win (set_piece forbidden_block_state.pieces m 1) m = false) ∧
      (∃ m ∈ get_moves forbidden_block_state,
        black_forbidden (set_piece forbidden_block_state.pieces m 1) m = false) ∧
      (⟨2, 5⟩ : point) ∈ get_moves forbidden_block_state ∧
      is_double_three (set_piece forbidden_block_state.pieces ⟨2, 5⟩ 1) ⟨2, 5⟩ = true ∧
      (∀ (zobrist_table : Int → Int → Int → Nat) (run : parallel_run) (e : engine),
        get_best_point zobrist_table run e forbidden_block_state = (⟨2, 5⟩, e)) :=
  ⟨by decide, by decide, forbidden_block_state_candidates.1,
    forbidden_block_state_candidates.2.1, forbidden_block_state_candidates.2.2.1,
    forbidden_block_state_candidates.2.2.2,
    fun zt run e => get_best_point_of_block zt run e forbidden_block_state ⟨2, 5⟩ (by decide)
      forbidden_block_state_passes.1 forbidden_block_state_passes.2.1
      forbidden_block_state_passes.2.2⟩

/-- The first move of a game, to which C5 applies. -/
theorem first_move_is_center_witness :
    get_best_point sample_table idle_run fresh_engine initial_state = (⟨8, 8⟩, fresh_engine) :=
  first_move_is_center sample_table idle_run fresh_engine initial_state (by decide)

/-- Three moves to which C6 applies. -/
theorem incremental_hash_eq_from_scratch_witness :
    root_hash sample_table ⟨place_all sample_moves empty_board, 1, 3, ⟨7, 7⟩⟩
      = chained_hash sample_table sample_moves 0 :=
  (incremental_hash_eq_from_scratch sample_table sample_moves 1 3 ⟨7, 7⟩
    (by decide) (by decide)).1

set_option maxRecDepth 1000000 in
theorem win_state_cells : ∀ x ∈ iota 1 16, ∀ y ∈ iota 1 16,
    win_state.pieces x y = 0 ∨ win_state.pieces x y = 1 ∨ win_state.pieces x y = 2 := by
  decide!

/-- A board to which C7 applies. -/
theorem evaluate_swap_colors_witness :
    evaluate (swap_colors win_state) = - evaluate win_state :=
  (evaluate_swap_colors win_state (forall_cells_of_iota _ win_state_cells)).1

set_option maxRecDepth 1000000 in
theorem full_state_moves : get_moves full_state = [] := by decide!

/-- A full board, on which `get_moves` returns the empty list. -/
theorem get_moves_nil_full_witness :
    get_moves full_state = [] ∧
      ∀ i j : Int, 1 ≤ i → i ≤ 15 → 1 ≤ j → j ≤ 15 → full_state.pieces i j ≠ 0 :=
  ⟨full_state_moves, (get_moves_nil_full full_state).1 full_state_moves⟩

/-- A full board at round 225, to which C15 applies. -/
theorem no_candidate_returns_center_witness :
    get_best_point sample_table idle_run fresh_engine full_state = (⟨8, 8⟩, fresh_engine) :=
  no_candidate_returns_center sample_table idle_run fresh_engine full_state (by decide)
    full_state_moves

/-- The claim C12 at the cell (8,8) of `win_state`, which holds a Black stone. -/
theorem is_win_iff_run_of_five_witness :
    (⟨8, 8⟩ : point).is_valid = true ∧ win_state.pieces 8 8 = 1 ∧
      ((is_win win_state.pieces ⟨8, 8⟩ = true ↔
          ∃ d ∈ orientations, run_through win_state.pieces ⟨8, 8⟩ d 1 5) ∧
        (∀ d ∈ orientations, ∀ len : Nat, 6 ≤ len →
          run_through win_state.pieces ⟨8, 8⟩ d 1 len →
          ¬ run_through win_state.pieces ⟨8, 8⟩ d 1 5)) :=
  ⟨by decide, by decide, is_win_iff_run_of_five win_state.pieces ⟨8, 8⟩ 1 (by decide) (by decide)⟩

/-- The claim C13 at the empty cell (8,8) of `crowded_state`, for Black. -/
theorem is_long_chain_iff_run_over_five_witness :
    (⟨8, 8⟩ : point).is_valid = true ∧
      ((is_long_chain crowded_state.pieces ⟨8, 8⟩ 1 = true ↔
          ∃ d ∈ orientations, ∃ len : Nat,
            run_through crowded_state.pieces ⟨8, 8⟩ d 1 len ∧ 5 < len) ∧
        (∀ d ∈ orientations,
          ¬ (run_through crowded_state.pieces ⟨8, 8⟩ d 1 5 ∧
            ∃ len : Nat, run_through crowded_state.pieces ⟨8, 8⟩ d 1 len ∧ 5 < len))) :=
  ⟨by decide, is_long_chain_iff_run_over_five crowded_state.pieces ⟨8, 8⟩ 1 (by decide)⟩

end Gomoku
